import Mathlib

/-!
# Digraph: a shallow embedding of `core/Digraph.hpp`

The class template `Digraph<VertexInfo, EdgeInfo>` keeps one member,
`std::map<int, DigraphVertex<VertexInfo, EdgeInfo>> GraphMap`.  A `std::map<int, β>` is
embedded as an association list whose keys are strictly increasing (`StdMap`), a `std::list`
as a `List`, a thrown exception as the error case of `Except`.

A `double` is embedded as an IEEE 754 binary64 value (`Double`): a finite value is counted in
units of `2 ^ (-1074)`, a sum is rounded to nearest, ties to even, and overflows to an
infinity.  Every expression is taken to be evaluated in that format.

The local `int smallkey` of `findShortestPaths` is declared without an initialiser in every
pass of the loop.  What it holds when it is read without having been assigned is not fixed by
the source; the embedding takes that value, for each pass, as an argument of the run.
-/

namespace Traffic

/-! ## Failures -/

/-- The two ways a member function of `Digraph` ends without a result: a thrown
`DigraphException` (with its reason), or the `std::out_of_range` thrown by `std::map::at`. -/
inductive Failure where
  | digraphException (reason : String)
  | outOfRange
  deriving DecidableEq

/-! ## `std::map<int, β>` -/

/-- Entries of a `std::map<int, β>` in iteration order. -/
abbrev StdMap (β : Type) := List (Int × β)

namespace StdMap

variable {β : Type}

/-- The keys in iteration order. -/
def keys (m : StdMap β) : List Int := m.map Prod.fst

/-- The representation invariant of `std::map`: keys strictly increasing. -/
def Ordered (m : StdMap β) : Prop := (keys m).Pairwise (· < ·)

/-- Lookup, as in `m.find(k)` / `m.at(k)`: `none` when the key is absent. -/
def find : StdMap β → Int → Option β
  | [], _ => none
  | (k', v) :: rest, k => if k = k' then some v else find rest k

/-- The assignment `m[k] = v`: overwrites the entry of `k`, or inserts it at its place. -/
def assign : StdMap β → Int → β → StdMap β
  | [], k, v => [(k, v)]
  | (k', v') :: rest, k, v =>
    if k < k' then (k, v) :: (k', v') :: rest
    else if k = k' then (k, v) :: rest
    else (k', v') :: assign rest k v

/-- The call `m.erase(k)`: drops the entry of `k`, if there is one. -/
def erase : StdMap β → Int → StdMap β
  | [], _ => []
  | (k', v) :: rest, k => if k = k' then rest else (k', v) :: erase rest k

/-- The call `m.insert({k, v})`: adds the entry unless `k` already has one. -/
def insert (m : StdMap β) (k : Int) (v : β) : StdMap β :=
  match find m k with
  | some _ => m
  | none => assign m k v

/-- The call `m.insert(first, last)` with the entries of the range in iteration order. -/
def insertRange (m : StdMap β) (range : StdMap β) : StdMap β :=
  range.foldl (fun acc element => insert acc element.1 element.2) m

end StdMap

/-! ## `double` -/

/-- A value of the IEEE 754 binary64 type `double`.  Every finite `double` is an integer
multiple of `2 ^ (-1074)`, and `finite k` stands for the number `k * 2 ^ (-1074)`.  The two
zeros are one value here: none of the operations the code uses (`+`, `>`, `==`, and the
comparison of the priority queue) tells them apart.  The type holds every integer number of
units, more than `double` has values; what `round`, and so `add`, gives is a value of
`double`. -/
inductive Double where
  | finite (units : Int)
  | posInf
  | negInf
  | nan
  deriving DecidableEq

namespace Double

/-- The number of low bits of `n` that a significand of 53 bits has no room for. -/
def shift (n : Nat) : Nat := Nat.log2 n + 1 - 53

/-- The natural number `n` rounded to 53 significant bits, to nearest, ties to even. -/
def roundNat (n : Nat) : Nat :=
  let q := n / 2 ^ shift n
  let r := n % 2 ^ shift n
  if 2 * r < 2 ^ shift n then q * 2 ^ shift n
  else if 2 ^ shift n < 2 * r then (q + 1) * 2 ^ shift n
  else if q % 2 = 0 then q * 2 ^ shift n
  else (q + 1) * 2 ^ shift n

/-- The `double` that the exact value `k * 2 ^ (-1074)` rounds to in the default rounding
mode: to nearest, ties to even, and to an infinity when the rounded magnitude reaches
`2 ^ 1024`. -/
def round (k : Int) : Double :=
  if 2 ^ 2098 ≤ roundNat k.natAbs then (if k < 0 then negInf else posInf)
  else if k < 0 then finite (-(roundNat k.natAbs : Int))
  else finite (roundNat k.natAbs : Int)

/-- The sum `x + y` of two `double` values. -/
def add : Double → Double → Double
  | finite a, finite b => round (a + b)
  | finite _, posInf => posInf
  | finite _, negInf => negInf
  | posInf, finite _ => posInf
  | posInf, posInf => posInf
  | negInf, finite _ => negInf
  | negInf, negInf => negInf
  | _, _ => nan

/-- The comparison `x < y`; `y > x` is the same comparison. -/
def lt : Double → Double → Bool
  | finite a, finite b => decide (a < b)
  | finite _, posInf => true
  | negInf, finite _ => true
  | negInf, posInf => true
  | _, _ => false

/-- The comparison `x <= y`. -/
def le : Double → Double → Bool
  | finite a, finite b => decide (a ≤ b)
  | finite _, posInf => true
  | posInf, posInf => true
  | negInf, finite _ => true
  | negInf, posInf => true
  | negInf, negInf => true
  | _, _ => false

/-- The comparison `x == y`. -/
def eq : Double → Double → Bool
  | finite a, finite b => decide (a = b)
  | posInf, posInf => true
  | negInf, negInf => true
  | _, _ => false

/-- The largest finite `double`, `(2 ^ 53 - 1) * 2 ^ 971`, in units of `2 ^ (-1074)`. -/
def maxUnits : Nat := (2 ^ 53 - 1) * 2 ^ 2045

/-- The literal `0.0`. -/
def zero : Double := finite 0

/-- The `double` nearest to the natural number `n`. -/
def ofNat (n : Nat) : Double := round (n * 2 ^ 1074)

/-- The rational number a finite `double` stands for. -/
def toRat : Double → Option ℚ
  | finite k => some (k / 2 ^ 1074)
  | _ => none

end Double

/-! ## The graph store -/

/-- `struct DigraphEdge<EdgeInfo>`. -/
structure DigraphEdge (EdgeInfo : Type) where
  fromVertex : Int
  toVertex : Int
  einfo : EdgeInfo

/-- `struct DigraphVertex<VertexInfo, EdgeInfo>`. -/
structure DigraphVertex (VertexInfo EdgeInfo : Type) where
  vinfo : VertexInfo
  edges : List (DigraphEdge EdgeInfo)

/-- `class Digraph<VertexInfo, EdgeInfo>`: its only member is `GraphMap`. -/
structure Digraph (VertexInfo EdgeInfo : Type) where
  GraphMap : StdMap (DigraphVertex VertexInfo EdgeInfo)

namespace Digraph

variable {V E : Type}

/-- `Digraph()`: no vertices, no edges. -/
def empty : Digraph V E := ⟨[]⟩

/-- `vertices()`. -/
def vertices (g : Digraph V E) : List Int := StdMap.keys g.GraphMap

/-- `edges()`: the `(fromVertex, toVertex)` pairs of all stored edges. -/
def edges (g : Digraph V E) : List (Int × Int) :=
  g.GraphMap.flatMap fun element =>
    element.2.edges.map fun e => (e.fromVertex, e.toVertex)

/-- `edges(int vertex)`. -/
def edgesOf (g : Digraph V E) (vertex : Int) : Except Failure (List (Int × Int)) :=
  match StdMap.find g.GraphMap vertex with
  | none => .error (.digraphException "Given vertex does not exist.")
  | some dv => .ok (dv.edges.map fun e => (e.fromVertex, e.toVertex))

/-- `vertexInfo(int vertex)`. -/
def vertexInfo (g : Digraph V E) (vertex : Int) : Except Failure V :=
  match StdMap.find g.GraphMap vertex with
  | some dv => .ok dv.vinfo
  | none => .error (.digraphException "Vertex does not exist.")

/-- `edgeInfo(int fromVertex, int toVertex)`: `GraphMap.at(fromVertex)` comes first, then the
scan of the outgoing list for the first edge to `toVertex`. -/
def edgeInfo (g : Digraph V E) (fromVertex toVertex : Int) : Except Failure E :=
  match StdMap.find g.GraphMap fromVertex with
  | none => .error .outOfRange
  | some dv =>
    match dv.edges.find? (fun element => decide (toVertex = element.toVertex)) with
    | some element => .ok element.einfo
    | none =>
      .error (.digraphException "Edge does not exist or one of those vertices does not exist")

/-- `addVertex(int vertex, const VertexInfo& vinfo)`. -/
def addVertex (g : Digraph V E) (vertex : Int) (vinfo : V) : Except Failure (Digraph V E) :=
  match StdMap.find g.GraphMap vertex with
  | some _ =>
    .error (.digraphException "There is already a vertex in the graph with the given vertex number")
  | none => .ok ⟨StdMap.assign g.GraphMap vertex ⟨vinfo, []⟩⟩

/-- `addEdge(int fromVertex, int toVertex, const EdgeInfo& einfo)`: `edges(fromVertex)` is
called first, then both vertices are looked up, then the pair is searched in that list. -/
def addEdge (g : Digraph V E) (fromVertex toVertex : Int) (einfo : E) :
    Except Failure (Digraph V E) :=
  match edgesOf g fromVertex with
  | .error f => .error f
  | .ok edges_fromVertex =>
    match StdMap.find g.GraphMap fromVertex, StdMap.find g.GraphMap toVertex with
    | some dv, some _ =>
      if (fromVertex, toVertex) ∈ edges_fromVertex then
        .error (.digraphException "the same edge is already present in the graph")
      else
        .ok ⟨StdMap.assign g.GraphMap fromVertex
          ⟨dv.vinfo, dv.edges ++ [⟨fromVertex, toVertex, einfo⟩]⟩⟩
    | _, _ => .error (.digraphException "One of the vertices does not exist")

/-- `removeVertex(int vertex)`: after the check the entry of `vertex` is erased.  The loop
that follows runs `for (auto element : GraphMap)`, so `element` is a copy of an entry; what it
pops and pushes is the edge list of that copy, and `GraphMap` is not written again.  The
inner range-for goes on over the copied list while that list is popped and pushed; the
definition gives `GraphMap` as a call that returns leaves it, and does not tell whether the
call returns. -/
def removeVertex (g : Digraph V E) (vertex : Int) : Except Failure (Digraph V E) :=
  match StdMap.find g.GraphMap vertex with
  | none => .error (.digraphException "The vertex does not exist already.")
  | some _ => .ok ⟨StdMap.erase g.GraphMap vertex⟩

/-- The loop of `removeEdge` over `GraphMap.at(fromVertex).edges`, the list it pops and pushes
at the back.  The range-for keeps an iterator into that list; all changes are at the back, so
the iterator is followed by its position `i`: a pass runs while position `i` is inside the
list, takes `back()`, pops it, pushes it again unless it leads to `toVertex`, and moves on to
position `i + 1`.  The list never grows, so the number of passes is at most its first length,
which is what the first argument counts down.  A pass that pops the node the iterator stands
on leaves the iterator dangling; the definition follows it by position all the same, and gives
the list as a call that returns leaves it. -/
def removeEdgeLoop (toVertex : Int) : Nat → Nat → List (DigraphEdge E) → List (DigraphEdge E)
  | 0, _, l => l
  | fuel + 1, i, l =>
    if h : i < l.length then
      let element := l.getLast (List.ne_nil_of_length_pos (Nat.lt_of_le_of_lt (Nat.zero_le i) h))
      removeEdgeLoop toVertex fuel (i + 1)
        (if element.toVertex ≠ toVertex then l.dropLast ++ [element] else l.dropLast)
    else l

/-- `removeEdge(int fromVertex, int toVertex)`: `edges(fromVertex)` is called first, then both
vertices are looked up, then the pair is searched in that list, then the loop runs on the
outgoing list of `fromVertex`. -/
def removeEdge (g : Digraph V E) (fromVertex toVertex : Int) : Except Failure (Digraph V E) :=
  match edgesOf g fromVertex with
  | .error f => .error f
  | .ok edges_fromVertex =>
    match StdMap.find g.GraphMap fromVertex, StdMap.find g.GraphMap toVertex with
    | some dv, some _ =>
      if (fromVertex, toVertex) ∈ edges_fromVertex then
        .ok ⟨StdMap.assign g.GraphMap fromVertex
          ⟨dv.vinfo, removeEdgeLoop toVertex dv.edges.length 0 dv.edges⟩⟩
      else
        .error (.digraphException "the edge is not already present in the graph")
    | _, _ => .error (.digraphException "One of the vertices does not exist")

/-! ### The mutating calls as the caller sees them -/

/-- What a call of a mutating member function leaves behind: the graph as it stands when the
call ends, and the exception if the call ended by a `throw`. -/
abbrev Exit (V E : Type) := Digraph V E × Option Failure

/-- `addVertex`, statement by statement: the `throw` comes before the write to `GraphMap`. -/
def addVertexExit (g : Digraph V E) (vertex : Int) (vinfo : V) : Exit V E :=
  if (StdMap.find g.GraphMap vertex).isSome then
    (g, some (.digraphException
      "There is already a vertex in the graph with the given vertex number"))
  else
    (⟨StdMap.assign g.GraphMap vertex ⟨vinfo, []⟩⟩, none)

/-- `addEdge`, statement by statement: the `const` call `edges(fromVertex)`, the two lookups
and the search may each end the call by a `throw`; the `push_back` is the last statement. -/
def addEdgeExit (g : Digraph V E) (fromVertex toVertex : Int) (einfo : E) : Exit V E :=
  match edgesOf g fromVertex with
  | .error f => (g, some f)
  | .ok edges_fromVertex =>
    match StdMap.find g.GraphMap fromVertex, StdMap.find g.GraphMap toVertex with
    | some dv, some _ =>
      if (fromVertex, toVertex) ∈ edges_fromVertex then
        (g, some (.digraphException "the same edge is already present in the graph"))
      else
        (⟨StdMap.assign g.GraphMap fromVertex
          ⟨dv.vinfo, dv.edges ++ [⟨fromVertex, toVertex, einfo⟩]⟩⟩, none)
    | _, _ => (g, some (.digraphException "One of the vertices does not exist"))

/-- `removeVertex`, statement by statement: the `throw` comes before the `erase`. -/
def removeVertexExit (g : Digraph V E) (vertex : Int) : Exit V E :=
  if (StdMap.find g.GraphMap vertex).isSome then
    (⟨StdMap.erase g.GraphMap vertex⟩, none)
  else
    (g, some (.digraphException "The vertex does not exist already."))

/-- `removeEdge`, statement by statement: the `const` call `edges(fromVertex)`, the two
lookups and the search may each end the call by a `throw`; the loop comes last. -/
def removeEdgeExit (g : Digraph V E) (fromVertex toVertex : Int) : Exit V E :=
  match edgesOf g fromVertex with
  | .error f => (g, some f)
  | .ok edges_fromVertex =>
    match StdMap.find g.GraphMap fromVertex, StdMap.find g.GraphMap toVertex with
    | some dv, some _ =>
      if (fromVertex, toVertex) ∈ edges_fromVertex then
        (⟨StdMap.assign g.GraphMap fromVertex
          ⟨dv.vinfo, removeEdgeLoop toVertex dv.edges.length 0 dv.edges⟩⟩, none)
      else
        (g, some (.digraphException "the edge is not already present in the graph"))
    | _, _ => (g, some (.digraphException "One of the vertices does not exist"))

/-! ### Ownership transfer -/

/-- `GraphMap.clear()`. -/
def clear (_g : Digraph V E) : Digraph V E := ⟨[]⟩

/-- `std::swap(GraphMap, d.GraphMap)` on two distinct objects: `(this, d)` afterwards. -/
def swapGraphMap (this d : Digraph V E) : Digraph V E × Digraph V E :=
  (⟨d.GraphMap⟩, ⟨this.GraphMap⟩)

/-- `Digraph(Digraph&& d)`: the member `GraphMap` of the new object is default-constructed,
then cleared, then swapped with that of `d`.  The result is the new object and `d` after the
call. -/
def moveConstruct (d : Digraph V E) : Digraph V E × Digraph V E :=
  swapGraphMap (clear empty) d

/-- `operator=(Digraph&& d)` on an object `this` distinct from `d`: clear, then swap.  The
result is `this` and `d` after the call. -/
def moveAssign (this d : Digraph V E) : Digraph V E × Digraph V E :=
  swapGraphMap (clear this) d

/-! ### Copies -/

/-- `Digraph(const Digraph& d)`: the member `GraphMap` of the new object is cleared, then the
entries of `d.GraphMap` are inserted. -/
def copyConstruct (d : Digraph V E) : Digraph V E :=
  ⟨StdMap.insertRange (clear empty).GraphMap d.GraphMap⟩

/-- The `Digraph` objects of a program, by address.  `operator=(const Digraph& d)` takes its
argument by reference, so `d` may be the object assigned to. -/
abbrev Objects (V E : Type) := Nat → Digraph V E

/-- Writing the object at address `a`. -/
def setObject (objs : Objects V E) (a : Nat) (g : Digraph V E) : Objects V E :=
  fun x => if x = a then g else objs x

/-- `operator=(const Digraph& d)` called on the object at address `this` with `d` the object
at address `d`: first `GraphMap.clear()`, then
`GraphMap.insert(d.GraphMap.begin(), d.GraphMap.end())`, which reads `d` as it is after the
first statement. -/
def copyAssign (objs : Objects V E) (this d : Nat) : Objects V E :=
  let objs1 := setObject objs this (clear (objs this))
  setObject objs1 this ⟨StdMap.insertRange (objs1 this).GraphMap (objs1 d).GraphMap⟩

/-- `vertexCount()`. -/
def vertexCount (g : Digraph V E) : Nat := g.GraphMap.length

/-- `edgeCount()`. -/
def edgeCount (g : Digraph V E) : Nat := (edges g).length

/-! ## `isStronglyConnected` -/

/-- The body of the inner loop of `isStronglyConnected`: `visitmap_copy[toVertex]` reads
`false` for a key that is absent (it is default-inserted) or not yet marked; then the counter
goes up and the key is marked. -/
def visitEdge (st : StdMap Bool × Nat) (element : DigraphEdge E) : StdMap Bool × Nat :=
  if (StdMap.find st.1 element.toVertex).getD false = false then
    (StdMap.assign st.1 element.toVertex true, st.2 + 1)
  else st

/-- The first loop of `isStronglyConnected`: every vertex mapped to `false`. -/
def visitedmapInit (g : Digraph V E) : StdMap Bool :=
  g.GraphMap.foldl (fun m key => StdMap.assign m key.1 false) []

/-- The counter `vertex_count` after the inner loop over the outgoing edges of one vertex. -/
def visitCount (g : Digraph V E) (key : Int × DigraphVertex V E) : Nat :=
  (key.2.edges.foldl visitEdge (visitedmapInit g, 0)).2

/-- `isStronglyConnected()`: `false` at the first vertex whose counter differs from
`vertexCount()`, `true` when there is none. -/
def isStronglyConnected (g : Digraph V E) : Bool :=
  g.GraphMap.all fun key => decide (visitCount g key = vertexCount g)

/-! ## `findShortestPaths` -/

/-- `std::numeric_limits<double>::max()`, the largest finite `double`. -/
def DBL_MAX : Double := .finite Double.maxUnits

/-- `distance_queue.push(x)` on the min-heap
`std::priority_queue<double, std::vector<double>, std::greater<double>>`, kept as the
ascending list of its values: `top()` is the head, `pop()` drops the head. -/
def pqPush (x : Double) : List Double → List Double
  | [] => [x]
  | y :: ys => if Double.lt y x then y :: pqPush x ys else x :: y :: ys

/-- The local variables of `findShortestPaths` that live across the passes of the `while`
loop. -/
structure SPState where
  kmap : StdMap Bool
  dmap : StdMap Double
  pmap : StdMap Int
  distance_queue : List Double

/-- The state on entry to the `while` loop: the three maps filled from `GraphMap`,
`dmap[startVertex] = 0.0`, and that value pushed on the queue. -/
def spInit (g : Digraph V E) (startVertex : Int) : SPState :=
  { kmap := g.GraphMap.foldl (fun m key => StdMap.assign m key.1 false) []
    dmap := StdMap.assign
      (g.GraphMap.foldl (fun m key => StdMap.assign m key.1 DBL_MAX) []) startVertex
      Double.zero
    pmap := g.GraphMap.foldl (fun m key => StdMap.assign m key.1 key.1) []
    distance_queue := pqPush Double.zero [] }

/-- The declaration `int smallkey;` followed by the scan
`for (auto element : dmap) if (element.second == top) smallkey = element.first;`.  The
declaration has no initialiser, so `smallkey` starts the scan with an indeterminate value,
the argument `indeterminate`.  The last key whose distance equals `top` wins; without a match
`smallkey` still holds the indeterminate value when it is read after the scan. -/
def selectSmallkey (dmap : StdMap Double) (top : Double) (indeterminate : Int) : Int :=
  dmap.foldl (fun s element => if Double.eq element.2 top then element.1 else s) indeterminate

/-- What the relaxation loop updates. -/
structure Relax where
  dmap : StdMap Double
  pmap : StdMap Int
  distance_queue : List Double

/-- One pass of the loop over the outgoing edges of `smallkey`; `dmap.at` throws
`std::out_of_range` on an absent key. -/
def relaxEdge (edgeWeightFunc : E → Double) (smallkey : Int) (r : Relax) (edge : DigraphEdge E) :
    Except Failure Relax :=
  match StdMap.find r.dmap edge.toVertex, StdMap.find r.dmap smallkey with
  | some dto, some dsmall =>
    if Double.lt (Double.add dsmall (edgeWeightFunc edge.einfo)) dto then
      .ok { dmap := StdMap.assign r.dmap edge.toVertex
              (Double.add dsmall (edgeWeightFunc edge.einfo))
            pmap := StdMap.assign r.pmap edge.toVertex smallkey
            distance_queue :=
              pqPush (Double.add dsmall (edgeWeightFunc edge.einfo)) r.distance_queue }
    else .ok r
  | _, _ => .error .outOfRange

/-- The loop `for (auto edge : GraphMap.at(smallkey).edges)`. -/
def relaxEdges (edgeWeightFunc : E → Double) (smallkey : Int) :
    List (DigraphEdge E) → Relax → Except Failure Relax
  | [], r => .ok r
  | edge :: rest, r =>
    match relaxEdge edgeWeightFunc smallkey r edge with
    | .error f => .error f
    | .ok r' => relaxEdges edgeWeightFunc smallkey rest r'

/-- One pass of the `while` loop, entered with `top` the top of the queue, `rest` the queue
after `pop()`, and `indeterminate` the value the fresh `smallkey` of this pass holds before the
scan.  `kmap[smallkey]` reads `false` for an absent key; `GraphMap.at(smallkey)` throws
`std::out_of_range` for one. -/
def spBody (g : Digraph V E) (edgeWeightFunc : E → Double) (st : SPState) (top : Double)
    (rest : List Double) (indeterminate : Int) : Except Failure SPState :=
  let smallkey := selectSmallkey st.dmap top indeterminate
  if (StdMap.find st.kmap smallkey).getD false = false then
    match StdMap.find g.GraphMap smallkey with
    | none => .error .outOfRange
    | some dv =>
      match relaxEdges edgeWeightFunc smallkey dv.edges ⟨st.dmap, st.pmap, rest⟩ with
      | .error f => .error f
      | .ok r =>
        .ok { kmap := StdMap.assign st.kmap smallkey true
              dmap := r.dmap
              pmap := r.pmap
              distance_queue := r.distance_queue }
  else
    .ok { st with distance_queue := rest }

/-- The `while (!distance_queue.empty())` loop from pass number `pass` on, run for at most
`fuel` passes: `none` when the passes are used up before the queue is empty.
`indeterminate i` is the value that the uninitialised `smallkey` of pass `i` holds. -/
def spLoop (g : Digraph V E) (edgeWeightFunc : E → Double) (indeterminate : Nat → Int) :
    Nat → Nat → SPState → Option (Except Failure SPState)
  | 0, _, _ => none
  | fuel + 1, pass, st =>
    match st.distance_queue with
    | [] => some (.ok st)
    | top :: rest =>
      match spBody g edgeWeightFunc st top rest (indeterminate pass) with
      | .error f => some (.error f)
      | .ok st' => spLoop g edgeWeightFunc indeterminate fuel (pass + 1) st'

/-- `findShortestPaths(startVertex, edgeWeightFunc)`: the returned `pmap`, or the exception
thrown.  The source does not fix what an uninitialised `smallkey` holds; a run is determined
once `indeterminate` gives that value for every pass (it is read only in a pass whose scan
finds no distance equal to the top of the queue).  The loop is given `edgeCount() + 2` passes,
which `findShortestPaths_fuel` shows to be enough. -/
def findShortestPaths (g : Digraph V E) (startVertex : Int) (edgeWeightFunc : E → Double)
    (indeterminate : Nat → Int) : Option (Except Failure (StdMap Int)) :=
  match spLoop g edgeWeightFunc indeterminate (edgeCount g + 2) 0 (spInit g startVertex) with
  | none => none
  | some (.error f) => some (.error f)
  | some (.ok st) => some (.ok st.pmap)

/-- Counters added to the run of the `while` loop: the passes begun, the values pushed on
`distance_queue` (the push before the loop included), and the vertices whose outgoing edges
were relaxed, latest first. -/
structure SPCount where
  passes : Nat
  pushes : Nat
  settled : List Int

/-- The counters on entry to the loop: `dmap[startVertex]` has been pushed. -/
def spCountInit : SPCount := ⟨0, 1, []⟩

/-- The counters after a pass that selected `smallkey` and went from `st` (with `rest` the
queue after `pop()`) to `st'`: every push lengthens the queue by one value, and the edges of
`smallkey` were relaxed when `kmap` read `false` for it. -/
def spCountPass (st : SPState) (smallkey : Int) (st' : SPState) (rest : List Double)
    (c : SPCount) : SPCount :=
  { passes := c.passes + 1
    pushes := c.pushes + (st'.distance_queue.length - rest.length)
    settled :=
      if (StdMap.find st.kmap smallkey).getD false = false then smallkey :: c.settled
      else c.settled }

/-- The loop `spLoop` with the counters carried along; the pass number is the counter
`passes`.  A pass that throws is counted as a pass; on graphs whose edges lead to present
vertices the only throw is that of `GraphMap.at(smallkey)`, before anything is pushed. -/
def spLoopCounted (g : Digraph V E) (edgeWeightFunc : E → Double) (indeterminate : Nat → Int) :
    Nat → SPState → SPCount → Option (Except Failure SPState × SPCount)
  | 0, _, _ => none
  | fuel + 1, st, c =>
    match st.distance_queue with
    | [] => some (.ok st, c)
    | top :: rest =>
      match spBody g edgeWeightFunc st top rest (indeterminate c.passes) with
      | .error f => some (.error f, { c with passes := c.passes + 1 })
      | .ok st' =>
        spLoopCounted g edgeWeightFunc indeterminate fuel st'
          (spCountPass st (selectSmallkey st.dmap top (indeterminate c.passes)) st' rest c)

/-! ## Directed paths -/

/-- The graph has an edge from `u` to `v`: an entry to `v` in the outgoing list of `u`. -/
def Adj (g : Digraph V E) (u v : Int) : Prop :=
  ∃ dv, StdMap.find g.GraphMap u = some dv ∧ ∃ e ∈ dv.edges, e.toVertex = v

/-- There is a directed path (possibly of length 0) from `u` to `v`. -/
def Reachable (g : Digraph V E) (u v : Int) : Prop := Relation.ReflTransGen (Adj g) u v

/-- The map invariant together with the endpoint invariant: every edge is stored in the
outgoing list of its `fromVertex`, and its `toVertex` is a vertex of the graph. -/
def WellFormed (g : Digraph V E) : Prop :=
  StdMap.Ordered g.GraphMap ∧
  ∀ key ∈ g.GraphMap, ∀ e ∈ key.2.edges, e.fromVertex = key.1 ∧ e.toVertex ∈ vertices g

/-! ## Notions used in the proofs -/

/-- Edges still to be relaxed: the outgoing edges of the vertices not yet marked in `kmap`. -/
def pending (g : Digraph V E) (kmap : StdMap Bool) : Nat :=
  (g.GraphMap.map fun key =>
    if StdMap.find kmap key.1 = some true then 0 else key.2.edges.length).sum

/-- The quantity that goes down with every pass of the `while` loop. -/
def spMeasure (g : Digraph V E) (st : SPState) : Nat :=
  st.distance_queue.length + pending g st.kmap

/-- Shape of the maps during the relaxation loop: `dmap` and `pmap` have one entry per vertex
and every recorded predecessor is a vertex. -/
def RelaxInv (g : Digraph V E) (r : Relax) : Prop :=
  StdMap.keys r.dmap = vertices g ∧ StdMap.keys r.pmap = vertices g ∧
    ∀ p ∈ r.pmap, p.2 ∈ vertices g

/-- Shape of the loop state: the maps as in `RelaxInv`. -/
def SPInv (g : Digraph V E) (st : SPState) : Prop :=
  RelaxInv g ⟨st.dmap, st.pmap, st.distance_queue⟩

/-- A distance as the loop holds it under non-negative weights: a finite `double` between
`0.0` and `DBL_MAX`. -/
def IsDistance (d : Double) : Prop :=
  ∃ a : Nat, d = .finite a ∧ Double.roundNat a = a ∧ a ≤ Double.maxUnits

/-- What the distances and predecessors keep under non-negative weights: every distance is a
`double` between `0.0` and `DBL_MAX`, the start vertex keeps distance `0.0` and itself as
predecessor, a distance below `DBL_MAX` belongs to a vertex reachable from the start vertex,
and a vertex not reachable from it keeps itself as predecessor. -/
def DistInv (g : Digraph V E) (s : Int) (dmap : StdMap Double) (pmap : StdMap Int) : Prop :=
  (∀ k d, StdMap.find dmap k = some d → IsDistance d) ∧
  StdMap.find dmap s = some Double.zero ∧
  StdMap.find pmap s = some s ∧
  (∀ k d, StdMap.find dmap k = some d → Double.lt d DBL_MAX = true → Reachable g s k) ∧
  (∀ k ∈ vertices g, ¬ Reachable g s k → StdMap.find pmap k = some k)

/-! ## Reading a predecessor map -/

/-- The vertices met when following the predecessor map `m` from `v` back to `start`, listed
from `start` to `v`; `none` when `start` is not met within `fuel` steps. -/
def predPath (m : StdMap Int) (start : Int) : Nat → Int → Option (List Int)
  | 0, v => if v = start then some [v] else none
  | fuel + 1, v =>
    if v = start then some [v]
    else
      match StdMap.find m v with
      | none => none
      | some p => (predPath m start fuel p).map (· ++ [v])

/-- Total weight, as an exact rational number, of the edges between consecutive vertices of a
path, each read with `edgeInfo`; `none` when one of them is not an edge or has a weight that is
not finite. -/
def pathWeight (g : Digraph V E) (edgeWeightFunc : E → Double) : List Int → Option ℚ
  | [] => some 0
  | [_] => some 0
  | u :: v :: rest =>
    match edgeInfo g u v, pathWeight g edgeWeightFunc (v :: rest) with
    | .ok x, some t =>
      match Double.toRat (edgeWeightFunc x) with
      | some q => some (q + t)
      | none => none
    | _, _ => none

/-- The list `c` holds the vertices met from `v` back to `start` along the predecessor map
`m`, `v` first and `start` last. -/
inductive PredChain (m : StdMap Int) (start : Int) : Int → List Int → Prop where
  | start : PredChain m start start [start]
  | link {v p : Int} {c : List Int} : v ≠ start → StdMap.find m v = some p →
      PredChain m start p c → PredChain m start v (v :: c)

/-! ## Calls and sequences of calls -/

/-- The result of a call with the graph dropped when the call threw. -/
def exitResult (x : Exit V E) : Except Failure (Digraph V E) :=
  match x.2 with
  | none => .ok x.1
  | some f => .error f

/-- A call of one of the four mutating member functions. -/
inductive Op (V E : Type) where
  | addVertex (vertex : Int) (vinfo : V)
  | addEdge (fromVertex toVertex : Int) (einfo : E)
  | removeVertex (vertex : Int)
  | removeEdge (fromVertex toVertex : Int)

/-- The call `op` made on the graph `g`. -/
def applyOp (g : Digraph V E) : Op V E → Except Failure (Digraph V E)
  | .addVertex vertex vinfo => addVertex g vertex vinfo
  | .addEdge fromVertex toVertex einfo => addEdge g fromVertex toVertex einfo
  | .removeVertex vertex => removeVertex g vertex
  | .removeEdge fromVertex toVertex => removeEdge g fromVertex toVertex

/-- A sequence of calls made one after the other, stopping at the first that throws. -/
def runOps (g : Digraph V E) : List (Op V E) → Except Failure (Digraph V E)
  | [] => .ok g
  | op :: rest =>
    match applyOp g op with
    | .ok g' => runOps g' rest
    | .error f => .error f

/-- The graph is what some finite sequence of successful calls of `addVertex`, `addEdge`,
`removeVertex` and `removeEdge` makes of the empty graph. -/
def Built (g : Digraph V E) : Prop := ∃ ops : List (Op V E), runOps empty ops = .ok g

/-- The map invariant, and every edge stored in the outgoing list of its `fromVertex`. -/
def Stored (g : Digraph V E) : Prop :=
  StdMap.Ordered g.GraphMap ∧ ∀ key ∈ g.GraphMap, ∀ e ∈ key.2.edges, e.fromVertex = key.1

/-- No outgoing list holds two edges to the same vertex. -/
def UniqueTargets (g : Digraph V E) : Prop :=
  ∀ key ∈ g.GraphMap, (key.2.edges.map (·.toVertex)).Nodup

/-! ## The route walk of `main` -/

/-- `struct records` of `main.cpp`. -/
structure records (V E : Type) where
  vertex : Int
  location : V
  info : E

/-- `route[k]` on the `std::map<int, int>` returned by `findShortestPaths`: an absent key is
default-inserted and reads 0. -/
def routeAt (route : StdMap Int) (k : Int) : Int := (StdMap.find route k).getD 0

/-- The loop `while (single_trip.startVertex != destination)` of `main`, run for at most
`fuel` passes: `none` when the passes are used up before `destination` is the start vertex.
An exception of `vertexInfo` or `edgeInfo` is not caught in `main` and ends the walk. -/
def walkLoop (g : Digraph V E) (route : StdMap Int) (startVertex : Int) :
    Nat → Int → List (records V E) → Option (Except Failure (List (records V E)))
  | 0, destination, target_trip =>
    if startVertex ≠ destination then none else some (.ok target_trip)
  | fuel + 1, destination, target_trip =>
    if startVertex ≠ destination then
      match vertexInfo g (routeAt route destination) with
      | .error f => some (.error f)
      | .ok location =>
        match edgeInfo g (routeAt route destination) destination with
        | .error f => some (.error f)
        | .ok info =>
          walkLoop g route startVertex fuel (routeAt route destination)
            (target_trip ++ [⟨routeAt route destination, location, info⟩])
    else some (.ok target_trip)

/-- The walk of `main` for one trip, from `destination = single_trip.endVertex`: the record of
the end vertex, with `edgeInfo(route[destination], destination)`, then the loop.  The result is
`target_trip`. -/
def routeWalk (g : Digraph V E) (route : StdMap Int) (startVertex endVertex : Int)
    (fuel : Nat) : Option (Except Failure (List (records V E))) :=
  match vertexInfo g endVertex with
  | .error f => some (.error f)
  | .ok location =>
    match edgeInfo g (routeAt route endVertex) endVertex with
    | .error f => some (.error f)
    | .ok info => walkLoop g route startVertex fuel endVertex [⟨endVertex, location, info⟩]

/-- One trip of `main`: `route = Graph.findShortestPaths(startVertex, metric)`, then the
walk. -/
def tripWalk (g : Digraph V E) (metric : E → Double) (indeterminate : Nat → Int)
    (startVertex endVertex : Int) (fuel : Nat) :
    Option (Except Failure (List (records V E))) :=
  match findShortestPaths g startVertex metric indeterminate with
  | none => none
  | some (.error f) => some (.error f)
  | some (.ok route) => routeWalk g route startVertex endVertex fuel

/-! ## Notions used in the proofs about the counters and the predecessor links -/

/-- What the loop keeps of the counters: the maps have their shape, a settled vertex is a
vertex marked in `kmap`, no vertex is settled twice, and pushes and passes stay within
`1 + edgeCount()`. -/
def CountInv (g : Digraph V E) (st : SPState) (c : SPCount) : Prop :=
  SPInv g st ∧
  (∀ k ∈ c.settled, StdMap.find st.kmap k = some true ∧ k ∈ vertices g) ∧
  c.settled.Nodup ∧
  c.pushes + pending g st.kmap ≤ 1 + edgeCount g ∧
  c.passes + spMeasure g st ≤ 1 + edgeCount g

/-- The distance of `x` in units of `2 ^ (-1074)`; 0 when `dmap` holds no finite distance for
it. -/
def distOf (dmap : StdMap Double) (x : Int) : Int :=
  match StdMap.find dmap x with
  | some (.finite k) => k
  | _ => 0

/-- Along the list no vertex comes twice and the values of `f` do not go up. -/
def Descending (f : Int → Int) (c : List Int) : Prop :=
  c.Pairwise (fun x y => x ≠ y ∧ f y ≤ f x)

/-- The predecessor links form a tree: a predecessor other than the vertex itself has an edge
to the vertex, and the vertex has a distance below `DBL_MAX`; from every vertex with a
distance below `DBL_MAX` the links lead back to the start vertex, along vertices none of
which is met twice and whose distances do not go up. -/
def TreeInv (g : Digraph V E) (s : Int) (dmap : StdMap Double) (pmap : StdMap Int) : Prop :=
  (∀ v p, StdMap.find pmap v = some p → p ≠ v →
    Adj g p v ∧ ∃ dv, StdMap.find dmap v = some dv ∧ Double.lt dv DBL_MAX = true) ∧
  (∀ v dv, StdMap.find dmap v = some dv → Double.lt dv DBL_MAX = true →
    ∃ c, PredChain pmap s v c ∧ Descending (distOf dmap) c)

/-- The arithmetic of the worked scenario, for values `z`, `a`, `b`, `c`, `e`, `M` in the
places of 0, 1, 2, 3, 5 and `DBL_MAX`. -/
structure ScenarioValues (w : ℕ → Double) (z a b c e M : Double) : Prop where
  hzz : Double.eq z z = true
  hMz : Double.eq M z = false
  hza : Double.eq z a = false
  haa : Double.eq a a = true
  hea : Double.eq e a = false
  hMa : Double.eq M a = false
  hzb : Double.eq z b = false
  hab : Double.eq a b = false
  hbb : Double.eq b b = true
  hMb : Double.eq M b = false
  hzc : Double.eq z c = false
  hac : Double.eq a c = false
  hbc : Double.eq b c = false
  hcc : Double.eq c c = true
  hze : Double.eq z e = false
  hae : Double.eq a e = false
  hbe : Double.eq b e = false
  hce : Double.eq c e = false
  add_z1 : Double.add z (w 1) = a
  add_z5 : Double.add z (w 5) = e
  add_a1 : Double.add a (w 1) = b
  add_b1 : Double.add b (w 1) = c
  lt_aM : Double.lt a M = true
  lt_eM : Double.lt e M = true
  lt_be : Double.lt b e = true
  lt_cM : Double.lt c M = true
  lt_ae : Double.lt a e = true
  lt_eb : Double.lt e b = false
  lt_ec : Double.lt e c = false

/-! ## Concrete graphs -/

/-- The edge payload of the weighted concrete graphs is the weight itself, a natural
number. -/
def natWeight (n : ℕ) : Double := Double.ofNat n

/-- The worked scenario: vertices 0, 1, 2, 3 added in that order, then the edges 0->1
(weight 1), 1->2 (weight 1), 0->2 (weight 5), 2->3 (weight 1). -/
def scenario : Except Failure (Digraph Unit ℕ) := do
  let g ← addVertex empty 0 ()
  let g ← addVertex g 1 ()
  let g ← addVertex g 2 ()
  let g ← addVertex g 3 ()
  let g ← addEdge g 0 1 1
  let g ← addEdge g 1 2 1
  let g ← addEdge g 0 2 5
  addEdge g 2 3 1

/-- The graph `scenario` evaluates to. -/
def scenarioGraph : Digraph Unit ℕ :=
  ⟨[(0, ⟨(), [⟨0, 1, 1⟩, ⟨0, 2, 5⟩]⟩), (1, ⟨(), [⟨1, 2, 1⟩]⟩), (2, ⟨(), [⟨2, 3, 1⟩]⟩),
    (3, ⟨(), []⟩)]⟩

/-- Two vertices at the same distance from the start vertex, the cheap way to vertex 3 going
through the smaller one: edges 0->1 (1), 0->2 (1), 1->3 (1), 2->3 (5). -/
def tieDetour : Except Failure (Digraph Unit ℕ) := do
  let g ← addVertex empty 0 ()
  let g ← addVertex g 1 ()
  let g ← addVertex g 2 ()
  let g ← addVertex g 3 ()
  let g ← addEdge g 0 1 1
  let g ← addEdge g 0 2 1
  let g ← addEdge g 1 3 1
  addEdge g 2 3 5

/-- The graph `tieDetour` evaluates to. -/
def tieDetourGraph : Digraph Unit ℕ :=
  ⟨[(0, ⟨(), [⟨0, 1, 1⟩, ⟨0, 2, 1⟩]⟩), (1, ⟨(), [⟨1, 3, 1⟩]⟩), (2, ⟨(), [⟨2, 3, 5⟩]⟩),
    (3, ⟨(), []⟩)]⟩

/-- Two vertices at the same distance from the start vertex, vertex 3 behind the smaller one
only: edges 0->1 (1), 0->2 (1), 1->3 (1). -/
def tieOrphan : Except Failure (Digraph Unit ℕ) := do
  let g ← addVertex empty 0 ()
  let g ← addVertex g 1 ()
  let g ← addVertex g 2 ()
  let g ← addVertex g 3 ()
  let g ← addEdge g 0 1 1
  let g ← addEdge g 0 2 1
  addEdge g 1 3 1

/-- The graph `tieOrphan` evaluates to. -/
def tieOrphanGraph : Digraph Unit ℕ :=
  ⟨[(0, ⟨(), [⟨0, 1, 1⟩, ⟨0, 2, 1⟩]⟩), (1, ⟨(), [⟨1, 3, 1⟩]⟩), (2, ⟨(), []⟩), (3, ⟨(), []⟩)]⟩

/-- Weights at which a `double` sum is rounded: vertices 0, 1, 2 added in that order, then
the edges 0->1 (weight 3), 1->2 (weight 10^16), 0->2 (weight 10^16 + 4). -/
def rounding : Except Failure (Digraph Unit ℕ) := do
  let g ← addVertex empty 0 ()
  let g ← addVertex g 1 ()
  let g ← addVertex g 2 ()
  let g ← addEdge g 0 1 3
  let g ← addEdge g 1 2 10000000000000000
  addEdge g 0 2 10000000000000004

/-- The graph `rounding` evaluates to. -/
def roundingGraph : Digraph Unit ℕ :=
  ⟨[(0, ⟨(), [⟨0, 1, 3⟩, ⟨0, 2, 10000000000000004⟩]⟩), (1, ⟨(), [⟨1, 2, 10000000000000000⟩]⟩),
    (2, ⟨(), []⟩)]⟩

/-- The empty graph, then `addVertex` for 0, 1, 2, then `addEdge` for 0->1, 1->2, 2->0: one
directed cycle through all vertices. -/
def threeCycle : Except Failure (Digraph Unit Unit) := do
  let g ← addVertex empty 0 ()
  let g ← addVertex g 1 ()
  let g ← addVertex g 2 ()
  let g ← addEdge g 0 1 ()
  let g ← addEdge g 1 2 ()
  addEdge g 2 0 ()

/-- The graph `threeCycle` evaluates to. -/
def threeCycleGraph : Digraph Unit Unit :=
  ⟨[(0, ⟨(), [⟨0, 1, ()⟩]⟩), (1, ⟨(), [⟨1, 2, ()⟩]⟩), (2, ⟨(), [⟨2, 0, ()⟩]⟩)]⟩

/-- Vertices 0 and 1 with the single edge 0->1. -/
def oneEdgeGraph : Digraph Unit Unit :=
  ⟨[(0, ⟨(), [⟨0, 1, ()⟩]⟩), (1, ⟨(), []⟩)]⟩

/-- Vertices 0, 1, 2 with the edges 0->1 (payload 10) and 0->2 (payload 20), added in that
order. -/
def fork : Except Failure (Digraph Unit ℕ) := do
  let g ← addVertex empty 0 ()
  let g ← addVertex g 1 ()
  let g ← addVertex g 2 ()
  let g ← addEdge g 0 1 10
  addEdge g 0 2 20

/-- The graph `fork` evaluates to. -/
def forkGraph : Digraph Unit ℕ :=
  ⟨[(0, ⟨(), [⟨0, 1, 10⟩, ⟨0, 2, 20⟩]⟩), (1, ⟨(), []⟩), (2, ⟨(), []⟩)]⟩

/-- The calls that build `forkGraph`. -/
def forkOps : List (Op Unit ℕ) :=
  [.addVertex 0 (), .addVertex 1 (), .addVertex 2 (), .addEdge 0 1 10, .addEdge 0 2 20]

end Digraph

/-! # Theorems -/

/-! ## `std::map` -/

namespace StdMap

variable {β : Type}

theorem find_assign (m : StdMap β) (k : Int) (v : β) (k' : Int) :
    find (assign m k v) k' = if k' = k then some v else find m k' := by
  induction m with
  | nil => simp [assign, find]
  | cons hd tl ih =>
    obtain ⟨a, b⟩ := hd
    by_cases h1 : k < a
    · simp [assign, find, h1]
    · by_cases h2 : k = a
      · subst h2
        by_cases h3 : k' = k <;> simp [assign, find, h3]
      · simp only [assign, h1, h2, if_false, find, ih]
        by_cases h3 : k' = a
        · have : k' ≠ k := fun h => h2 (h ▸ h3)
          simp [h3, Ne.symm h2]
        · simp [h3]

theorem mem_assign {m : StdMap β} {k : Int} {v : β} {p : Int × β}
    (h : p ∈ assign m k v) : p = (k, v) ∨ p ∈ m := by
  induction m with
  | nil => simpa [assign] using h
  | cons hd tl ih =>
    obtain ⟨a, b⟩ := hd
    by_cases h1 : k < a
    · simp only [assign, h1, if_true, List.mem_cons] at h
      rcases h with h | h | h
      · exact Or.inl h
      · exact Or.inr (by simp [h])
      · exact Or.inr (by simp [h])
    · by_cases h2 : k = a
      · subst h2
        simp only [assign, lt_irrefl, if_false, if_true, List.mem_cons] at h
        rcases h with h | h
        · exact Or.inl h
        · exact Or.inr (by simp [h])
      · simp only [assign, h1, h2, if_false, List.mem_cons] at h
        rcases h with h | h
        · exact Or.inr (by simp [h])
        · rcases ih h with h | h
          · exact Or.inl h
          · exact Or.inr (by simp [h])

theorem mem_assign_self (m : StdMap β) (k : Int) (v : β) : (k, v) ∈ assign m k v := by
  induction m with
  | nil => simp [assign]
  | cons hd tl ih =>
    obtain ⟨a, b⟩ := hd
    by_cases h1 : k < a
    · simp [assign, h1]
    · by_cases h2 : k = a
      · simp [assign, h2]
      · simp [assign, h1, h2, ih]

theorem find_eq_none_iff (m : StdMap β) (k : Int) : find m k = none ↔ k ∉ keys m := by
  induction m with
  | nil => simp [find, keys]
  | cons hd tl ih =>
    obtain ⟨a, b⟩ := hd
    by_cases h : k = a
    · simp [find, keys, h]
    · simp only [find, h, if_false, ih]
      simp [keys, h]

theorem mem_keys_iff (m : StdMap β) (k : Int) : k ∈ keys m ↔ ∃ v, find m k = some v := by
  have := find_eq_none_iff m k
  cases h : find m k with
  | none => simp [h] at this; simp [this]
  | some v => simp [h] at this; simp [this]

theorem mem_of_find {m : StdMap β} {k : Int} {v : β} (h : find m k = some v) : (k, v) ∈ m := by
  induction m with
  | nil => simp [find] at h
  | cons hd tl ih =>
    obtain ⟨a, b⟩ := hd
    by_cases h1 : k = a
    · simp [find, h1] at h
      simp [h1, h]
    · simp only [find, h1, if_false] at h
      exact List.mem_cons_of_mem _ (ih h)

theorem find_of_mem {m : StdMap β} (ho : Ordered m) {k : Int} {v : β} (h : (k, v) ∈ m) :
    find m k = some v := by
  induction m with
  | nil => simp at h
  | cons hd tl ih =>
    obtain ⟨a, b⟩ := hd
    simp only [Ordered, keys, List.map_cons, List.pairwise_cons] at ho
    rcases List.mem_cons.mp h with h | h
    · simp only [Prod.mk.injEq] at h
      simp [find, h.1, h.2]
    · have hk : k ∈ tl.map Prod.fst := List.mem_map.mpr ⟨(k, v), h, rfl⟩
      have hlt := ho.1 k hk
      have hne : k ≠ a := ne_of_gt hlt
      simp only [find, hne, if_false]
      exact ih ho.2 h

theorem ordered_nodup {m : StdMap β} (ho : Ordered m) : (keys m).Nodup :=
  List.Pairwise.imp (fun h => ne_of_lt h) ho

theorem keys_assign_of_mem {m : StdMap β} (ho : Ordered m) {k : Int} (hk : k ∈ keys m) (v : β) :
    keys (assign m k v) = keys m := by
  induction m with
  | nil => simp [keys] at hk
  | cons hd tl ih =>
    obtain ⟨a, b⟩ := hd
    simp only [Ordered, keys, List.map_cons, List.pairwise_cons] at ho
    simp only [keys, List.map_cons, List.mem_cons] at hk
    by_cases h2 : k = a
    · simp [assign, h2, keys]
    · have hk' : k ∈ tl.map Prod.fst := by
        rcases hk with hk | hk
        · exact absurd hk h2
        · exact hk
      have h1 : ¬ k < a := not_lt.mpr (le_of_lt (ho.1 k hk'))
      simp only [assign, h1, h2, if_false, keys, List.map_cons]
      congr 1
      exact ih ho.2 hk'

theorem assign_append {m : StdMap β} {k : Int} (h : ∀ k' ∈ keys m, k' < k) (v : β) :
    assign m k v = m ++ [(k, v)] := by
  induction m with
  | nil => simp [assign]
  | cons hd tl ih =>
    obtain ⟨a, b⟩ := hd
    have ha : a < k := h a (by simp [keys])
    have h1 : ¬ k < a := not_lt.mpr (le_of_lt ha)
    have h2 : k ≠ a := ne_of_gt ha
    simp only [assign, h1, h2, if_false, List.cons_append]
    congr 1
    exact ih (fun k' hk' => h k' (by simp [keys] at hk' ⊢; exact Or.inr hk'))

/-- Filling a map from an ordered list of entries, as the initialisation loops do. -/
theorem foldl_assign_eq {α : Type} (f : Int × α → β) (l : List (Int × α)) (acc : StdMap β)
    (hl : (l.map Prod.fst).Pairwise (· < ·))
    (hacc : ∀ k' ∈ keys acc, ∀ k ∈ l.map Prod.fst, k' < k) :
    l.foldl (fun m key => assign m key.1 (f key)) acc = acc ++ l.map (fun key => (key.1, f key)) := by
  induction l generalizing acc with
  | nil => simp
  | cons hd tl ih =>
    simp only [List.map_cons, List.pairwise_cons] at hl
    simp only [List.foldl_cons]
    rw [assign_append (fun k' hk' => hacc k' hk' hd.1 (by simp))]
    rw [ih _ hl.2]
    · simp
    · intro k' hk' k hk
      simp only [keys, List.map_append, List.map_cons, List.map_nil, List.mem_append,
        List.mem_singleton] at hk'
      rcases hk' with hk' | hk'
      · exact hacc k' hk' k (by simp at hk ⊢; exact Or.inr hk)
      · rw [hk']; exact hl.1 k hk

end StdMap

/-! ## Rounding to 53 significant bits -/

namespace Double

theorem log2_mono {a b : Nat} (h : a ≤ b) : Nat.log2 a ≤ Nat.log2 b := by
  by_cases ha : a = 0
  · subst ha; simp [Nat.log2_zero]
  · have hb : b ≠ 0 := by omega
    have : Nat.log2 a < Nat.log2 b + 1 := by
      rw [Nat.log2_lt ha]
      exact lt_of_le_of_lt h Nat.lt_log2_self
    omega

theorem shift_mono {a b : Nat} (h : a ≤ b) : shift a ≤ shift b := by
  have := log2_mono h
  unfold shift
  omega

theorem lt_pow_shift (n : Nat) : n < 2 ^ (53 + shift n) := by
  have h1 : n < 2 ^ (Nat.log2 n + 1) := Nat.lt_log2_self
  have h2 : Nat.log2 n + 1 ≤ 53 + shift n := by unfold shift; omega
  exact lt_of_lt_of_le h1 (Nat.pow_le_pow_right (by norm_num) h2)

theorem pow_shift_le {n : Nat} (h : 0 < shift n) : 2 ^ (52 + shift n) ≤ n := by
  have hn : n ≠ 0 := by
    intro h0
    subst h0
    simp [shift, Nat.log2_zero] at h
  have h1 : 2 ^ Nat.log2 n ≤ n := Nat.log2_self_le hn
  have h2 : 52 + shift n = Nat.log2 n := by unfold shift at h ⊢; omega
  rw [h2]; exact h1

/-- The two candidates: the multiples of `2 ^ shift n` around `n`. -/
theorem roundNat_cases (n : Nat) :
    roundNat n = n / 2 ^ shift n * 2 ^ shift n ∨
      roundNat n = (n / 2 ^ shift n + 1) * 2 ^ shift n := by
  unfold roundNat
  simp only
  split
  · exact Or.inl rfl
  · split
    · exact Or.inr rfl
    · split
      · exact Or.inl rfl
      · exact Or.inr rfl

theorem quot_lt (n : Nat) : n / 2 ^ shift n < 2 ^ 53 := by
  rw [Nat.div_lt_iff_lt_mul (Nat.two_pow_pos _)]
  rw [← Nat.pow_add]
  exact lt_pow_shift n

theorem le_quot {n : Nat} (h : 0 < shift n) : 2 ^ 52 ≤ n / 2 ^ shift n := by
  rw [Nat.le_div_iff_mul_le (Nat.two_pow_pos _)]
  rw [← Nat.pow_add]
  exact pow_shift_le h

theorem floor_le_roundNat (n : Nat) : n / 2 ^ shift n * 2 ^ shift n ≤ roundNat n := by
  rcases roundNat_cases n with h | h
  · rw [h]
  · rw [h]; exact Nat.mul_le_mul_right _ (Nat.le_succ _)

theorem roundNat_le_ceil (n : Nat) : roundNat n ≤ (n / 2 ^ shift n + 1) * 2 ^ shift n := by
  rcases roundNat_cases n with h | h
  · rw [h]; exact Nat.mul_le_mul_right _ (Nat.le_succ _)
  · rw [h]

theorem roundNat_of_dvd {n : Nat} (h : 2 ^ shift n ∣ n) : roundNat n = n := by
  have hr : n % 2 ^ shift n = 0 := Nat.mod_eq_zero_of_dvd h
  have hp : 0 < 2 ^ shift n := Nat.two_pow_pos _
  unfold roundNat
  simp only [hr, Nat.mul_zero, hp, if_true]
  exact Nat.div_mul_cancel h

theorem roundNat_mono {a b : Nat} (h : a ≤ b) : roundNat a ≤ roundNat b := by
  have hs := shift_mono h
  rcases Nat.lt_or_ge (shift a) (shift b) with hlt | hge
  · -- the larger number has a coarser grid
    have h1 : roundNat a ≤ 2 ^ (53 + shift a) := by
      refine le_trans (roundNat_le_ceil a) ?_
      rw [Nat.pow_add]
      exact Nat.mul_le_mul_right _ (quot_lt a)
    have h2 : 2 ^ (52 + shift b) ≤ roundNat b := by
      refine le_trans ?_ (floor_le_roundNat b)
      rw [Nat.pow_add]
      exact Nat.mul_le_mul_right _ (le_quot (by omega))
    have h3 : 2 ^ (53 + shift a) ≤ 2 ^ (52 + shift b) :=
      Nat.pow_le_pow_right (by norm_num) (by omega)
    omega
  · have he : shift a = shift b := by omega
    have hp : 0 < 2 ^ shift b := Nat.two_pow_pos _
    have hq : a / 2 ^ shift b ≤ b / 2 ^ shift b := Nat.div_le_div_right h
    rcases Nat.lt_or_ge (a / 2 ^ shift b) (b / 2 ^ shift b) with hql | hqg
    · have h1 := roundNat_le_ceil a
      have h2 := floor_le_roundNat b
      rw [he] at h1
      have h3 : (a / 2 ^ shift b + 1) * 2 ^ shift b ≤ b / 2 ^ shift b * 2 ^ shift b :=
        Nat.mul_le_mul_right _ hql
      omega
    · have hqe : a / 2 ^ shift b = b / 2 ^ shift b := by omega
      have hda := Nat.div_add_mod a (2 ^ shift b)
      have hdb := Nat.div_add_mod b (2 ^ shift b)
      have hr : a % 2 ^ shift b ≤ b % 2 ^ shift b := by
        rw [hqe] at hda
        omega
      unfold roundNat
      simp only [he, hqe]
      have hle : b / 2 ^ shift b * 2 ^ shift b ≤ (b / 2 ^ shift b + 1) * 2 ^ shift b :=
        Nat.mul_le_mul_right _ (Nat.le_succ _)
      split_ifs <;> first | exact le_refl _ | exact hle | omega

theorem roundNat_idem (n : Nat) : roundNat (roundNat n) = roundNat n := by
  rcases Nat.eq_zero_or_pos (shift n) with h0 | hpos
  · have : roundNat n = n := roundNat_of_dvd (by rw [h0]; simp)
    rw [this, this]
  · apply roundNat_of_dvd
    have hq1 := quot_lt n
    have hq2 := le_quot hpos
    rcases roundNat_cases n with h | h
    · -- rounded down: the same grid
      have hlo : 2 ^ (52 + shift n) ≤ roundNat n := by
        rw [h, Nat.pow_add]; exact Nat.mul_le_mul_right _ hq2
      have hhi : roundNat n < 2 ^ (53 + shift n) := by
        rw [h, Nat.pow_add]
        exact Nat.mul_lt_mul_of_pos_right hq1 (Nat.two_pow_pos _)
      have hne : roundNat n ≠ 0 := by
        have : 0 < 2 ^ (52 + shift n) := Nat.two_pow_pos _
        omega
      have hl1 : Nat.log2 (roundNat n) < 53 + shift n := (Nat.log2_lt hne).mpr hhi
      have hs : shift (roundNat n) ≤ shift n := by
        show Nat.log2 (roundNat n) + 1 - 53 ≤ shift n
        omega
      rw [h] at hs ⊢
      exact Dvd.dvd.mul_left (Nat.pow_dvd_pow 2 hs) _
    · rcases Nat.lt_or_ge (n / 2 ^ shift n + 1) (2 ^ 53) with hc | hc
      · have hhi : roundNat n < 2 ^ (53 + shift n) := by
          rw [h, Nat.pow_add]
          exact Nat.mul_lt_mul_of_pos_right hc (Nat.two_pow_pos _)
        have hne : roundNat n ≠ 0 := by
          rw [h]
          exact Nat.mul_ne_zero (by omega) (Nat.pos_iff_ne_zero.mp (Nat.two_pow_pos _))
        have hl1 : Nat.log2 (roundNat n) < 53 + shift n := (Nat.log2_lt hne).mpr hhi
        have hs : shift (roundNat n) ≤ shift n := by
          show Nat.log2 (roundNat n) + 1 - 53 ≤ shift n
          omega
        rw [h] at hs ⊢
        exact Dvd.dvd.mul_left (Nat.pow_dvd_pow 2 hs) _
      · -- rounded up to the next power of two
        have hc' : n / 2 ^ shift n + 1 = 2 ^ 53 := by omega
        have hm : roundNat n = 2 ^ (53 + shift n) := by
          rw [h, hc', Nat.pow_add]
        rw [hm]
        have hs : shift (2 ^ (53 + shift n)) ≤ 53 + shift n := by
          show Nat.log2 (2 ^ (53 + shift n)) + 1 - 53 ≤ 53 + shift n
          rw [Nat.log2_two_pow]
          omega
        exact Nat.pow_dvd_pow 2 hs

theorem roundNat_scaled {n k : Nat} (h : n < 2 ^ 53) : roundNat (n * 2 ^ k) = n * 2 ^ k := by
  apply roundNat_of_dvd
  have hs : shift (n * 2 ^ k) ≤ k := by
    by_cases hn : n * 2 ^ k = 0
    · rw [hn]; simp [shift, Nat.log2_zero]
    · have hlt : n * 2 ^ k < 2 ^ (53 + k) := by
        rw [Nat.pow_add]
        exact Nat.mul_lt_mul_of_pos_right h (Nat.two_pow_pos _)
      have := (Nat.log2_lt hn).mpr hlt
      show Nat.log2 (n * 2 ^ k) + 1 - 53 ≤ k
      omega
  exact Dvd.dvd.mul_left (Nat.pow_dvd_pow 2 hs) _

/-! ## Sums and comparisons of `double` values -/

theorem scaled_lt_pow {n a b : Nat} (h : n < 2 ^ 53) (hab : 53 + a ≤ b) : n * 2 ^ a < 2 ^ b := by
  have h1 : n * 2 ^ a < 2 ^ 53 * 2 ^ a := Nat.mul_lt_mul_of_pos_right h (Nat.two_pow_pos _)
  have h2 : 2 ^ 53 * 2 ^ a ≤ 2 ^ b := by
    rw [← Nat.pow_add]; exact Nat.pow_le_pow_right (by norm_num) hab
  exact lt_of_lt_of_le h1 h2

theorem scaled_pos {n : Nat} (k : Nat) (h : 0 < n) : 0 < n * 2 ^ k :=
  Nat.mul_pos h (Nat.two_pow_pos _)

theorem le_scaled {n : Nat} (k : Nat) (h : 0 < n) : 2 ^ k ≤ n * 2 ^ k :=
  Nat.le_mul_of_pos_left _ h

theorem scaled_lt_scaled (a b k : Nat) :
    ((a * 2 ^ k : Nat) : Int) < ((b * 2 ^ k : Nat) : Int) ↔ a < b :=
  Nat.cast_lt.trans (Nat.mul_lt_mul_right (Nat.two_pow_pos _))

theorem scaled_eq_scaled (a b k : Nat) :
    ((a * 2 ^ k : Nat) : Int) = ((b * 2 ^ k : Nat) : Int) ↔ a = b :=
  Nat.cast_inj.trans (Nat.mul_left_inj (Nat.pos_iff_ne_zero.mp (Nat.two_pow_pos _)))

theorem cast_scaled (n k : Nat) : (n : Int) * 2 ^ k = ((n * 2 ^ k : Nat) : Int) := by
  push_cast
  ring

theorem round_natCast (a : Nat) :
    round (a : Int) = if 2 ^ 2098 ≤ roundNat a then posInf else finite (roundNat a : Int) := by
  unfold round
  have h : ¬ ((a : Int) < 0) := by omega
  simp only [Int.natAbs_ofNat, h, if_false]

theorem maxUnits_lt : maxUnits < 2 ^ 2098 :=
  @scaled_lt_pow (2 ^ 53 - 1) 2045 2098 (by norm_num) (by norm_num)

theorem maxUnits_pos : 0 < maxUnits :=
  @scaled_pos (2 ^ 53 - 1) 2045 (by norm_num)

theorem roundNat_maxUnits : roundNat maxUnits = maxUnits :=
  @roundNat_scaled (2 ^ 53 - 1) 2045 (by norm_num)

theorem lt_posInf_left (d : Double) : lt posInf d = false := by
  cases d <;> rfl

theorem lt_nan_left (d : Double) : lt nan d = false := by
  cases d <;> rfl

theorem add_finite (x y : Int) : add (finite x) (finite y) = round (x + y) := rfl

theorem lt_finite (x y : Int) : lt (finite x) (finite y) = decide (x < y) := rfl

theorem eq_finite (x y : Int) : eq (finite x) (finite y) = decide (x = y) := rfl

/-- The sum of a distance and a weight that is not negative, when it is below some `double`:
it is finite, not negative, a `double`, and not below the distance. -/
theorem add_of_lt {a : Nat} {w dt : Double} (ha : roundNat a = a) (hw : le zero w = true)
    (h : lt (add (finite a) w) dt = true) :
    ∃ c : Nat, add (finite a) w = finite c ∧ roundNat c = c ∧ a ≤ c := by
  cases w with
  | finite b =>
    have hb : 0 ≤ b := by simpa [le, zero] using hw
    obtain ⟨n, rfl⟩ := Int.eq_ofNat_of_zero_le hb
    have hsum : add (finite a) (finite n) = round ((a + n : Nat) : Int) := by
      rw [add_finite, Nat.cast_add]
    rw [hsum, round_natCast] at h ⊢
    split at h
    · rw [lt_posInf_left] at h; cases h
    · rename_i hov
      rw [if_neg hov]
      refine ⟨roundNat (a + n), rfl, roundNat_idem _, ?_⟩
      have := roundNat_mono (Nat.le_add_right a n)
      omega
  | posInf =>
    have : add (finite a) posInf = posInf := rfl
    rw [this, lt_posInf_left] at h; cases h
  | negInf => simp [le, zero] at hw
  | nan => simp [le, zero] at hw

theorem lt_finite_natCast {c t : Nat} :
    lt (finite (c : Int)) (finite (t : Int)) = true ↔ c < t := by
  rw [lt_finite]
  simp

/-! ## Small natural numbers as `double` values -/

theorem ofNat_eq {n : Nat} (h : n < 2 ^ 53) : ofNat n = finite ((n * 2 ^ 1074 : Nat) : Int) := by
  unfold ofNat
  rw [cast_scaled, round_natCast, roundNat_scaled h,
    if_neg (not_le.mpr (scaled_lt_pow h (by norm_num)))]

theorem zero_eq_ofNat : zero = ofNat 0 := by
  rw [ofNat_eq (by norm_num), Nat.zero_mul]
  rfl

theorem add_ofNat {a b : Nat} (h : a + b < 2 ^ 53) :
    add (ofNat a) (ofNat b) = ofNat (a + b) := by
  rw [ofNat_eq (show a < 2 ^ 53 by omega), ofNat_eq (show b < 2 ^ 53 by omega), ofNat_eq h,
    add_finite, ← Nat.cast_add, ← Nat.add_mul, round_natCast, roundNat_scaled h,
    if_neg (not_le.mpr (scaled_lt_pow h (by norm_num)))]

theorem lt_ofNat {a b : Nat} (ha : a < 2 ^ 53) (hb : b < 2 ^ 53) :
    lt (ofNat a) (ofNat b) = decide (a < b) := by
  rw [ofNat_eq ha, ofNat_eq hb, lt_finite]
  exact decide_eq_decide.mpr (scaled_lt_scaled a b 1074)

theorem eq_ofNat {a b : Nat} (ha : a < 2 ^ 53) (hb : b < 2 ^ 53) :
    eq (ofNat a) (ofNat b) = decide (a = b) := by
  rw [ofNat_eq ha, ofNat_eq hb, eq_finite]
  exact decide_eq_decide.mpr (scaled_eq_scaled a b 1074)

theorem le_zero_ofNat {n : Nat} (h : n < 2 ^ 53) : le zero (ofNat n) = true := by
  rw [ofNat_eq h]
  show decide ((0 : Int) ≤ ((n * 2 ^ 1074 : Nat) : Int)) = true
  exact decide_eq_true (Int.ofNat_nonneg _)

theorem ofNat_units_lt {a : Nat} (ha : a < 2 ^ 53) : a * 2 ^ 1074 < maxUnits := by
  have h1 : a * 2 ^ 1074 < 2 ^ 2045 := scaled_lt_pow ha (by norm_num)
  exact lt_of_lt_of_le h1 (@le_scaled (2 ^ 53 - 1) 2045 (by norm_num))

theorem toRat_ofNat {n : Nat} (h : n < 2 ^ 53) : toRat (ofNat n) = some (n : ℚ) := by
  rw [ofNat_eq h]
  have hne : ((2 : ℚ) ^ 1074) ≠ 0 := pow_ne_zero _ (by norm_num)
  show some ((((n * 2 ^ 1074 : Nat) : Int) : ℚ) / 2 ^ 1074) = some (n : ℚ)
  rw [Int.cast_natCast, Nat.cast_mul, Nat.cast_pow, Nat.cast_ofNat, mul_div_assoc,
    div_self hne, mul_one]

/-! ## A sum that is rounded -/

theorem shift_eq {n m : Nat} (hlo : 2 ^ (52 + m) ≤ n) (hhi : n < 2 ^ (53 + m)) :
    shift n = m := by
  have hn : n ≠ 0 := by
    have : 0 < 2 ^ (52 + m) := Nat.two_pow_pos _
    omega
  have h1 : 52 + m ≤ Nat.log2 n := (Nat.le_log2 hn).mpr hlo
  have h2 : Nat.log2 n < 53 + m := (Nat.log2_lt hn).mpr hhi
  unfold shift
  omega

/-- A number halfway between two neighbours of 53 significant bits goes to the one whose last
bit is 0; here the lower neighbour `q` is odd, so the number goes up. -/
theorem roundNat_tie_up {q k : Nat} (hlo : 2 ^ 52 ≤ q) (hhi : q < 2 ^ 53) (hodd : q % 2 = 1) :
    roundNat ((2 * q + 1) * 2 ^ k) = (q + 1) * 2 ^ (k + 1) := by
  have hp : 0 < 2 ^ k := Nat.two_pow_pos _
  have hp1 : (2 : Nat) ^ (k + 1) = 2 * 2 ^ k := by rw [Nat.pow_succ]; ring
  have hn : (2 * q + 1) * 2 ^ k = 2 ^ k + q * 2 ^ (k + 1) := by rw [hp1]; ring
  have hs : shift ((2 * q + 1) * 2 ^ k) = k + 1 := by
    apply shift_eq
    · have h1 : (2 : Nat) ^ (52 + (k + 1)) = 2 ^ 52 * 2 ^ (k + 1) := by rw [Nat.pow_add]
      rw [hn, h1]
      have := Nat.mul_le_mul_right (2 ^ (k + 1)) hlo
      omega
    · have h1 : (2 : Nat) ^ (53 + (k + 1)) = 2 ^ 53 * 2 ^ (k + 1) := by rw [Nat.pow_add]
      rw [hn, h1]
      have h2 : (q + 1) * 2 ^ (k + 1) ≤ 2 ^ 53 * 2 ^ (k + 1) :=
        Nat.mul_le_mul_right _ hhi
      have h3 : (q + 1) * 2 ^ (k + 1) = q * 2 ^ (k + 1) + 2 ^ (k + 1) := by ring
      omega
  have hlt : 2 ^ k < 2 ^ (k + 1) := by omega
  have hq : (2 * q + 1) * 2 ^ k / 2 ^ (k + 1) = q := by
    rw [hn, Nat.add_mul_div_right _ _ (Nat.two_pow_pos _), Nat.div_eq_of_lt hlt, Nat.zero_add]
  have hr : (2 * q + 1) * 2 ^ k % 2 ^ (k + 1) = 2 ^ k := by
    rw [hn, Nat.add_mul_mod_self_right, Nat.mod_eq_of_lt hlt]
  unfold roundNat
  simp only [hs, hq, hr]
  have h1 : ¬ (2 * 2 ^ k < 2 ^ (k + 1)) := by omega
  have h2 : ¬ (2 ^ (k + 1) < 2 * 2 ^ k) := by omega
  have h3 : ¬ (q % 2 = 0) := by omega
  simp only [h1, h2, h3, if_false]

theorem round_tie_up {q : Nat} (k : Nat) (hlo : 2 ^ 52 ≤ q) (hhi : q + 1 < 2 ^ 53)
    (hodd : q % 2 = 1) (hk : 53 + (k + 1) ≤ 2098) :
    round (((2 * q + 1) * 2 ^ k : Nat) : Int) = finite (((2 * (q + 1)) * 2 ^ k : Nat) : Int) := by
  have hpow : (q + 1) * 2 ^ (k + 1) = (2 * (q + 1)) * 2 ^ k := by rw [Nat.pow_succ]; ring
  rw [round_natCast, roundNat_tie_up hlo (by omega) hodd,
    if_neg (not_le.mpr (scaled_lt_pow hhi hk)), hpow]

theorem scaled_scaled (m j k : Nat) : m * 2 ^ j * 2 ^ k = m * 2 ^ (j + k) := by
  rw [Nat.pow_add, Nat.mul_assoc]

theorem add_zero_of_units {n : Nat} (h : ofNat n = finite ((n * 2 ^ 1074 : Nat) : Int)) :
    add zero (ofNat n) = ofNat n := by
  have h1 : add zero (finite ((n * 2 ^ 1074 : Nat) : Int)) = ofNat n := by
    unfold zero ofNat
    rw [add_finite, Int.zero_add, cast_scaled]
  rw [← h] at h1
  exact h1

theorem ofNat_eq_scaled {n : Nat} (m j : Nat) (hn : n = m * 2 ^ j) (hm : m < 2 ^ 53)
    (hj : 53 + (j + 1074) ≤ 2098) : ofNat n = finite ((n * 2 ^ 1074 : Nat) : Int) := by
  have hpow : n * 2 ^ 1074 = m * 2 ^ (j + 1074) := by rw [hn]; exact scaled_scaled m j 1074
  unfold ofNat
  rw [cast_scaled, round_natCast, hpow, roundNat_scaled hm,
    if_neg (not_le.mpr (scaled_lt_pow hm hj))]

theorem scaled_lt_of_lt {n j a b : Nat} (h : n < 2 ^ j) (hab : j + a ≤ b) :
    n * 2 ^ a < 2 ^ b := by
  have h1 : n * 2 ^ a < 2 ^ j * 2 ^ a := Nat.mul_lt_mul_of_pos_right h (Nat.two_pow_pos _)
  have h2 : 2 ^ j * 2 ^ a ≤ 2 ^ b := by
    rw [← Nat.pow_add]; exact Nat.pow_le_pow_right (by norm_num) hab
  exact lt_of_lt_of_le h1 h2

theorem scaled_lt_maxUnits {a : Nat} (h : a < 2 ^ 64) : a * 2 ^ 1074 < maxUnits :=
  lt_of_lt_of_le (@scaled_lt_of_lt a 64 1074 2045 h (by norm_num))
    (@le_scaled (2 ^ 53 - 1) 2045 (by norm_num))

end Double

namespace Digraph

variable {V E : Type}

/-! ## Directed edges -/

/-- In a well-formed graph the edges read from the outgoing lists are the pairs listed by
`edges()`. -/
theorem adj_iff_mem_edges {g : Digraph V E} (hwf : WellFormed g) (u v : Int) :
    Adj g u v ↔ (u, v) ∈ edges g := by
  unfold edges
  simp only [List.mem_flatMap, List.mem_map, Prod.mk.injEq]
  constructor
  · rintro ⟨dv, hdv, e, he, hev⟩
    have hmem := StdMap.mem_of_find hdv
    exact ⟨(u, dv), hmem, e, he, (hwf.2 _ hmem e he).1, hev⟩
  · rintro ⟨key, hkey, e, he, hfrom, hto⟩
    have hk : key.1 = u := by rw [← (hwf.2 key hkey e he).1, hfrom]
    have hfind : StdMap.find g.GraphMap u = some key.2 :=
      StdMap.find_of_mem hwf.1 (by rw [← hk]; exact hkey)
    exact ⟨key.2, hfind, e, he, hto⟩

/-! ## `isStronglyConnected` -/

/-- No key of the initial `visitedmap` is marked. -/
theorem visitedmapInit_not_true (g : Digraph V E) (k : Int) :
    StdMap.find (visitedmapInit g) k ≠ some true := by
  unfold visitedmapInit
  have key : ∀ (l : List (Int × DigraphVertex V E)) (acc : StdMap Bool),
      StdMap.find acc k ≠ some true →
      StdMap.find (l.foldl (fun m key => StdMap.assign m key.1 false) acc) k ≠ some true := by
    intro l
    induction l with
    | nil => intro acc h; simpa using h
    | cons hd tl ih =>
      intro acc h
      simp only [List.foldl_cons]
      apply ih
      rw [StdMap.find_assign]
      split
      · simp
      · exact h
  exact key _ _ (by simp [StdMap.find])

/-- The counter of the inner loop counts the distinct destinations met. -/
theorem foldl_visitEdge_count (es : List (DigraphEdge E)) (st : StdMap Bool × Nat)
    (S : Finset Int) (hS : ∀ k, StdMap.find st.1 k = some true ↔ k ∈ S) (hc : st.2 = S.card) :
    (es.foldl visitEdge st).2 = (S ∪ (es.map (·.toVertex)).toFinset).card := by
  induction es generalizing st S with
  | nil => simp [hc]
  | cons e tl ih =>
    simp only [List.foldl_cons, List.map_cons, List.toFinset_cons]
    by_cases hm : e.toVertex ∈ S
    · have hf : StdMap.find st.1 e.toVertex = some true := (hS _).mpr hm
      have hst : visitEdge st e = st := by simp [visitEdge, hf]
      rw [hst, ih st S hS hc]
      congr 1
      ext x
      simp only [Finset.mem_union, Finset.mem_insert, List.mem_toFinset]
      constructor
      · rintro (h | h)
        · exact Or.inl h
        · exact Or.inr (Or.inr h)
      · rintro (h | h | h)
        · exact Or.inl h
        · exact Or.inl (h ▸ hm)
        · exact Or.inr h
    · have hf : StdMap.find st.1 e.toVertex ≠ some true := fun h => hm ((hS _).mp h)
      have hg : (StdMap.find st.1 e.toVertex).getD false = false := by
        cases h : StdMap.find st.1 e.toVertex with
        | none => rfl
        | some b =>
          cases b with
          | false => rfl
          | true => exact absurd h hf
      have hst : visitEdge st e = (StdMap.assign st.1 e.toVertex true, st.2 + 1) := by
        simp [visitEdge, hg]
      rw [hst, ih _ (insert e.toVertex S) ?_ ?_]
      · congr 1
        ext x
        simp only [Finset.mem_union, Finset.mem_insert, List.mem_toFinset]
        tauto
      · intro k
        simp only [StdMap.find_assign, Finset.mem_insert]
        by_cases hk : k = e.toVertex
        · simp [hk]
        · simp [hk, hS]
      · simp [Finset.card_insert_of_not_mem hm, hc]

theorem visitCount_eq (g : Digraph V E) (key : Int × DigraphVertex V E) :
    visitCount g key = ((key.2.edges.map (·.toVertex)).toFinset).card := by
  unfold visitCount
  rw [foldl_visitEdge_count key.2.edges (visitedmapInit g, 0) ∅ ?_ rfl]
  · simp
  · intro k
    simp [visitedmapInit_not_true g k]

/-- When `isStronglyConnected` answers `true`, every vertex has an edge to every vertex. -/
theorem adj_of_isStronglyConnected {g : Digraph V E} (hwf : WellFormed g)
    (h : isStronglyConnected g = true) {u v : Int} (hu : u ∈ vertices g) (hv : v ∈ vertices g) :
    Adj g u v := by
  obtain ⟨ho, he⟩ := hwf
  obtain ⟨dv, hdv⟩ := (StdMap.mem_keys_iff _ _).mp hu
  have hmem : (u, dv) ∈ g.GraphMap := StdMap.mem_of_find hdv
  have hall := List.all_eq_true.mp h (u, dv) hmem
  simp only [decide_eq_true_eq, visitCount_eq, vertexCount] at hall
  have hsub : (dv.edges.map (·.toVertex)).toFinset ⊆ (vertices g).toFinset := by
    intro x hx
    simp only [List.mem_toFinset, List.mem_map] at hx ⊢
    obtain ⟨e, hein, rfl⟩ := hx
    exact (he (u, dv) hmem e hein).2
  have hcard : (vertices g).toFinset.card = g.GraphMap.length := by
    unfold vertices
    rw [List.toFinset_card_of_nodup (StdMap.ordered_nodup ho)]
    simp [StdMap.keys]
  have heq := Finset.eq_of_subset_of_card_le hsub (by rw [hcard, hall])
  have hvin : v ∈ (dv.edges.map (·.toVertex)).toFinset := by
    rw [heq]; simpa using hv
  simp only [List.mem_toFinset, List.mem_map] at hvin
  obtain ⟨e, hein, hev⟩ := hvin
  exact ⟨dv, hdv, e, hein, hev⟩

/-- C8: in a graph whose edges are stored under their `fromVertex` and lead to present
vertices, if some vertex `v` is not reachable from some vertex `u` by directed edges, then
`isStronglyConnected()` returns `false`. -/
theorem isStronglyConnected_false_of_unreachable (g : Digraph V E) (hwf : WellFormed g)
    (u v : Int) (hu : u ∈ vertices g) (hv : v ∈ vertices g) (h : ¬ Reachable g u v) :
    isStronglyConnected g = false := by
  cases hsc : isStronglyConnected g with
  | false => rfl
  | true =>
    exact absurd (Relation.ReflTransGen.single (adj_of_isStronglyConnected hwf hsc hu hv)) h

/-- A vertex without outgoing edges reaches only itself. -/
theorem reachable_of_no_edges {g : Digraph V E} {u v : Int}
    (hno : ∀ dv, StdMap.find g.GraphMap u = some dv → dv.edges = [])
    (h : Reachable g u v) : v = u := by
  rcases Relation.ReflTransGen.cases_head h with h | ⟨c, ⟨dv, hdv, e, he, _⟩, _⟩
  · exact h.symm
  · rw [hno dv hdv] at he
    simp at he

theorem oneEdgeGraph_wellFormed : WellFormed oneEdgeGraph := by
  unfold WellFormed StdMap.Ordered
  decide

theorem oneEdgeGraph_not_reachable : ¬ Reachable oneEdgeGraph 1 0 := by
  intro h
  have h0 : (0 : Int) = 1 := reachable_of_no_edges (fun dv hdv => by
    have h2 : StdMap.find oneEdgeGraph.GraphMap 1 = some ⟨(), []⟩ := rfl
    rw [h2] at hdv
    rw [← Option.some.inj hdv]) h
  exact absurd h0 (by decide)

/-- C8 at vertices 0 and 1 with the single edge 0->1: vertex 0 is not reachable from
vertex 1, and the answer is `false`. -/
theorem isStronglyConnected_false_of_unreachable_witness :
    WellFormed oneEdgeGraph ∧ (1 : Int) ∈ vertices oneEdgeGraph ∧
      (0 : Int) ∈ vertices oneEdgeGraph ∧ ¬ Reachable oneEdgeGraph 1 0 ∧
      isStronglyConnected oneEdgeGraph = false :=
  ⟨oneEdgeGraph_wellFormed, by decide, by decide, oneEdgeGraph_not_reachable,
    isStronglyConnected_false_of_unreachable oneEdgeGraph oneEdgeGraph_wellFormed 1 0
      (by decide) (by decide) oneEdgeGraph_not_reachable⟩

/-- C10: the graph made by the default constructor, with zero vertices, has
`isStronglyConnected() = true`. -/
theorem isStronglyConnected_empty : isStronglyConnected (empty : Digraph V E) = true := rfl

/-- C9, evaluated: for every id `v` and payload `p`, `addVertex(v, p)` on the empty graph
succeeds and gives a graph with the one vertex `v` and no edge, on which
`isStronglyConnected()` returns `false`: the counter stays at 0 and `vertexCount()` is 1. -/
theorem isStronglyConnected_single_vertex_false (v : Int) (p : V) :
    ∃ g : Digraph V E, addVertex empty v p = .ok g ∧ vertices g = [v] ∧ edges g = [] ∧
      isStronglyConnected g = false := by
  refine ⟨⟨[(v, ⟨p, []⟩)]⟩, rfl, rfl, rfl, ?_⟩
  simp [isStronglyConnected, visitCount, vertexCount]

/-- C7, evaluated on the directed cycle 0->1->2->0: every vertex reaches every vertex, and
`isStronglyConnected()` returns `false`, since no vertex has an edge to each of the three
vertices. -/
theorem isStronglyConnected_threeCycle_false :
    ∃ g, threeCycle = .ok g ∧ isStronglyConnected g = false ∧
      ∀ u ∈ vertices g, ∀ v ∈ vertices g, Reachable g u v := by
  refine ⟨threeCycleGraph, rfl, by decide, ?_⟩
  have r01 : Reachable threeCycleGraph 0 1 :=
    Relation.ReflTransGen.single ⟨_, rfl, ⟨0, 1, ()⟩, by simp, rfl⟩
  have r12 : Reachable threeCycleGraph 1 2 :=
    Relation.ReflTransGen.single ⟨_, rfl, ⟨1, 2, ()⟩, by simp, rfl⟩
  have r20 : Reachable threeCycleGraph 2 0 :=
    Relation.ReflTransGen.single ⟨_, rfl, ⟨2, 0, ()⟩, by simp, rfl⟩
  intro u hu v hv
  simp only [vertices, StdMap.keys, threeCycleGraph, List.map, List.mem_cons,
    List.mem_nil_iff, or_false] at hu hv
  rcases hu with rfl | rfl | rfl <;> rcases hv with rfl | rfl | rfl
  · exact Relation.ReflTransGen.refl
  · exact r01
  · exact r01.trans r12
  · exact r12.trans r20
  · exact Relation.ReflTransGen.refl
  · exact r12
  · exact r20
  · exact r20.trans r01
  · exact Relation.ReflTransGen.refl

/-! ## The concrete graphs are well formed -/

theorem scenarioGraph_wellFormed : WellFormed scenarioGraph := by
  unfold WellFormed StdMap.Ordered
  decide

theorem tieDetourGraph_wellFormed : WellFormed tieDetourGraph := by
  unfold WellFormed StdMap.Ordered
  decide

theorem tieOrphanGraph_wellFormed : WellFormed tieOrphanGraph := by
  unfold WellFormed StdMap.Ordered
  decide

/-! ## `findShortestPaths`: the loop ends -/

theorem selectSmallkey_cases (m : StdMap Double) (top : Double) (s : Int) :
    selectSmallkey m top s = s ∨
      ∃ d, (selectSmallkey m top s, d) ∈ m ∧ Double.eq d top = true := by
  induction m generalizing s with
  | nil => exact Or.inl rfl
  | cons hd tl ih =>
    obtain ⟨k, d⟩ := hd
    simp only [selectSmallkey, List.foldl_cons] at ih ⊢
    by_cases hd : Double.eq d top = true
    · simp only [hd, if_true]
      rcases ih k with h | ⟨d', h, he⟩
      · rw [h]; exact Or.inr ⟨d, List.mem_cons_self _ _, hd⟩
      · exact Or.inr ⟨d', List.mem_cons_of_mem _ h, he⟩
    · simp only [hd, if_false]
      rcases ih s with h | ⟨d', h, he⟩
      · exact Or.inl h
      · exact Or.inr ⟨d', List.mem_cons_of_mem _ h, he⟩

theorem selectSmallkey_mem {m : StdMap Double} {top : Double} (s : Int)
    (h : ∃ k d, (k, d) ∈ m ∧ Double.eq d top = true) :
    ∃ d, (selectSmallkey m top s, d) ∈ m ∧ Double.eq d top = true := by
  induction m generalizing s with
  | nil =>
    obtain ⟨k, d, hm, _⟩ := h
    simp at hm
  | cons hd tl ih =>
    obtain ⟨k, d⟩ := hd
    obtain ⟨k0, d0, hk0, he0⟩ := h
    simp only [selectSmallkey, List.foldl_cons] at ih ⊢
    rcases List.mem_cons.mp hk0 with h | h
    · simp only [Prod.mk.injEq] at h
      rw [← h.2, he0]
      simp only [if_true]
      rcases selectSmallkey_cases tl top k with h' | ⟨d', h', he'⟩
      · simp only [selectSmallkey] at h'
        rw [h']
        exact ⟨d0, List.mem_cons_self _ _, he0⟩
      · exact ⟨d', List.mem_cons_of_mem _ h', he'⟩
    · obtain ⟨d', h', he'⟩ := ih _ ⟨k0, d0, h, he0⟩
      exact ⟨d', List.mem_cons_of_mem _ h', he'⟩

/-- With a distance equal to `top` in `dmap` the scan assigns `smallkey`: what the variable
held before does not matter. -/
theorem selectSmallkey_assigned {m : StdMap Double} {top : Double}
    (h : ∃ k d, (k, d) ∈ m ∧ Double.eq d top = true) (j j' : Int) :
    selectSmallkey m top j = selectSmallkey m top j' := by
  induction m generalizing j j' with
  | nil =>
    obtain ⟨k, d, hm, _⟩ := h
    simp at hm
  | cons hd tl ih =>
    obtain ⟨k, d⟩ := hd
    simp only [selectSmallkey, List.foldl_cons] at ih ⊢
    by_cases hd : Double.eq d top = true
    · simp only [hd, if_true]
    · simp only [hd, if_false]
      obtain ⟨k0, d0, hk0, he0⟩ := h
      rcases List.mem_cons.mp hk0 with h1 | h1
      · simp only [Prod.mk.injEq] at h1
        rw [h1.2] at he0
        exact absurd he0 hd
      · exact ih ⟨k0, d0, h1, he0⟩ j j'

/-- Without a distance equal to `top` in `dmap` the scan assigns nothing: `smallkey` is read
as it was declared. -/
theorem selectSmallkey_unassigned {m : StdMap Double} {top : Double}
    (h : ∀ p ∈ m, Double.eq p.2 top = false) (j : Int) : selectSmallkey m top j = j := by
  induction m generalizing j with
  | nil => rfl
  | cons hd tl ih =>
    simp only [selectSmallkey, List.foldl_cons] at ih ⊢
    have h1 := h hd (List.mem_cons_self _ _)
    simp only [h1, Bool.false_eq_true, if_false]
    exact ih (fun p hp => h p (List.mem_cons_of_mem _ hp)) j

theorem pqPush_length (x : Double) (q : List Double) : (pqPush x q).length = q.length + 1 := by
  induction q with
  | nil => rfl
  | cons y ys ih =>
    simp only [pqPush]
    split
    · simp [ih]
    · simp

theorem relaxEdge_length {w : E → Double} {k : Int} {r r' : Relax} {e : DigraphEdge E}
    (h : relaxEdge w k r e = .ok r') :
    r'.distance_queue.length ≤ r.distance_queue.length + 1 := by
  unfold relaxEdge at h
  split at h
  · split at h
    · cases h
      simp [pqPush_length]
    · cases h
      simp
  · cases h

theorem relaxEdges_length {w : E → Double} {k : Int} {es : List (DigraphEdge E)} {r r' : Relax}
    (h : relaxEdges w k es r = .ok r') :
    r'.distance_queue.length ≤ r.distance_queue.length + es.length := by
  induction es generalizing r with
  | nil =>
    simp only [relaxEdges] at h
    cases h
    simp
  | cons e tl ih =>
    simp only [relaxEdges] at h
    cases h1 : relaxEdge w k r e with
    | error f => rw [h1] at h; cases h
    | ok r1 =>
      rw [h1] at h
      have := ih h
      have := relaxEdge_length h1
      simp only [List.length_cons]
      omega

theorem pending_assign_le (l : List (Int × DigraphVertex V E)) (kmap : StdMap Bool) (k : Int) :
    (l.map fun key =>
      if StdMap.find (StdMap.assign kmap k true) key.1 = some true then 0
      else key.2.edges.length).sum ≤
    (l.map fun key =>
      if StdMap.find kmap key.1 = some true then 0 else key.2.edges.length).sum := by
  induction l with
  | nil => simp
  | cons hd tl ih =>
    simp only [List.map_cons, List.sum_cons]
    apply Nat.add_le_add _ ih
    rw [StdMap.find_assign]
    by_cases h : hd.1 = k
    · simp [h]
    · simp [h]

theorem pending_assign_lt (l : List (Int × DigraphVertex V E)) (kmap : StdMap Bool) (k : Int)
    (dv : DigraphVertex V E) (hf : StdMap.find l k = some dv)
    (hk : StdMap.find kmap k ≠ some true) :
    (l.map fun key =>
      if StdMap.find (StdMap.assign kmap k true) key.1 = some true then 0
      else key.2.edges.length).sum + dv.edges.length ≤
    (l.map fun key =>
      if StdMap.find kmap key.1 = some true then 0 else key.2.edges.length).sum := by
  induction l with
  | nil => simp [StdMap.find] at hf
  | cons hd tl ih =>
    obtain ⟨a, x⟩ := hd
    simp only [List.map_cons, List.sum_cons]
    by_cases h : k = a
    · subst h
      simp only [StdMap.find, if_true, Option.some.injEq] at hf
      subst hf
      have := pending_assign_le tl kmap k
      simp only [StdMap.find_assign, if_true, hk, if_false] at this ⊢
      omega
    · simp only [StdMap.find, h, if_false] at hf
      have := ih hf
      have hne : a ≠ k := fun h' => h h'.symm
      simp only [StdMap.find_assign, hne, if_false] at this ⊢
      omega

theorem getD_false_ne_true {o : Option Bool} (h : o.getD false = false) : o ≠ some true := by
  intro h'
  simp [h'] at h

theorem getD_ne_false {o : Option Bool} (h : ¬ o.getD false = false) : o = some true := by
  cases o with
  | none => simp at h
  | some b =>
    cases b with
    | false => simp at h
    | true => rfl

/-- The two ways a pass of the loop ends without an exception: the selected vertex was not
marked, is marked now and its edges have been relaxed; or it was marked and only the queue has
changed. -/
theorem spBody_cases {g : Digraph V E} {w : E → Double} {st st' : SPState} {top : Double}
    {rest : List Double} {j : Int} (h : spBody g w st top rest j = .ok st') :
    ((StdMap.find st.kmap (selectSmallkey st.dmap top j)).getD false = false ∧
      ∃ dv r, StdMap.find g.GraphMap (selectSmallkey st.dmap top j) = some dv ∧
        relaxEdges w (selectSmallkey st.dmap top j) dv.edges
          ⟨st.dmap, st.pmap, rest⟩ = .ok r ∧
        st' = ⟨StdMap.assign st.kmap (selectSmallkey st.dmap top j) true,
          r.dmap, r.pmap, r.distance_queue⟩) ∨
    (¬ (StdMap.find st.kmap (selectSmallkey st.dmap top j)).getD false = false ∧
      st' = ⟨st.kmap, st.dmap, st.pmap, rest⟩) := by
  unfold spBody at h
  simp only at h
  split at h
  · rename_i hk
    split at h
    · cases h
    · rename_i dv hdv
      split at h
      · cases h
      · rename_i r hr
        cases h
        exact Or.inl ⟨hk, dv, r, hdv, hr, rfl⟩
  · rename_i hk
    cases h
    exact Or.inr ⟨hk, rfl⟩

theorem spBody_measure {g : Digraph V E} {w : E → Double} {st st' : SPState} {top : Double}
    {rest : List Double} {j : Int} (hq : st.distance_queue = top :: rest)
    (h : spBody g w st top rest j = .ok st') : spMeasure g st' < spMeasure g st := by
  rcases spBody_cases h with ⟨hk, dv, r, hdv, hr, hst'⟩ | ⟨_, hst'⟩
  · subst hst'
    have h1 := relaxEdges_length hr
    have h2 := pending_assign_lt g.GraphMap st.kmap _ dv hdv (getD_false_ne_true hk)
    simp only [spMeasure, pending, hq, List.length_cons] at h1 h2 ⊢
    omega
  · subst hst'
    simp [spMeasure, hq]

theorem spLoop_fuel (g : Digraph V E) (w : E → Double) (garbage : Nat → Int) (fuel pass : Nat)
    (st : SPState) (h : spMeasure g st < fuel) : spLoop g w garbage fuel pass st ≠ none := by
  induction fuel generalizing st pass with
  | zero => omega
  | succ n ih =>
    unfold spLoop
    split
    · simp
    · rename_i top rest hq
      split
      · simp
      · rename_i st' hb
        have := spBody_measure hq hb
        exact ih _ st' (by omega)

theorem pending_le_edgeCount (g : Digraph V E) (kmap : StdMap Bool) :
    pending g kmap ≤ edgeCount g := by
  unfold pending edgeCount edges
  induction g.GraphMap with
  | nil => simp
  | cons hd tl ih =>
    simp only [List.map_cons, List.sum_cons, List.flatMap_cons, List.length_append,
      List.length_map]
    apply Nat.add_le_add _ ih
    split <;> omega

theorem spInit_measure (g : Digraph V E) (s : Int) :
    spMeasure g (spInit g s) < edgeCount g + 2 := by
  have := pending_le_edgeCount g (spInit g s).kmap
  simp only [spMeasure, spInit, pqPush, List.length_singleton] at this ⊢
  omega

/-- The passes granted to the loop are never used up. -/
theorem findShortestPaths_fuel (g : Digraph V E) (s : Int) (w : E → Double)
    (garbage : Nat → Int) : findShortestPaths g s w garbage ≠ none := by
  unfold findShortestPaths
  have := spLoop_fuel g w garbage _ 0 _ (spInit_measure g s)
  split
  · rename_i h; exact absurd h this
  · simp
  · simp

theorem foldl_assign_mem {α β : Type} (f : Int × α → β) (l : List (Int × α)) (acc : StdMap β)
    {p : Int × β} (h : p ∈ l.foldl (fun m key => StdMap.assign m key.1 (f key)) acc) :
    p ∈ acc ∨ ∃ key ∈ l, p = (key.1, f key) := by
  induction l generalizing acc with
  | nil => exact Or.inl h
  | cons hd tl ih =>
    simp only [List.foldl_cons] at h
    rcases ih _ h with h | ⟨key, hk, hp⟩
    · rcases StdMap.mem_assign h with h | h
      · exact Or.inr ⟨hd, List.mem_cons_self _ _, h⟩
      · exact Or.inl h
    · exact Or.inr ⟨key, List.mem_cons_of_mem _ hk, hp⟩

theorem eq_DBL_MAX_zero : Double.eq DBL_MAX Double.zero = false := by
  have h : ((Double.maxUnits : Nat) : Int) ≠ 0 := by
    have := Double.maxUnits_pos
    omega
  show decide (((Double.maxUnits : Nat) : Int) = 0) = false
  exact decide_eq_false h

theorem eq_zero_zero : Double.eq Double.zero Double.zero = true := rfl

/-- On entry to the loop only the start vertex has distance `0.0`. -/
theorem spInit_select (g : Digraph V E) (s j : Int) :
    selectSmallkey (spInit g s).dmap Double.zero j = s := by
  obtain ⟨d, hmem, hd⟩ := @selectSmallkey_mem (spInit g s).dmap Double.zero j
    ⟨s, Double.zero, StdMap.mem_assign_self _ _ _, eq_zero_zero⟩
  rcases StdMap.mem_assign hmem with h | h
  · exact (Prod.mk.inj h).1
  · rcases foldl_assign_mem (fun _ => DBL_MAX) _ _ h with h | ⟨key, _, hp⟩
    · simp at h
    · have := (Prod.mk.inj hp).2
      rw [this, eq_DBL_MAX_zero] at hd
      cases hd

theorem spInit_kmap_find (g : Digraph V E) (s : Int) (k : Int) (hk : k ∉ vertices g) :
    StdMap.find (spInit g s).kmap k = none := by
  rw [StdMap.find_eq_none_iff]
  intro hin
  obtain ⟨v, hv⟩ := (StdMap.mem_keys_iff _ _).mp hin
  rcases foldl_assign_mem (fun _ => false) _ _ (StdMap.mem_of_find hv) with h | ⟨key, hkey, hp⟩
  · simp at h
  · apply hk
    have h1 := (Prod.mk.inj hp).1
    simp only [vertices, StdMap.keys, List.mem_map]
    exact ⟨key, hkey, h1.symm⟩

/-! ## `findShortestPaths`: a start vertex that is not in the graph -/

/-- C6: for every graph, the empty one included, and every `startVertex` that is not a vertex
of it, `findShortestPaths(startVertex, w)` ends in a thrown `std::out_of_range` (raised by
`GraphMap.at(smallkey)` in the first pass of the loop) and returns no predecessor map,
whatever an uninitialised `smallkey` holds. -/
theorem findShortestPaths_missing_start (g : Digraph V E) (startVertex : Int) (w : E → Double)
    (garbage : Nat → Int) (h : startVertex ∉ vertices g) :
    findShortestPaths g startVertex w garbage = some (.error .outOfRange) := by
  have hsel := spInit_select g startVertex (garbage 0)
  have hk := spInit_kmap_find g startVertex startVertex h
  have hg : StdMap.find g.GraphMap startVertex = none := (StdMap.find_eq_none_iff _ _).mpr h
  have hq : (spInit g startVertex).distance_queue = [Double.zero] := rfl
  have hb : spBody g w (spInit g startVertex) Double.zero [] (garbage 0) =
      .error .outOfRange := by
    unfold spBody
    simp only [hsel, hk, hg, Option.getD_none, if_true]
  unfold findShortestPaths
  rw [show edgeCount g + 2 = (edgeCount g + 1) + 1 from rfl]
  unfold spLoop
  simp only [hq, hb]

/-- C6 at the graph with vertices 0, 1 and the edge 0->1, asked for start vertex 7. -/
theorem findShortestPaths_missing_start_witness :
    (7 : Int) ∉ vertices oneEdgeGraph ∧
      findShortestPaths oneEdgeGraph 7 (fun _ => Double.ofNat 1) (fun _ => 0) =
        some (.error .outOfRange) :=
  ⟨by decide, findShortestPaths_missing_start oneEdgeGraph 7 (fun _ => Double.ofNat 1)
    (fun _ => 0) (by decide)⟩

/-! ## `findShortestPaths`: the shape of the result -/

theorem ordered_of_keys {V E β : Type} {g : Digraph V E} {m : StdMap β}
    (h : StdMap.keys m = vertices g) (ho : StdMap.Ordered g.GraphMap) : StdMap.Ordered m := by
  unfold StdMap.Ordered at *
  rw [h]; exact ho

theorem relaxEdge_inv {g : Digraph V E} (ho : StdMap.Ordered g.GraphMap) (w : E → Double)
    {k : Int} (hk : k ∈ vertices g) {e : DigraphEdge E} (he : e.toVertex ∈ vertices g)
    {r : Relax} (hr : RelaxInv g r) :
    ∃ r', relaxEdge w k r e = .ok r' ∧ RelaxInv g r' := by
  obtain ⟨hd, hp, hv⟩ := hr
  obtain ⟨dto, hdto⟩ := (StdMap.mem_keys_iff r.dmap e.toVertex).mp (hd ▸ he)
  obtain ⟨dk, hdk⟩ := (StdMap.mem_keys_iff r.dmap k).mp (hd ▸ hk)
  unfold relaxEdge
  simp only [hdto, hdk]
  split
  · refine ⟨_, rfl, ?_, ?_, ?_⟩
    · show StdMap.keys (StdMap.assign r.dmap e.toVertex _) = vertices g
      rw [StdMap.keys_assign_of_mem (ordered_of_keys hd ho) (hd ▸ he), hd]
    · show StdMap.keys (StdMap.assign r.pmap e.toVertex _) = vertices g
      rw [StdMap.keys_assign_of_mem (ordered_of_keys hp ho) (hp ▸ he), hp]
    · intro p hpm
      rcases StdMap.mem_assign hpm with h | h
      · rw [h]; exact hk
      · exact hv p h
  · exact ⟨r, rfl, hd, hp, hv⟩

theorem relaxEdges_inv {g : Digraph V E} (ho : StdMap.Ordered g.GraphMap) (w : E → Double)
    {k : Int} (hk : k ∈ vertices g) (es : List (DigraphEdge E))
    (hes : ∀ e ∈ es, e.toVertex ∈ vertices g) {r : Relax} (hr : RelaxInv g r) :
    ∃ r', relaxEdges w k es r = .ok r' ∧ RelaxInv g r' := by
  induction es generalizing r with
  | nil => exact ⟨r, rfl, hr⟩
  | cons e tl ih =>
    obtain ⟨r1, h1, hr1⟩ := relaxEdge_inv ho w hk (hes e (List.mem_cons_self _ _)) hr
    obtain ⟨r2, h2, hr2⟩ := ih (fun e' he' => hes e' (List.mem_cons_of_mem _ he')) hr1
    exact ⟨r2, by simp only [relaxEdges, h1, h2], hr2⟩

/-- What holds of every successful pass of the relaxation loop holds of the whole loop. -/
theorem relaxEdges_preserves {w : E → Double} {k : Int} (P : Relax → Prop)
    (es : List (DigraphEdge E))
    (hstep : ∀ e ∈ es, ∀ r r', P r → relaxEdge w k r e = .ok r' → P r')
    {r r' : Relax} (hr : P r) (h : relaxEdges w k es r = .ok r') : P r' := by
  induction es generalizing r with
  | nil =>
    simp only [relaxEdges] at h
    cases h
    exact hr
  | cons e tl ih =>
    simp only [relaxEdges] at h
    cases h1 : relaxEdge w k r e with
    | error f => rw [h1] at h; cases h
    | ok r1 =>
      rw [h1] at h
      exact ih (fun e' he' => hstep e' (List.mem_cons_of_mem _ he'))
        (hstep e (List.mem_cons_self _ _) r r1 hr h1) h

/-- The scan for `smallkey` ends on a vertex, or on the indeterminate value it started
with. -/
theorem select_vertex_or_start {g : Digraph V E} {dmap : StdMap Double}
    (hd : StdMap.keys dmap = vertices g) (top : Double) (j : Int) :
    selectSmallkey dmap top j ∈ vertices g ∨ selectSmallkey dmap top j = j := by
  rcases selectSmallkey_cases dmap top j with h | ⟨d, h, _⟩
  · exact Or.inr h
  · left
    rw [← hd]
    exact List.mem_map.mpr ⟨_, h, rfl⟩

/-- A pass of the loop on a graph whose edges lead to present vertices: it keeps the shape of
the maps, unless `GraphMap.at(smallkey)` throws, which it does only for an uninitialised
`smallkey` that holds no vertex id. -/
theorem spBody_inv {g : Digraph V E} (hwf : WellFormed g) (w : E → Double) {st : SPState}
    (hst : SPInv g st) (top : Double) (rest : List Double) (j : Int) :
    (spBody g w st top rest j = .error .outOfRange ∧ j ∉ vertices g) ∨
      ∃ st', spBody g w st top rest j = .ok st' ∧ SPInv g st' := by
  obtain ⟨hd, hp, hv⟩ := hst
  unfold spBody
  simp only
  split
  · by_cases hk : selectSmallkey st.dmap top j ∈ vertices g
    · obtain ⟨dv, hdv⟩ := (StdMap.mem_keys_iff g.GraphMap _).mp hk
      have hes : ∀ e ∈ dv.edges, e.toVertex ∈ vertices g := fun e he =>
        (hwf.2 _ (StdMap.mem_of_find hdv) e he).2
      obtain ⟨r, hr, hri⟩ := relaxEdges_inv hwf.1 w hk dv.edges hes
        (r := ⟨st.dmap, st.pmap, rest⟩) ⟨hd, hp, hv⟩
      right
      simp only [hdv, hr]
      exact ⟨_, rfl, hri⟩
    · have hnone : StdMap.find g.GraphMap (selectSmallkey st.dmap top j) = none :=
        (StdMap.find_eq_none_iff _ _).mpr hk
      left
      simp only [hnone]
      refine ⟨trivial, ?_⟩
      rcases select_vertex_or_start hd top j with h | h
      · exact absurd h hk
      · rw [← h]; exact hk
  · right
    exact ⟨_, rfl, hd, hp, hv⟩

/-- Total correctness of the loop, on a graph whose edges lead to present vertices, for a
property that every pass keeps: the loop ends with the queue empty and the property, or with
the `std::out_of_range` of a pass whose uninitialised `smallkey` holds no vertex id. -/
theorem spLoop_total {g : Digraph V E} (hwf : WellFormed g) {w : E → Double}
    (P : SPState → Prop)
    (hstep : ∀ st top rest j st', SPInv g st → P st → st.distance_queue = top :: rest →
      spBody g w st top rest j = .ok st' → P st')
    (garbage : Nat → Int) (fuel pass : Nat) (st : SPState) (hinv : SPInv g st) (hP : P st)
    (hm : spMeasure g st < fuel) :
    (spLoop g w garbage fuel pass st = some (.error .outOfRange) ∧
        ∃ i, garbage i ∉ vertices g) ∨
      ∃ st', spLoop g w garbage fuel pass st = some (.ok st') ∧ SPInv g st' ∧ P st' ∧
        st'.distance_queue = [] := by
  induction fuel generalizing st pass with
  | zero => omega
  | succ n ih =>
    unfold spLoop
    split
    · rename_i hq
      exact Or.inr ⟨st, rfl, hinv, hP, hq⟩
    · rename_i top rest hq
      rcases spBody_inv hwf w hinv top rest (garbage pass) with ⟨h1, hj⟩ | ⟨st1, h1, hinv1⟩
      · left
        simp only [h1]
        exact ⟨trivial, pass, hj⟩
      · have := spBody_measure hq h1
        simp only [h1]
        exact ih (pass + 1) st1 hinv1 (hstep st top rest _ st1 hinv hP hq h1) (by omega)

theorem spInit_maps (g : Digraph V E) (ho : StdMap.Ordered g.GraphMap) {β : Type}
    (f : Int × DigraphVertex V E → β) :
    g.GraphMap.foldl (fun m key => StdMap.assign m key.1 (f key)) [] =
      g.GraphMap.map (fun key => (key.1, f key)) := by
  have := StdMap.foldl_assign_eq f g.GraphMap [] ho (by simp [StdMap.keys])
  simpa using this

theorem spInit_inv {g : Digraph V E} (hwf : WellFormed g) {s : Int} (hs : s ∈ vertices g) :
    SPInv g (spInit g s) := by
  have ho := hwf.1
  have hkeys : ∀ {β : Type} (f : Int × DigraphVertex V E → β),
      StdMap.keys (g.GraphMap.map (fun key => (key.1, f key))) = vertices g := by
    intro β f
    simp [StdMap.keys, vertices, List.map_map, Function.comp_def]
  refine ⟨?_, ?_, ?_⟩
  · show StdMap.keys (StdMap.assign _ s Double.zero) = vertices g
    rw [spInit_maps g ho]
    rw [StdMap.keys_assign_of_mem (ordered_of_keys (hkeys _) ho)
      (by rw [hkeys]; exact hs), hkeys]
  · show StdMap.keys (g.GraphMap.foldl _ []) = vertices g
    rw [spInit_maps g ho (fun key => key.1), hkeys]
  · intro p hp
    rcases foldl_assign_mem (fun key => key.1) _ _ hp with h | ⟨key, hkey, hpk⟩
    · simp at h
    · rw [hpk]
      exact List.mem_map.mpr ⟨key, hkey, rfl⟩

/-- The result of the call in terms of the result of the loop. -/
theorem findShortestPaths_of_loop {g : Digraph V E} {s : Int} {w : E → Double}
    {garbage : Nat → Int} (P : SPState → Prop)
    (h : (spLoop g w garbage (edgeCount g + 2) 0 (spInit g s) = some (.error .outOfRange) ∧
        ∃ i, garbage i ∉ vertices g) ∨
      ∃ st', spLoop g w garbage (edgeCount g + 2) 0 (spInit g s) = some (.ok st') ∧ P st') :
    (findShortestPaths g s w garbage = some (.error .outOfRange) ∧
        ∃ i, garbage i ∉ vertices g) ∨
      ∃ st', findShortestPaths g s w garbage = some (.ok st'.pmap) ∧ P st' := by
  unfold findShortestPaths
  rcases h with ⟨h, hi⟩ | ⟨st', h, hP⟩
  · left
    simp only [h]
    exact ⟨trivial, hi⟩
  · right
    simp only [h]
    exact ⟨st', rfl, hP⟩

/-- C4: for a graph whose edges are stored under their `fromVertex` and lead to present
vertices, a start vertex of the graph and any weight function, every map that
`findShortestPaths` returns has exactly the vertex ids of `vertices()` as its keys, one entry
each, and only vertex ids of the graph as its values.  The call does return such a map, unless
a pass reads an uninitialised `smallkey` that holds no vertex id: then `GraphMap.at` throws
`std::out_of_range`. -/
theorem findShortestPaths_domain (g : Digraph V E) (startVertex : Int) (w : E → Double)
    (garbage : Nat → Int) (hwf : WellFormed g) (hs : startVertex ∈ vertices g) :
    (findShortestPaths g startVertex w garbage = some (.error .outOfRange) ∧
        ∃ i, garbage i ∉ vertices g) ∨
      ∃ m, findShortestPaths g startVertex w garbage = some (.ok m) ∧
        StdMap.keys m = vertices g ∧ ∀ p ∈ m, p.2 ∈ vertices g := by
  have hloop := spLoop_total hwf (w := w) (fun _ => True)
    (fun _ _ _ _ _ _ _ _ _ => trivial) garbage (edgeCount g + 2) 0 (spInit g startVertex)
    (spInit_inv hwf hs) trivial (spInit_measure g startVertex)
  rcases findShortestPaths_of_loop (fun st => SPInv g st ∧ True ∧ st.distance_queue = [])
      hloop with h | ⟨st, h, hinv, _⟩
  · exact Or.inl h
  · exact Or.inr ⟨st.pmap, h, hinv.2.1, hinv.2.2⟩

/-- C4 at the worked scenario graph with start vertex 0, every uninitialised `smallkey`
holding 0: the call returns. -/
theorem findShortestPaths_domain_witness :
    WellFormed scenarioGraph ∧ (0 : Int) ∈ vertices scenarioGraph ∧
      ∃ m, findShortestPaths scenarioGraph 0 natWeight (fun _ => 0) = some (.ok m) ∧
        StdMap.keys m = vertices scenarioGraph ∧ ∀ p ∈ m, p.2 ∈ vertices scenarioGraph :=
  ⟨scenarioGraph_wellFormed, by decide,
    (findShortestPaths_domain scenarioGraph 0 natWeight (fun _ => 0) scenarioGraph_wellFormed
      (by decide)).resolve_left (fun h => h.2.elim fun _ hi => hi (by decide))⟩

/-! ## `findShortestPaths`: the self-predecessor sentinel -/

theorem lt_DBL_MAX_iff (a : Nat) :
    Double.lt (.finite a) DBL_MAX = true ↔ a < Double.maxUnits :=
  Double.lt_finite_natCast

/-- What a relaxation that takes place gives, under non-negative weights: the new distance is
a distance, not below that of `smallkey` and below the old one of the destination, and the
distance of `smallkey` is below `DBL_MAX`. -/
theorem relax_arith {w : Double} {dk dto : Double} (hw : Double.le Double.zero w = true)
    (hdk : IsDistance dk) (hdto : IsDistance dto)
    (hlt : Double.lt (Double.add dk w) dto = true) :
    ∃ a c t : Nat, dk = .finite a ∧ Double.add dk w = .finite c ∧ dto = .finite t ∧
      Double.roundNat c = c ∧ a ≤ c ∧ c < t ∧ t ≤ Double.maxUnits := by
  obtain ⟨a, rfl, ha, _⟩ := hdk
  obtain ⟨t, rfl, _, htM⟩ := hdto
  obtain ⟨c, hc, hcr, hac⟩ := Double.add_of_lt ha hw hlt
  rw [hc] at hlt
  exact ⟨a, c, t, rfl, hc, rfl, hcr, hac, Double.lt_finite_natCast.mp hlt, htM⟩

theorem relaxEdge_dist {g : Digraph V E} {s : Int} {w : E → Double}
    (hw : ∀ x, Double.le Double.zero (w x) = true)
    {k : Int} {e : DigraphEdge E} (hadj : Adj g k e.toVertex) {r r' : Relax}
    (hr : DistInv g s r.dmap r.pmap) (h : relaxEdge w k r e = .ok r') :
    DistInv g s r'.dmap r'.pmap := by
  obtain ⟨hb, hs0, hps, hreach, hun⟩ := hr
  unfold relaxEdge at h
  split at h
  · rename_i dto dk hdto hdk
    split at h
    · rename_i hlt
      cases h
      obtain ⟨a, c, t, hka, hsum, hta, hcr, hac, hct, htM⟩ :=
        relax_arith (hw e.einfo) (hb k dk hdk) (hb _ dto hdto) hlt
      have hkM : Double.lt dk DBL_MAX = true := by
        rw [hka]; exact (lt_DBL_MAX_iff a).mpr (by omega)
      have hrk : Reachable g s k := hreach k dk hdk hkM
      have hrto : Reachable g s e.toVertex := Relation.ReflTransGen.tail hrk hadj
      have hne : s ≠ e.toVertex := by
        intro heq
        rw [← heq, hs0, hta] at hdto
        have h0 : (0 : Int) = (t : Int) := Double.finite.inj (Option.some.inj hdto)
        omega
      refine ⟨?_, ?_, ?_, ?_, ?_⟩
      · intro k' d hf
        simp only [StdMap.find_assign] at hf
        split at hf
        · cases hf
          rw [hsum]
          exact ⟨c, rfl, hcr, by omega⟩
        · exact hb k' d hf
      · simp only [StdMap.find_assign, hne, if_false, hs0]
      · simp only [StdMap.find_assign, hne, if_false, hps]
      · intro k' d hf hd
        simp only [StdMap.find_assign] at hf
        split at hf
        · rename_i hk'
          rw [hk']; exact hrto
        · exact hreach k' d hf hd
      · intro k' hk' hnr
        have hne' : k' ≠ e.toVertex := fun h' => hnr (h' ▸ hrto)
        simp only [StdMap.find_assign, hne', if_false]
        exact hun k' hk' hnr
    · cases h
      exact ⟨hb, hs0, hps, hreach, hun⟩
  · cases h

theorem spBody_dist {g : Digraph V E} {s : Int} {w : E → Double}
    (hw : ∀ x, Double.le Double.zero (w x) = true)
    {st st' : SPState} {top : Double} {rest : List Double} {j : Int}
    (hst : DistInv g s st.dmap st.pmap)
    (h : spBody g w st top rest j = .ok st') : DistInv g s st'.dmap st'.pmap := by
  rcases spBody_cases h with ⟨_, dv, r, hdv, hr, hst'⟩ | ⟨_, hst'⟩
  · subst hst'
    exact relaxEdges_preserves (fun r => DistInv g s r.dmap r.pmap) dv.edges
      (fun e he r1 r2 h1 h2 => relaxEdge_dist hw ⟨dv, hdv, e, he, rfl⟩ h1 h2)
      (r := ⟨st.dmap, st.pmap, rest⟩) hst hr
  · subst hst'
    exact hst

theorem isDistance_zero : IsDistance Double.zero :=
  ⟨0, rfl, Double.roundNat_of_dvd (Nat.dvd_zero _), Nat.zero_le _⟩

theorem isDistance_DBL_MAX : IsDistance DBL_MAX :=
  ⟨Double.maxUnits, rfl, Double.roundNat_maxUnits, le_refl _⟩

theorem lt_DBL_MAX_self : Double.lt DBL_MAX DBL_MAX = false := by
  have h : ¬ Double.maxUnits < Double.maxUnits := lt_irrefl _
  cases hb : Double.lt DBL_MAX DBL_MAX with
  | false => rfl
  | true => exact absurd ((lt_DBL_MAX_iff _).mp hb) h

theorem spInit_dmap_find (g : Digraph V E) (s : Int) {k : Int} {d : Double}
    (hf : StdMap.find (spInit g s).dmap k = some d) :
    (k = s ∧ d = Double.zero) ∨ d = DBL_MAX := by
  have hf' : StdMap.find (StdMap.assign
      (g.GraphMap.foldl (fun m key => StdMap.assign m key.1 DBL_MAX) []) s Double.zero) k =
      some d := hf
  rw [StdMap.find_assign] at hf'
  split at hf'
  · rename_i hks
    exact Or.inl ⟨hks, (Option.some.inj hf').symm⟩
  · rcases foldl_assign_mem (fun _ => DBL_MAX) _ _ (StdMap.mem_of_find hf') with h | ⟨_, _, hp⟩
    · simp at h
    · exact Or.inr (Prod.mk.inj hp).2

theorem spInit_pmap_find_of_mem {g : Digraph V E} (hwf : WellFormed g) (s : Int) {k : Int}
    (hk : k ∈ vertices g) : StdMap.find (spInit g s).pmap k = some k := by
  have ho := hwf.1
  have hpm : (spInit g s).pmap = g.GraphMap.map (fun key => (key.1, key.1)) :=
    spInit_maps g ho (fun key => key.1)
  have hpo : StdMap.Ordered (g.GraphMap.map (fun key => (key.1, key.1))) := by
    have : StdMap.keys (g.GraphMap.map (fun key => (key.1, key.1))) = StdMap.keys g.GraphMap := by
      simp [StdMap.keys, List.map_map, Function.comp_def]
    exact ordered_of_keys this ho
  rw [hpm]
  apply StdMap.find_of_mem hpo
  obtain ⟨key, hkey, hk1⟩ := List.mem_map.mp hk
  exact List.mem_map.mpr ⟨key, hkey, by rw [hk1]⟩

theorem spInit_dist {g : Digraph V E} (hwf : WellFormed g) {s : Int} (hs : s ∈ vertices g) :
    DistInv g s (spInit g s).dmap (spInit g s).pmap := by
  refine ⟨?_, ?_, spInit_pmap_find_of_mem hwf s hs, ?_,
    fun k hk _ => spInit_pmap_find_of_mem hwf s hk⟩
  · intro k d hf
    rcases spInit_dmap_find g s hf with ⟨_, h⟩ | h
    · rw [h]; exact isDistance_zero
    · rw [h]; exact isDistance_DBL_MAX
  · show StdMap.find (StdMap.assign _ s Double.zero) s = some Double.zero
    rw [StdMap.find_assign]
    simp
  · intro k d hf hd
    rcases spInit_dmap_find g s hf with ⟨h, _⟩ | h
    · rw [h]; exact Relation.ReflTransGen.refl
    · rw [h, lt_DBL_MAX_self] at hd
      cases hd

/-- C2: for a graph whose edges are stored under their `fromVertex` and lead to present
vertices, a start vertex of the graph and a weight function without negative values, every
map that `findShortestPaths` returns has `pred[start] = start` and `pred[v] = v` for every
vertex `v` that has no directed path from the start vertex.  The call does return such a map,
unless a pass reads an uninitialised `smallkey` that holds no vertex id: then `GraphMap.at`
throws `std::out_of_range`. -/
theorem findShortestPaths_sentinel (g : Digraph V E) (startVertex : Int) (w : E → Double)
    (garbage : Nat → Int) (hwf : WellFormed g) (hs : startVertex ∈ vertices g)
    (hw : ∀ x, Double.le Double.zero (w x) = true) :
    (findShortestPaths g startVertex w garbage = some (.error .outOfRange) ∧
        ∃ i, garbage i ∉ vertices g) ∨
      ∃ m, findShortestPaths g startVertex w garbage = some (.ok m) ∧
        StdMap.find m startVertex = some startVertex ∧
        ∀ v ∈ vertices g, ¬ Reachable g startVertex v → StdMap.find m v = some v := by
  have hloop := spLoop_total hwf (w := w)
    (fun st => DistInv g startVertex st.dmap st.pmap)
    (fun _ _ _ _ _ _ hP _ hb => spBody_dist hw hP hb) garbage (edgeCount g + 2) 0
    (spInit g startVertex) (spInit_inv hwf hs) (spInit_dist hwf hs)
    (spInit_measure g startVertex)
  rcases findShortestPaths_of_loop
      (fun st => SPInv g st ∧ DistInv g startVertex st.dmap st.pmap ∧ st.distance_queue = [])
      hloop with h | ⟨st, h, _, hd, _⟩
  · exact Or.inl h
  · exact Or.inr ⟨st.pmap, h, hd.2.2.1, hd.2.2.2.2⟩

/-- C2 at vertices 0 and 1 with the single edge 0->1, start vertex 1 and every weight 1:
vertex 0 is not reachable from the start vertex. -/
theorem findShortestPaths_sentinel_witness :
    WellFormed oneEdgeGraph ∧ (1 : Int) ∈ vertices oneEdgeGraph ∧
      (∀ x : Unit, Double.le Double.zero ((fun _ => Double.ofNat 1) x) = true) ∧
      ∃ m, findShortestPaths oneEdgeGraph 1 (fun _ => Double.ofNat 1) (fun _ => 0) =
          some (.ok m) ∧
        StdMap.find m 1 = some 1 ∧
        ∀ v ∈ vertices oneEdgeGraph, ¬ Reachable oneEdgeGraph 1 v → StdMap.find m v = some v :=
  ⟨oneEdgeGraph_wellFormed, by decide, fun _ => Double.le_zero_ofNat (by norm_num),
    (findShortestPaths_sentinel oneEdgeGraph 1 (fun _ => Double.ofNat 1) (fun _ => 0)
      oneEdgeGraph_wellFormed (by decide) (fun _ => Double.le_zero_ofNat (by norm_num))).resolve_left
      (fun h => h.2.elim fun _ hi => hi (by decide))⟩

/-! ## `findShortestPaths` on concrete graphs

The runs are first followed for arbitrary `double` values that compare and add up as the
weights of the graph do, and then read at the weights themselves. -/

theorem lt_ofNat_DBL_MAX {a : Nat} (h : a < 2 ^ 53) :
    Double.lt (Double.ofNat a) DBL_MAX = true := by
  rw [Double.ofNat_eq h]
  exact (lt_DBL_MAX_iff _).mpr (Double.ofNat_units_lt h)

theorem eq_DBL_MAX_ofNat {a : Nat} (h : a < 2 ^ 53) :
    Double.eq DBL_MAX (Double.ofNat a) = false := by
  rw [Double.ofNat_eq h]
  have hlt := Double.ofNat_units_lt h
  have hne : ((Double.maxUnits : Nat) : Int) ≠ ((a * 2 ^ 1074 : Nat) : Int) := by
    intro heq
    have := Nat.cast_inj.mp heq
    omega
  rw [show DBL_MAX = Double.finite ((Double.maxUnits : Nat) : Int) from rfl, Double.eq_finite]
  exact decide_eq_false hne

theorem eq_zero_ofNat {a : Nat} (h : a < 2 ^ 53) :
    Double.eq Double.zero (Double.ofNat a) = decide (0 = a) := by
  rw [Double.zero_eq_ofNat, Double.eq_ofNat (by norm_num) h]

theorem add_zero_natWeight {a : Nat} (h : a < 2 ^ 53) :
    Double.add Double.zero (natWeight a) = Double.ofNat a := by
  rw [Double.zero_eq_ofNat]
  show Double.add (Double.ofNat 0) (Double.ofNat a) = Double.ofNat a
  rw [Double.add_ofNat (by omega), Nat.zero_add]

theorem add_ofNat_natWeight {a b : Nat} (c : Nat) (hc : a + b = c) (h : c < 2 ^ 53) :
    Double.add (Double.ofNat a) (natWeight b) = Double.ofNat c := by
  show Double.add (Double.ofNat a) (Double.ofNat b) = Double.ofNat c
  rw [Double.add_ofNat (by omega), hc]

theorem le_zero_natWeight (x : ℕ) : Double.le Double.zero (natWeight x) = true := by
  cases hr : natWeight x with
  | finite k =>
    have hk : 0 ≤ k := by
      unfold natWeight Double.ofNat at hr
      rw [Double.cast_scaled, Double.round_natCast] at hr
      split at hr
      · cases hr
      · cases hr
        exact Int.ofNat_nonneg _
    show decide ((0 : Int) ≤ k) = true
    exact decide_eq_true hk
  | posInf => rfl
  | negInf =>
    unfold natWeight Double.ofNat at hr
    rw [Double.cast_scaled, Double.round_natCast] at hr
    split at hr <;> cases hr
  | nan =>
    unfold natWeight Double.ofNat at hr
    rw [Double.cast_scaled, Double.round_natCast] at hr
    split at hr <;> cases hr

theorem findShortestPaths_eq_of_loop {g : Digraph V E} {s : Int} {w : E → Double}
    {garbage : Nat → Int} {st : SPState}
    (h : spLoop g w garbage (edgeCount g + 2) 0 (spInit g s) = some (.ok st)) :
    findShortestPaths g s w garbage = some (.ok st.pmap) := by
  unfold findShortestPaths
  rw [h]

theorem findShortestPaths_error_of_loop {g : Digraph V E} {s : Int} {w : E → Double}
    {garbage : Nat → Int} {f : Failure}
    (h : spLoop g w garbage (edgeCount g + 2) 0 (spInit g s) = some (.error f)) :
    findShortestPaths g s w garbage = some (.error f) := by
  unfold findShortestPaths
  rw [h]

/-! ### Edges 0->1, 0->2, 1->3, all of weight 1 -/

theorem tieOrphan_loop (w : ℕ → Double) (z x M : Double) (garbage : Nat → Int)
    (hzz : Double.eq z z = true) (hMz : Double.eq M z = false)
    (hzx : Double.eq z x = false) (hxx : Double.eq x x = true) (hMx : Double.eq M x = false)
    (hadd : Double.add z (w 1) = x) (hxM : Double.lt x M = true)
    (hltxx : Double.lt x x = false) :
    spLoop tieOrphanGraph w garbage 5 0
        ⟨[(0, false), (1, false), (2, false), (3, false)], [(0, z), (1, M), (2, M), (3, M)],
          [(0, 0), (1, 1), (2, 2), (3, 3)], [z]⟩ =
      some (.ok ⟨[(0, true), (1, false), (2, true), (3, false)],
        [(0, z), (1, x), (2, x), (3, M)], [(0, 0), (1, 0), (2, 0), (3, 3)], []⟩) := by
  simp [-Prod.mk_zero_zero, -Prod.mk_one_one, spLoop, spBody, relaxEdges, relaxEdge,
    selectSmallkey, StdMap.assign, StdMap.find, pqPush, tieOrphanGraph, hzz, hMz, hzx, hxx,
    hMx, hadd, hxM, hltxx]

theorem tieOrphan_init : spInit tieOrphanGraph 0 =
    ⟨[(0, false), (1, false), (2, false), (3, false)],
      [(0, Double.zero), (1, DBL_MAX), (2, DBL_MAX), (3, DBL_MAX)],
      [(0, 0), (1, 1), (2, 2), (3, 3)], [Double.zero]⟩ := rfl

theorem tieOrphan_spLoop (garbage : Nat → Int) :
    spLoop tieOrphanGraph natWeight garbage (edgeCount tieOrphanGraph + 2) 0
        (spInit tieOrphanGraph 0) =
      some (.ok ⟨[(0, true), (1, false), (2, true), (3, false)],
        [(0, Double.zero), (1, Double.ofNat 1), (2, Double.ofNat 1), (3, DBL_MAX)],
        [(0, 0), (1, 0), (2, 0), (3, 3)], []⟩) := by
  rw [show edgeCount tieOrphanGraph + 2 = 5 from rfl, tieOrphan_init]
  exact tieOrphan_loop natWeight Double.zero (Double.ofNat 1) DBL_MAX garbage
    eq_zero_zero eq_DBL_MAX_zero
    (by rw [eq_zero_ofNat (by norm_num)]; rfl)
    (by rw [Double.eq_ofNat (by norm_num) (by norm_num)]; rfl)
    (eq_DBL_MAX_ofNat (by norm_num))
    (add_zero_natWeight (by norm_num))
    (lt_ofNat_DBL_MAX (by norm_num))
    (by rw [Double.lt_ofNat (by norm_num) (by norm_num)]; rfl)

theorem tieOrphanGraph_route (garbage : Nat → Int) :
    findShortestPaths tieOrphanGraph 0 natWeight garbage =
      some (.ok [(0, 0), (1, 0), (2, 0), (3, 3)]) :=
  findShortestPaths_eq_of_loop (tieOrphan_spLoop garbage)

/-! ### Edges 0->1 (1), 0->2 (1), 1->3 (1), 2->3 (5) -/

theorem tieDetour_loop (w : ℕ → Double) (z x y M : Double) (garbage : Nat → Int)
    (hzz : Double.eq z z = true) (hMz : Double.eq M z = false)
    (hzx : Double.eq z x = false) (hxx : Double.eq x x = true) (hMx : Double.eq M x = false)
    (hzy : Double.eq z y = false) (hxy : Double.eq x y = false) (hyx : Double.eq y x = false)
    (hyy : Double.eq y y = true)
    (hadd1 : Double.add z (w 1) = x) (hadd5 : Double.add x (w 5) = y)
    (hxM : Double.lt x M = true) (hyM : Double.lt y M = true)
    (hltxx : Double.lt x x = false) (hltxy : Double.lt x y = true) :
    spLoop tieDetourGraph w garbage 6 0
        ⟨[(0, false), (1, false), (2, false), (3, false)], [(0, z), (1, M), (2, M), (3, M)],
          [(0, 0), (1, 1), (2, 2), (3, 3)], [z]⟩ =
      some (.ok ⟨[(0, true), (1, false), (2, true), (3, true)],
        [(0, z), (1, x), (2, x), (3, y)], [(0, 0), (1, 0), (2, 0), (3, 2)], []⟩) := by
  simp [-Prod.mk_zero_zero, -Prod.mk_one_one, spLoop, spBody, relaxEdges, relaxEdge,
    selectSmallkey, StdMap.assign, StdMap.find, pqPush, tieDetourGraph, hzz, hMz, hzx, hxx,
    hMx, hzy, hxy, hyx, hyy, hadd1, hadd5, hxM, hyM, hltxx, hltxy]

theorem tieDetour_init : spInit tieDetourGraph 0 =
    ⟨[(0, false), (1, false), (2, false), (3, false)],
      [(0, Double.zero), (1, DBL_MAX), (2, DBL_MAX), (3, DBL_MAX)],
      [(0, 0), (1, 1), (2, 2), (3, 3)], [Double.zero]⟩ := rfl

theorem tieDetour_spLoop (garbage : Nat → Int) :
    spLoop tieDetourGraph natWeight garbage (edgeCount tieDetourGraph + 2) 0
        (spInit tieDetourGraph 0) =
      some (.ok ⟨[(0, true), (1, false), (2, true), (3, true)],
        [(0, Double.zero), (1, Double.ofNat 1), (2, Double.ofNat 1), (3, Double.ofNat 6)],
        [(0, 0), (1, 0), (2, 0), (3, 2)], []⟩) := by
  rw [show edgeCount tieDetourGraph + 2 = 6 from rfl, tieDetour_init]
  exact tieDetour_loop natWeight Double.zero (Double.ofNat 1) (Double.ofNat 6) DBL_MAX garbage
    eq_zero_zero eq_DBL_MAX_zero
    (by rw [eq_zero_ofNat (by norm_num)]; rfl)
    (by rw [Double.eq_ofNat (by norm_num) (by norm_num)]; rfl)
    (eq_DBL_MAX_ofNat (by norm_num))
    (by rw [eq_zero_ofNat (by norm_num)]; rfl)
    (by rw [Double.eq_ofNat (by norm_num) (by norm_num)]; rfl)
    (by rw [Double.eq_ofNat (by norm_num) (by norm_num)]; rfl)
    (by rw [Double.eq_ofNat (by norm_num) (by norm_num)]; rfl)
    (add_zero_natWeight (by norm_num))
    (add_ofNat_natWeight 6 rfl (by norm_num))
    (lt_ofNat_DBL_MAX (by norm_num))
    (lt_ofNat_DBL_MAX (by norm_num))
    (by rw [Double.lt_ofNat (by norm_num) (by norm_num)]; rfl)
    (by rw [Double.lt_ofNat (by norm_num) (by norm_num)]; rfl)

theorem tieDetourGraph_route (garbage : Nat → Int) :
    findShortestPaths tieDetourGraph 0 natWeight garbage =
      some (.ok [(0, 0), (1, 0), (2, 0), (3, 2)]) :=
  findShortestPaths_eq_of_loop (tieDetour_spLoop garbage)

theorem tieDetour_weights (w : ℕ → Double) (h1 : Double.toRat (w 1) = some 1)
    (h5 : Double.toRat (w 5) = some 5) :
    pathWeight tieDetourGraph w [0, 2, 3] = some 6 ∧
      pathWeight tieDetourGraph w [0, 1, 3] = some 2 := by
  constructor <;>
    norm_num [pathWeight, edgeInfo, StdMap.find, tieDetourGraph, h1, h5]

/-! ### The worked scenario: edges 0->1 (1), 1->2 (1), 0->2 (5), 2->3 (1)

The value 5 pushed for vertex 2 is still on the queue when the distance of vertex 2 has gone
down to 2.  It is popped in the fifth pass, where no distance equals it: the pass reads
`smallkey` as the declaration left it. -/

theorem scenario_loop_ok (w : ℕ → Double) (z a b c e M : Double) (garbage : Nat → Int)
    (h : ScenarioValues w z a b c e M)
    (hg : garbage 4 = 0 ∨ garbage 4 = 1 ∨ garbage 4 = 2 ∨ garbage 4 = 3) :
    spLoop scenarioGraph w garbage 6 0
        ⟨[(0, false), (1, false), (2, false), (3, false)], [(0, z), (1, M), (2, M), (3, M)],
          [(0, 0), (1, 1), (2, 2), (3, 3)], [z]⟩ =
      some (.ok ⟨[(0, true), (1, true), (2, true), (3, true)],
        [(0, z), (1, a), (2, b), (3, c)], [(0, 0), (1, 0), (2, 1), (3, 2)], []⟩) := by
  obtain ⟨hzz, hMz, hza, haa, hea, hMa, hzb, hab, hbb, hMb, hzc, hac, hbc, hcc, hze, hae, hbe,
    hce, add_z1, add_z5, add_a1, add_b1, lt_aM, lt_eM, lt_be, lt_cM, lt_ae, lt_eb, lt_ec⟩ := h
  rcases hg with hg | hg | hg | hg <;>
    simp [-Prod.mk_zero_zero, -Prod.mk_one_one, spLoop, spBody, relaxEdges, relaxEdge,
      selectSmallkey, StdMap.assign, StdMap.find, pqPush, scenarioGraph, hzz, hMz, hza, haa,
      hea, hMa, hzb, hab, hbb, hMb, hzc, hac, hbc, hcc, hze, hae, hbe, hce, add_z1, add_z5,
      add_a1, add_b1, lt_aM, lt_eM, lt_be, lt_cM, lt_ae, lt_eb, lt_ec, hg]

theorem scenario_loop_error (w : ℕ → Double) (z a b c e M : Double) (garbage : Nat → Int)
    (h : ScenarioValues w z a b c e M)
    (h0 : garbage 4 ≠ 0) (h1 : garbage 4 ≠ 1) (h2 : garbage 4 ≠ 2) (h3 : garbage 4 ≠ 3) :
    spLoop scenarioGraph w garbage 6 0
        ⟨[(0, false), (1, false), (2, false), (3, false)], [(0, z), (1, M), (2, M), (3, M)],
          [(0, 0), (1, 1), (2, 2), (3, 3)], [z]⟩ =
      some (.error .outOfRange) := by
  obtain ⟨hzz, hMz, hza, haa, hea, hMa, hzb, hab, hbb, hMb, hzc, hac, hbc, hcc, hze, hae, hbe,
    hce, add_z1, add_z5, add_a1, add_b1, lt_aM, lt_eM, lt_be, lt_cM, lt_ae, lt_eb, lt_ec⟩ := h
  simp [-Prod.mk_zero_zero, -Prod.mk_one_one, spLoop, spBody, relaxEdges, relaxEdge,
    selectSmallkey, StdMap.assign, StdMap.find, pqPush, scenarioGraph, hzz, hMz, hza, haa,
    hea, hMa, hzb, hab, hbb, hMb, hzc, hac, hbc, hcc, hze, hae, hbe, hce, add_z1, add_z5,
    add_a1, add_b1, lt_aM, lt_eM, lt_be, lt_cM, lt_ae, lt_eb, lt_ec, h0, h1, h2, h3]

theorem scenario_values :
    ScenarioValues natWeight Double.zero (Double.ofNat 1) (Double.ofNat 2) (Double.ofNat 3)
      (Double.ofNat 5) DBL_MAX where
  hzz := eq_zero_zero
  hMz := eq_DBL_MAX_zero
  hza := by rw [eq_zero_ofNat (by norm_num)]; rfl
  haa := by rw [Double.eq_ofNat (by norm_num) (by norm_num)]; rfl
  hea := by rw [Double.eq_ofNat (by norm_num) (by norm_num)]; rfl
  hMa := eq_DBL_MAX_ofNat (by norm_num)
  hzb := by rw [eq_zero_ofNat (by norm_num)]; rfl
  hab := by rw [Double.eq_ofNat (by norm_num) (by norm_num)]; rfl
  hbb := by rw [Double.eq_ofNat (by norm_num) (by norm_num)]; rfl
  hMb := eq_DBL_MAX_ofNat (by norm_num)
  hzc := by rw [eq_zero_ofNat (by norm_num)]; rfl
  hac := by rw [Double.eq_ofNat (by norm_num) (by norm_num)]; rfl
  hbc := by rw [Double.eq_ofNat (by norm_num) (by norm_num)]; rfl
  hcc := by rw [Double.eq_ofNat (by norm_num) (by norm_num)]; rfl
  hze := by rw [eq_zero_ofNat (by norm_num)]; rfl
  hae := by rw [Double.eq_ofNat (by norm_num) (by norm_num)]; rfl
  hbe := by rw [Double.eq_ofNat (by norm_num) (by norm_num)]; rfl
  hce := by rw [Double.eq_ofNat (by norm_num) (by norm_num)]; rfl
  add_z1 := add_zero_natWeight (by norm_num)
  add_z5 := add_zero_natWeight (by norm_num)
  add_a1 := add_ofNat_natWeight 2 rfl (by norm_num)
  add_b1 := add_ofNat_natWeight 3 rfl (by norm_num)
  lt_aM := lt_ofNat_DBL_MAX (by norm_num)
  lt_eM := lt_ofNat_DBL_MAX (by norm_num)
  lt_be := by rw [Double.lt_ofNat (by norm_num) (by norm_num)]; rfl
  lt_cM := lt_ofNat_DBL_MAX (by norm_num)
  lt_ae := by rw [Double.lt_ofNat (by norm_num) (by norm_num)]; rfl
  lt_eb := by rw [Double.lt_ofNat (by norm_num) (by norm_num)]; rfl
  lt_ec := by rw [Double.lt_ofNat (by norm_num) (by norm_num)]; rfl

theorem scenario_init : spInit scenarioGraph 0 =
    ⟨[(0, false), (1, false), (2, false), (3, false)],
      [(0, Double.zero), (1, DBL_MAX), (2, DBL_MAX), (3, DBL_MAX)],
      [(0, 0), (1, 1), (2, 2), (3, 3)], [Double.zero]⟩ := rfl

theorem mem_vertices_scenarioGraph (k : Int) :
    k ∈ vertices scenarioGraph ↔ k = 0 ∨ k = 1 ∨ k = 2 ∨ k = 3 := by
  simp [vertices, StdMap.keys, scenarioGraph]

/-- On the worked scenario graph the call returns the claimed map when the uninitialised
`smallkey` of the fifth pass holds a vertex id. -/
theorem scenarioGraph_route (garbage : Nat → Int) (hg : garbage 4 ∈ vertices scenarioGraph) :
    findShortestPaths scenarioGraph 0 natWeight garbage =
      some (.ok [(0, 0), (1, 0), (2, 1), (3, 2)]) := by
  have h : spLoop scenarioGraph natWeight garbage (edgeCount scenarioGraph + 2) 0
      (spInit scenarioGraph 0) =
      some (.ok ⟨[(0, true), (1, true), (2, true), (3, true)],
        [(0, Double.zero), (1, Double.ofNat 1), (2, Double.ofNat 2), (3, Double.ofNat 3)],
        [(0, 0), (1, 0), (2, 1), (3, 2)], []⟩) := by
    rw [show edgeCount scenarioGraph + 2 = 6 from rfl, scenario_init]
    exact scenario_loop_ok natWeight _ _ _ _ _ _ garbage scenario_values
      ((mem_vertices_scenarioGraph _).mp hg)
  exact findShortestPaths_eq_of_loop h

/-- On the worked scenario graph the call throws `std::out_of_range` when the uninitialised
`smallkey` of the fifth pass holds no vertex id. -/
theorem scenarioGraph_outOfRange (garbage : Nat → Int)
    (hg : garbage 4 ∉ vertices scenarioGraph) :
    findShortestPaths scenarioGraph 0 natWeight garbage = some (.error .outOfRange) := by
  have hne : ¬ (garbage 4 = 0 ∨ garbage 4 = 1 ∨ garbage 4 = 2 ∨ garbage 4 = 3) :=
    fun h => hg ((mem_vertices_scenarioGraph _).mpr h)
  simp only [not_or] at hne
  have h : spLoop scenarioGraph natWeight garbage (edgeCount scenarioGraph + 2) 0
      (spInit scenarioGraph 0) = some (.error .outOfRange) := by
    rw [show edgeCount scenarioGraph + 2 = 6 from rfl, scenario_init]
    exact scenario_loop_error natWeight _ _ _ _ _ _ garbage scenario_values
      hne.1 hne.2.1 hne.2.2.1 hne.2.2.2
  exact findShortestPaths_error_of_loop h

/-- C5, evaluated on the graph built by adding vertices 0, 1, 2, 3 and then the edges 0->1
(weight 1), 1->2 (weight 1), 0->2 (weight 5), 2->3 (weight 1) in that order: the fifth pass of
the loop pops the value 5, which no distance equals any more, and reads `smallkey`
uninitialised.  When it holds no vertex id (7, say), `findShortestPaths(0, w)` throws
`std::out_of_range` and returns no map; when it holds one of 0, 1, 2, 3 the call returns the
map with `pred(0) = 0`, `pred(1) = 0`, `pred(2) = 1`, `pred(3) = 2`. -/
theorem findShortestPaths_scenario_uninitialised :
    ∃ g, scenario = .ok g ∧
      (∀ garbage : Nat → Int, garbage 4 ∉ vertices g →
        findShortestPaths g 0 natWeight garbage = some (.error .outOfRange)) ∧
      findShortestPaths g 0 natWeight (fun _ => 7) = some (.error .outOfRange) ∧
      (∀ garbage : Nat → Int, garbage 4 ∈ vertices g →
        findShortestPaths g 0 natWeight garbage =
          some (.ok [(0, 0), (1, 0), (2, 1), (3, 2)])) :=
  ⟨scenarioGraph, rfl, scenarioGraph_outOfRange,
    scenarioGraph_outOfRange (fun _ => 7) (by decide), scenarioGraph_route⟩

/-- C1, evaluated on the graph with edges 0->1 (1), 0->2 (1), 1->3 (1), 2->3 (5) and start
vertex 0: vertices 1 and 2 both get distance 1, the scan for that distance ends on vertex 2
both times it is popped, and vertex 1 is never settled.  The returned map leads from vertex 3
back to the start vertex along 0->2->3, of total weight 6, while the path 0->1->3 has total
weight 2.  Every pass of this run assigns `smallkey`. -/
theorem findShortestPaths_tieDetour_not_shortest :
    ∃ g, tieDetour = .ok g ∧ WellFormed g ∧
      (∀ garbage : Nat → Int, ∃ m, findShortestPaths g 0 natWeight garbage = some (.ok m) ∧
        predPath m 0 (vertexCount g) 3 = some [0, 2, 3]) ∧
      pathWeight g natWeight [0, 2, 3] = some 6 ∧ pathWeight g natWeight [0, 1, 3] = some 2 := by
  have hw := tieDetour_weights natWeight
    (by simpa [natWeight] using Double.toRat_ofNat (n := 1) (by norm_num))
    (by simpa [natWeight] using Double.toRat_ofNat (n := 5) (by norm_num))
  exact ⟨tieDetourGraph, rfl, tieDetourGraph_wellFormed,
    fun garbage => ⟨_, tieDetourGraph_route garbage, by decide⟩, hw.1, hw.2⟩

/-- C3, evaluated on the graph with edges 0->1 (1), 0->2 (1), 1->3 (1) and start vertex 0:
vertex 3 is reachable from the start vertex along 0->1->3, and the returned map has
`pred(3) = 3`, since vertex 1 is never settled.  Every pass of this run assigns `smallkey`. -/
theorem findShortestPaths_tieOrphan_unreached :
    ∃ g, tieOrphan = .ok g ∧ WellFormed g ∧ Reachable g 0 3 ∧
      ∀ garbage : Nat → Int, ∃ m, findShortestPaths g 0 natWeight garbage = some (.ok m) ∧
        StdMap.find m 3 = some 3 := by
  refine ⟨tieOrphanGraph, rfl, tieOrphanGraph_wellFormed, ?_,
    fun garbage => ⟨_, tieOrphanGraph_route garbage, by decide⟩⟩
  have h01 : Adj tieOrphanGraph 0 1 := ⟨_, rfl, ⟨0, 1, 1⟩, by simp, rfl⟩
  have h13 : Adj tieOrphanGraph 1 3 := ⟨_, rfl, ⟨1, 3, 1⟩, by simp, rfl⟩
  exact (Relation.ReflTransGen.single h01).tail h13

/-! ### Edges 0->1 (3), 1->2 (10^16), 0->2 (10^16 + 4): a sum that is rounded

The exact sum 3 + 10^16 is below 10^16 + 4, but it lies halfway between the neighbouring
`double` values 10^16 + 2 and 10^16 + 4 and is rounded to the second: the edge 1->2 is not
relaxed. -/

theorem ofNat_big : Double.ofNat 10000000000000000 =
    Double.finite ((10000000000000000 * 2 ^ 1074 : Nat) : Int) :=
  Double.ofNat_eq_scaled 152587890625 16 (by norm_num) (by norm_num) (by norm_num)

theorem ofNat_big4 : Double.ofNat 10000000000000004 =
    Double.finite ((10000000000000004 * 2 ^ 1074 : Nat) : Int) :=
  Double.ofNat_eq_scaled 2500000000000001 2 (by norm_num) (by norm_num) (by norm_num)

/-- In `double` arithmetic 3 + 10^16 is 10^16 + 4. -/
theorem add_three_big :
    Double.add (Double.ofNat 3) (Double.ofNat 10000000000000000) =
      Double.ofNat 10000000000000004 := by
  have h := Double.round_tie_up (q := 5000000000000001) 1074 (by norm_num) (by norm_num)
    (by norm_num) (by norm_num)
  have e1 : 3 + 10000000000000000 = 2 * 5000000000000001 + 1 := by norm_num
  have e2 : 2 * (5000000000000001 + 1) = 10000000000000004 := by norm_num
  rw [Double.ofNat_eq (by norm_num), ofNat_big, ofNat_big4, Double.add_finite, ← Nat.cast_add,
    ← Nat.add_mul, e1, h, e2]

theorem rounding_loop (w : ℕ → Double) (z x y M : Double) (garbage : Nat → Int)
    (hzz : Double.eq z z = true) (hMz : Double.eq M z = false)
    (hzx : Double.eq z x = false) (hxx : Double.eq x x = true) (hyx : Double.eq y x = false)
    (hzy : Double.eq z y = false) (hxy : Double.eq x y = false) (hyy : Double.eq y y = true)
    (hadd3 : Double.add z (w 3) = x) (haddd : Double.add z (w 10000000000000004) = y)
    (haddr : Double.add x (w 10000000000000000) = y)
    (hxM : Double.lt x M = true) (hyM : Double.lt y M = true)
    (hltyy : Double.lt y y = false) (hltxy : Double.lt x y = true) :
    spLoop roundingGraph w garbage 5 0
        ⟨[(0, false), (1, false), (2, false)], [(0, z), (1, M), (2, M)],
          [(0, 0), (1, 1), (2, 2)], [z]⟩ =
      some (.ok ⟨[(0, true), (1, true), (2, true)],
        [(0, z), (1, x), (2, y)], [(0, 0), (1, 0), (2, 0)], []⟩) := by
  simp [-Prod.mk_zero_zero, -Prod.mk_one_one, spLoop, spBody, relaxEdges, relaxEdge,
    selectSmallkey, StdMap.assign, StdMap.find, pqPush, roundingGraph, hzz, hMz, hzx, hxx,
    hyx, hzy, hxy, hyy, hadd3, haddd, haddr, hxM, hyM, hltyy, hltxy]

theorem rounding_init : spInit roundingGraph 0 =
    ⟨[(0, false), (1, false), (2, false)], [(0, Double.zero), (1, DBL_MAX), (2, DBL_MAX)],
      [(0, 0), (1, 1), (2, 2)], [Double.zero]⟩ := rfl

theorem eq_finite_scaled (a b : Nat) :
    Double.eq (.finite ((a * 2 ^ 1074 : Nat) : Int)) (.finite ((b * 2 ^ 1074 : Nat) : Int)) =
      decide (a = b) := by
  rw [Double.eq_finite]
  exact decide_eq_decide.mpr (Double.scaled_eq_scaled a b 1074)

theorem lt_finite_scaled (a b : Nat) :
    Double.lt (.finite ((a * 2 ^ 1074 : Nat) : Int)) (.finite ((b * 2 ^ 1074 : Nat) : Int)) =
      decide (a < b) := by
  rw [Double.lt_finite]
  exact decide_eq_decide.mpr (Double.scaled_lt_scaled a b 1074)

theorem lt_scaled_DBL_MAX {a : Nat} (h : a < 2 ^ 64) :
    Double.lt (.finite ((a * 2 ^ 1074 : Nat) : Int)) DBL_MAX = true :=
  (lt_DBL_MAX_iff _).mpr (Double.scaled_lt_maxUnits h)

/-- On the graph with edges 0->1 (3), 1->2 (10^16), 0->2 (10^16 + 4) the call returns
`pred(2) = 0`: the rounded sum 3 + 10^16 is not below 10^16 + 4.  With exact sums the
predecessor of vertex 2 would be vertex 1. -/
theorem findShortestPaths_rounding (garbage : Nat → Int) :
    rounding = .ok roundingGraph ∧
      findShortestPaths roundingGraph 0 natWeight garbage =
        some (.ok [(0, 0), (1, 0), (2, 0)]) := by
  have h3 : Double.ofNat 3 = Double.finite ((3 * 2 ^ 1074 : Nat) : Int) :=
    Double.ofNat_eq (by norm_num)
  have hz : Double.zero = Double.finite ((0 * 2 ^ 1074 : Nat) : Int) := by
    rw [Double.zero_eq_ofNat]; exact Double.ofNat_eq (by norm_num)
  have h : spLoop roundingGraph natWeight garbage (edgeCount roundingGraph + 2) 0
      (spInit roundingGraph 0) =
      some (.ok ⟨[(0, true), (1, true), (2, true)],
        [(0, Double.zero), (1, Double.ofNat 3), (2, Double.ofNat 10000000000000004)],
        [(0, 0), (1, 0), (2, 0)], []⟩) := by
    rw [show edgeCount roundingGraph + 2 = 5 from rfl, rounding_init]
    exact rounding_loop natWeight Double.zero (Double.ofNat 3)
      (Double.ofNat 10000000000000004) DBL_MAX garbage
      eq_zero_zero eq_DBL_MAX_zero
      (by rw [eq_zero_ofNat (by norm_num)]; rfl)
      (by rw [h3, eq_finite_scaled]; rfl)
      (by rw [h3, ofNat_big4, eq_finite_scaled]; rfl)
      (by rw [hz, ofNat_big4, eq_finite_scaled]; rfl)
      (by rw [h3, ofNat_big4, eq_finite_scaled]; rfl)
      (by rw [ofNat_big4, eq_finite_scaled]; rfl)
      (add_zero_natWeight (by norm_num))
      (Double.add_zero_of_units ofNat_big4)
      add_three_big
      (lt_ofNat_DBL_MAX (by norm_num))
      (by rw [ofNat_big4]; exact lt_scaled_DBL_MAX (by norm_num))
      (by rw [ofNat_big4, lt_finite_scaled]; rfl)
      (by rw [h3, ofNat_big4, lt_finite_scaled]; rfl)
  exact ⟨rfl, findShortestPaths_eq_of_loop h⟩

/-! ## The mutating calls: a throw leaves the graph alone -/

theorem addVertex_eq_exit (g : Digraph V E) (v : Int) (p : V) :
    addVertex g v p = exitResult (addVertexExit g v p) := by
  unfold addVertex addVertexExit exitResult
  cases StdMap.find g.GraphMap v <;> rfl

theorem addEdge_eq_exit (g : Digraph V E) (a b : Int) (p : E) :
    addEdge g a b p = exitResult (addEdgeExit g a b p) := by
  unfold addEdge addEdgeExit exitResult
  cases edgesOf g a with
  | error f => rfl
  | ok l =>
    cases StdMap.find g.GraphMap a <;> cases StdMap.find g.GraphMap b <;> try rfl
    simp only
    split <;> rfl

theorem removeVertex_eq_exit (g : Digraph V E) (v : Int) :
    removeVertex g v = exitResult (removeVertexExit g v) := by
  unfold removeVertex removeVertexExit exitResult
  cases StdMap.find g.GraphMap v <;> rfl

theorem removeEdge_eq_exit (g : Digraph V E) (a b : Int) :
    removeEdge g a b = exitResult (removeEdgeExit g a b) := by
  unfold removeEdge removeEdgeExit exitResult
  cases edgesOf g a with
  | error f => rfl
  | ok l =>
    cases StdMap.find g.GraphMap a <;> cases StdMap.find g.GraphMap b <;> try rfl
    simp only
    split <;> rfl

/-- C16: for each of `addVertex`, `addEdge`, `removeVertex` and `removeEdge`, on every graph
and for every argument, a call that ends by a `throw` leaves the graph exactly as it was
before the call. -/
theorem mutators_failure_atomic (g : Digraph V E) :
    (∀ v p f, (addVertexExit g v p).2 = some f → (addVertexExit g v p).1 = g) ∧
    (∀ a b p f, (addEdgeExit g a b p).2 = some f → (addEdgeExit g a b p).1 = g) ∧
    (∀ v f, (removeVertexExit g v).2 = some f → (removeVertexExit g v).1 = g) ∧
    (∀ a b f, (removeEdgeExit g a b).2 = some f → (removeEdgeExit g a b).1 = g) := by
  refine ⟨?_, ?_, ?_, ?_⟩
  · intro v p f h
    unfold addVertexExit at h ⊢
    split
    · rfl
    · rename_i hn
      simp [hn] at h
  · intro a b p f h
    unfold addEdgeExit at h ⊢
    split
    · rfl
    · split
      · split
        · rfl
        · rename_i hn
          simp [*] at h
      · rfl
  · intro v f h
    unfold removeVertexExit at h ⊢
    split
    · rename_i hn
      simp [hn] at h
    · rfl
  · intro a b f h
    unfold removeEdgeExit at h ⊢
    split
    · rfl
    · split
      · split
        · rename_i hn
          simp [*] at h
        · rfl
      · rfl

theorem fork_eq : fork = .ok forkGraph := rfl

theorem forkGraph_built : Built forkGraph := ⟨forkOps, rfl⟩

/-- C16 on the graph with edges 0->1 and 0->2: adding vertex 0 again, adding the edge 0->1
again, removing the absent vertex 7 and removing the absent edge 1->2 each throw and leave the
graph as it was. -/
theorem mutators_failure_atomic_witness :
    ((addVertexExit forkGraph 0 ()).2 =
        some (.digraphException
          "There is already a vertex in the graph with the given vertex number") ∧
      (addVertexExit forkGraph 0 ()).1 = forkGraph) ∧
    ((addEdgeExit forkGraph 0 1 5).2 =
        some (.digraphException "the same edge is already present in the graph") ∧
      (addEdgeExit forkGraph 0 1 5).1 = forkGraph) ∧
    ((removeVertexExit forkGraph 7).2 =
        some (.digraphException "The vertex does not exist already.") ∧
      (removeVertexExit forkGraph 7).1 = forkGraph) ∧
    ((removeEdgeExit forkGraph 1 2).2 =
        some (.digraphException "the edge is not already present in the graph") ∧
      (removeEdgeExit forkGraph 1 2).1 = forkGraph) :=
  ⟨⟨rfl, (mutators_failure_atomic forkGraph).1 0 () _ rfl⟩,
    ⟨rfl, (mutators_failure_atomic forkGraph).2.1 0 1 5 _ rfl⟩,
    ⟨rfl, (mutators_failure_atomic forkGraph).2.2.1 7 _ rfl⟩,
    ⟨rfl, (mutators_failure_atomic forkGraph).2.2.2 1 2 _ rfl⟩⟩

/-! ## `addVertex` -/

theorem length_assign_of_not_mem {β : Type} (m : StdMap β) (k : Int) (v : β)
    (h : k ∉ StdMap.keys m) : (StdMap.assign m k v).length = m.length + 1 := by
  induction m with
  | nil => rfl
  | cons hd tl ih =>
    obtain ⟨a, b⟩ := hd
    simp only [StdMap.keys, List.map_cons, List.mem_cons, not_or] at h
    by_cases h1 : k < a
    · simp [StdMap.assign, h1]
    · simp only [StdMap.assign, h1, h.1, if_false, List.length_cons]
      rw [ih h.2]

/-- C14: for every graph `g`, id `v` and payload `p`: if `v` is already a vertex of `g`, the
call `addVertex(v, p)` throws and leaves `g` unchanged; otherwise it returns, and afterwards
`vertexInfo(v) = p`, `edges(v)` is empty, `vertexCount()` has grown by one, and every other id
has the entry (payload and outgoing edge list) it had before, or none as before. -/
theorem addVertex_contract (g : Digraph V E) (v : Int) (p : V) :
    (v ∈ vertices g → ∃ f, addVertex g v p = .error f ∧ addVertexExit g v p = (g, some f)) ∧
    (v ∉ vertices g → ∃ g', addVertex g v p = .ok g' ∧ addVertexExit g v p = (g', none) ∧
      vertexInfo g' v = .ok p ∧ edgesOf g' v = .ok [] ∧
      vertexCount g' = vertexCount g + 1 ∧
      ∀ u, u ≠ v → StdMap.find g'.GraphMap u = StdMap.find g.GraphMap u) := by
  constructor
  · intro hv
    obtain ⟨dv, hdv⟩ := (StdMap.mem_keys_iff _ _).mp hv
    refine ⟨.digraphException
      "There is already a vertex in the graph with the given vertex number", ?_, ?_⟩
    · simp only [addVertex, hdv]
    · simp only [addVertexExit, hdv, Option.isSome_some, if_true]
  · intro hv
    have hnone : StdMap.find g.GraphMap v = none := (StdMap.find_eq_none_iff _ _).mpr hv
    refine ⟨⟨StdMap.assign g.GraphMap v ⟨p, []⟩⟩, ?_, ?_, ?_, ?_, ?_, ?_⟩
    · simp only [addVertex, hnone]
    · simp [addVertexExit, hnone]
    · simp [vertexInfo, StdMap.find_assign]
    · simp [edgesOf, StdMap.find_assign]
    · exact length_assign_of_not_mem _ _ _ hv
    · intro u hu
      simp [StdMap.find_assign, hu]

/-- C14 on the graph with vertices 0, 1, 2 and edges 0->1, 0->2: adding vertex 0 throws,
adding vertex 5 succeeds. -/
theorem addVertex_contract_witness :
    ((0 : Int) ∈ vertices forkGraph ∧
      ∃ f, addVertex forkGraph 0 () = .error f ∧ addVertexExit forkGraph 0 () = (forkGraph, some f)) ∧
    ((5 : Int) ∉ vertices forkGraph ∧
      ∃ g', addVertex forkGraph 5 () = .ok g' ∧ addVertexExit forkGraph 5 () = (g', none) ∧
        vertexInfo g' 5 = .ok () ∧ edgesOf g' 5 = .ok [] ∧
        vertexCount g' = vertexCount forkGraph + 1 ∧
        ∀ u, u ≠ 5 → StdMap.find g'.GraphMap u = StdMap.find forkGraph.GraphMap u) :=
  ⟨⟨by decide, (addVertex_contract forkGraph 0 ()).1 (by decide)⟩,
    ⟨by decide, (addVertex_contract forkGraph 5 ()).2 (by decide)⟩⟩

/-! ## Ownership transfer -/

/-- C20: for every source graph `s` and every target graph `t`, a distinct object with any
prior contents: after the move construction of a graph from `s`, and after the move assignment
`t = std::move(s)`, the target holds exactly the `GraphMap` (vertices, payloads, per-vertex
edge lists) that `s` held before, and `s` has `vertexCount() = 0` and `edgeCount() = 0`. -/
theorem move_transfers (s t : Digraph V E) :
    (moveConstruct s).1 = s ∧
      vertexCount (moveConstruct s).2 = 0 ∧ edgeCount (moveConstruct s).2 = 0 ∧
    (moveAssign t s).1 = s ∧
      vertexCount (moveAssign t s).2 = 0 ∧ edgeCount (moveAssign t s).2 = 0 :=
  ⟨rfl, rfl, rfl, rfl, rfl, rfl⟩

/-! ## `edgeInfo` -/

/-- With `fromVertex` not in the graph `edgeInfo` ends in `std::out_of_range`. -/
theorem edgeInfo_of_not_mem (g : Digraph V E) (a b : Int) (h : a ∉ vertices g) :
    edgeInfo g a b = .error .outOfRange := by
  simp only [edgeInfo, (StdMap.find_eq_none_iff _ _).mpr h]

/-- C17, evaluated: on the empty graph `edgeInfo(from, to)` ends in `std::out_of_range` for
all ids, not in a `DigraphException`, and so does `edgeInfo(7, 0)` on the graph with vertices
0, 1, 2; and after `removeVertex(1)` on that graph, `edgeInfo(0, 1)` returns the payload 10 of
the edge 0->1 although 1 is no longer a vertex. -/
theorem edgeInfo_outOfRange :
    (∀ a b : Int, edgeInfo (empty : Digraph Unit ℕ) a b = .error .outOfRange) ∧
    edgeInfo forkGraph 7 0 = .error .outOfRange ∧
    ∃ g, removeVertex forkGraph 1 = .ok g ∧ (1 : Int) ∉ vertices g ∧
      edgeInfo g 0 1 = .ok 10 :=
  ⟨fun _ _ => rfl, rfl, _, rfl, by decide, rfl⟩

/-! ## `removeVertex` and `removeEdge` on concrete graphs -/

/-- C11, evaluated: on the graph with vertices 0, 1, 2 and edges 0->1, 0->2, the call
`removeVertex(1)` returns and leaves the vertices 0, 2 and the edges 0->1, 0->2: the incoming
edge 0->1 is still listed by `edges()`.  On the worked scenario graph (edges 0->1, 1->2,
0->2, 2->3) it leaves the edges 0->1, 0->2, 2->3. -/
theorem removeVertex_keeps_incoming :
    (∃ g, fork = .ok g ∧ ∃ g', removeVertex g 1 = .ok g' ∧
      vertices g' = [0, 2] ∧ edges g' = [(0, 1), (0, 2)]) ∧
    (∃ g, scenario = .ok g ∧ ∃ g', removeVertex g 1 = .ok g' ∧
      vertices g' = [0, 2, 3] ∧ edges g' = [(0, 1), (0, 2), (2, 3)]) :=
  ⟨⟨forkGraph, rfl, _, rfl, rfl, rfl⟩, ⟨scenarioGraph, rfl, _, rfl, rfl, rfl⟩⟩

/-- C12, evaluated: on the graph with vertices 0, 1, 2 and the outgoing list 0->1, 0->2 of
vertex 0, the call `removeEdge(0, 1)` for the first edge of the list returns, and afterwards
`edges()` and `edges(0)` still hold the pair (0, 1), `edgeCount(0)` is still 2 and
`edgeInfo(0, 1)` still returns the payload 10.  The call `removeEdge(0, 2)` for the last edge
of the list does remove it. -/
theorem removeEdge_first_not_removed :
    ∃ g, fork = .ok g ∧
      (∃ g', removeEdge g 0 1 = .ok g' ∧ edges g' = [(0, 1), (0, 2)] ∧
        edgesOf g' 0 = .ok [(0, 1), (0, 2)] ∧ edgeInfo g' 0 1 = .ok 10) ∧
      (∃ g', removeEdge g 0 2 = .ok g' ∧ edges g' = [(0, 1)] ∧
        edgesOf g' 0 = .ok [(0, 1)]) :=
  ⟨forkGraph, rfl, ⟨_, rfl, rfl, rfl, rfl⟩, ⟨_, rfl, rfl, rfl⟩⟩

/-- C18, evaluated: the calls `addVertex` 0, 1, 2, `addEdge` 0->1, 0->2 and `removeVertex(1)`
all succeed, and the graph they leave stores the edge 0->1 in the list of vertex 0 while 1 is
not among its vertices. -/
theorem built_dangling_edge :
    ∃ g : Digraph Unit ℕ, Built g ∧
      ∃ key ∈ g.GraphMap, ∃ e ∈ key.2.edges, e.toVertex ∉ vertices g :=
  ⟨⟨[(0, ⟨(), [⟨0, 1, 10⟩, ⟨0, 2, 20⟩]⟩), (2, ⟨(), []⟩)]⟩,
    ⟨forkOps ++ [Op.removeVertex 1], by rfl⟩,
    (0, ⟨(), [⟨0, 1, 10⟩, ⟨0, 2, 20⟩]⟩), by simp, ⟨0, 1, 10⟩, by simp, by decide⟩

/-! ## The loop of `removeEdge` -/

/-- One pass of the loop leaves the list as it is or drops its last element. -/
theorem removeEdge_pass_sublist (toVertex : Int) (l : List (DigraphEdge E)) (hne : l ≠ []) :
    (if (l.getLast hne).toVertex ≠ toVertex then l.dropLast ++ [l.getLast hne]
      else l.dropLast).Sublist l := by
  split
  · rw [List.dropLast_append_getLast]
  · exact List.dropLast_sublist l

theorem removeEdgeLoop_sublist (toVertex : Int) (fuel i : Nat) (l : List (DigraphEdge E)) :
    (removeEdgeLoop toVertex fuel i l).Sublist l := by
  induction fuel generalizing i l with
  | zero => exact List.Sublist.refl l
  | succ n ih =>
    unfold removeEdgeLoop
    split
    · exact (ih _ _).trans (removeEdge_pass_sublist toVertex l _)
    · exact List.Sublist.refl l

/-- The loop never drops an edge that leads elsewhere than `toVertex`. -/
theorem removeEdgeLoop_keeps (toVertex : Int) (fuel i : Nat) (l : List (DigraphEdge E))
    {e : DigraphEdge E} (he : e ∈ l) (hto : e.toVertex ≠ toVertex) :
    e ∈ removeEdgeLoop toVertex fuel i l := by
  induction fuel generalizing i l with
  | zero => exact he
  | succ n ih =>
    unfold removeEdgeLoop
    split
    · rename_i h
      apply ih
      have hne : l ≠ [] := List.ne_nil_of_length_pos (Nat.lt_of_le_of_lt (Nat.zero_le i) h)
      split
      · rw [List.dropLast_append_getLast]; exact he
      · rename_i hlast
        have hlast' : (l.getLast hne).toVertex = toVertex := not_not.mp hlast
        rw [← List.dropLast_append_getLast hne] at he
        rcases List.mem_append.mp he with h1 | h1
        · exact h1
        · simp only [List.mem_singleton] at h1
          rw [h1] at hto
          exact absurd hlast' hto
    · exact he

/-- The passes granted to the loop are enough: more of them change nothing. -/
theorem removeEdgeLoop_fuel (toVertex : Int) (fuel extra i : Nat) (l : List (DigraphEdge E))
    (h : l.length ≤ i + fuel) :
    removeEdgeLoop toVertex (fuel + extra) i l = removeEdgeLoop toVertex fuel i l := by
  induction fuel generalizing i l with
  | zero =>
    have hi : ¬ i < l.length := by omega
    cases extra with
    | zero => rfl
    | succ m =>
      show removeEdgeLoop toVertex (0 + (m + 1)) i l = l
      rw [show 0 + (m + 1) = m + 1 by omega]
      unfold removeEdgeLoop
      simp only [hi, dite_false]
  | succ n ih =>
    rw [show n + 1 + extra = (n + extra) + 1 by omega]
    unfold removeEdgeLoop
    split
    · rename_i hlt
      apply ih
      have hs := (removeEdge_pass_sublist toVertex l
        (List.ne_nil_of_length_pos (Nat.lt_of_le_of_lt (Nat.zero_le i) hlt))).length_le
      omega
    · rfl

/-! ## `removeEdge`: what it leaves alone -/

theorem removeEdge_ok {g g' : Digraph V E} {a b : Int} (h : removeEdge g a b = .ok g') :
    ∃ dv, StdMap.find g.GraphMap a = some dv ∧ b ∈ vertices g ∧
      (a, b) ∈ dv.edges.map (fun e => (e.fromVertex, e.toVertex)) ∧
      g' = ⟨StdMap.assign g.GraphMap a
        ⟨dv.vinfo, removeEdgeLoop b dv.edges.length 0 dv.edges⟩⟩ := by
  unfold removeEdge edgesOf at h
  cases ha : StdMap.find g.GraphMap a with
  | none => simp [ha] at h
  | some dv =>
    cases hb : StdMap.find g.GraphMap b with
    | none => simp [ha, hb] at h
    | some dvb =>
      simp only [ha, hb] at h
      split at h
      · rename_i hmem
        refine ⟨dv, rfl, (StdMap.mem_keys_iff _ _).mpr ⟨dvb, hb⟩, hmem, ?_⟩
        exact (Except.ok.inj h).symm
      · cases h

/-- C13: for every graph and every call `removeEdge(from, to)` that returns: the vertex set
and all vertex payloads are unchanged, the entry (payload and outgoing edge list) of every
vertex other than `from` is unchanged, and every outgoing edge of `from` whose destination
differs from `to` is still in the list of `from`, with its payload. -/
theorem removeEdge_frame (g g' : Digraph V E) (a b : Int)
    (ho : StdMap.Ordered g.GraphMap) (h : removeEdge g a b = .ok g') :
    vertices g' = vertices g ∧
    (∀ u, vertexInfo g' u = vertexInfo g u) ∧
    (∀ u, u ≠ a → StdMap.find g'.GraphMap u = StdMap.find g.GraphMap u) ∧
    ∀ dv, StdMap.find g.GraphMap a = some dv →
      ∃ dv', StdMap.find g'.GraphMap a = some dv' ∧
        ∀ e ∈ dv.edges, e.toVertex ≠ b → e ∈ dv'.edges := by
  obtain ⟨dv, hdv, _, _, hg'⟩ := removeEdge_ok h
  subst hg'
  have hfind : ∀ u, u ≠ a → StdMap.find (StdMap.assign g.GraphMap a
      (⟨dv.vinfo, removeEdgeLoop b dv.edges.length 0 dv.edges⟩ : DigraphVertex V E)) u =
      StdMap.find g.GraphMap u := by
    intro u hu
    rw [StdMap.find_assign]
    simp [hu]
  refine ⟨?_, ?_, hfind, ?_⟩
  · exact StdMap.keys_assign_of_mem ho ((StdMap.mem_keys_iff _ _).mpr ⟨dv, hdv⟩) _
  · intro u
    unfold vertexInfo
    by_cases hu : u = a
    · subst hu
      simp only [StdMap.find_assign, if_true, hdv]
    · simp only [hfind u hu]
  · intro dv0 hdv0
    rw [hdv] at hdv0
    cases hdv0
    refine ⟨⟨dv.vinfo, removeEdgeLoop b dv.edges.length 0 dv.edges⟩, ?_, ?_⟩
    · rw [StdMap.find_assign]; simp
    intro e he hto
    exact removeEdgeLoop_keeps b _ 0 dv.edges he hto

/-- C13 on the graph with vertices 0, 1, 2 and edges 0->1, 0->2, for the call
`removeEdge(0, 2)`, which returns and leaves the edge 0->1. -/
theorem removeEdge_frame_witness :
    StdMap.Ordered forkGraph.GraphMap ∧
    removeEdge forkGraph 0 2 =
      .ok ⟨[(0, ⟨(), [⟨0, 1, 10⟩]⟩), (1, ⟨(), []⟩), (2, ⟨(), []⟩)]⟩ ∧
    ∃ g' : Digraph Unit ℕ, vertices g' = vertices forkGraph ∧
      (∀ u, vertexInfo g' u = vertexInfo forkGraph u) ∧
      (∀ u, u ≠ 0 → StdMap.find g'.GraphMap u = StdMap.find forkGraph.GraphMap u) ∧
      ∀ dv, StdMap.find forkGraph.GraphMap 0 = some dv →
        ∃ dv', StdMap.find g'.GraphMap 0 = some dv' ∧
          ∀ e ∈ dv.edges, e.toVertex ≠ 2 → e ∈ dv'.edges :=
  ⟨by unfold StdMap.Ordered; decide, rfl, _,
    removeEdge_frame forkGraph _ 0 2 (by unfold StdMap.Ordered; decide) rfl⟩

/-! ## `addEdge` -/

theorem addEdge_ok {g g' : Digraph V E} {a b : Int} {p : E} (h : addEdge g a b p = .ok g') :
    ∃ dv, StdMap.find g.GraphMap a = some dv ∧ b ∈ vertices g ∧
      (a, b) ∉ dv.edges.map (fun e => (e.fromVertex, e.toVertex)) ∧
      g' = ⟨StdMap.assign g.GraphMap a ⟨dv.vinfo, dv.edges ++ [⟨a, b, p⟩]⟩⟩ := by
  unfold addEdge edgesOf at h
  cases ha : StdMap.find g.GraphMap a with
  | none => simp [ha] at h
  | some dv =>
    cases hb : StdMap.find g.GraphMap b with
    | none => simp [ha, hb] at h
    | some dvb =>
      simp only [ha, hb] at h
      split at h
      · cases h
      · rename_i hmem
        exact ⟨dv, rfl, (StdMap.mem_keys_iff _ _).mpr ⟨dvb, hb⟩, hmem, (Except.ok.inj h).symm⟩

theorem addEdge_of_absent {g : Digraph V E} {a b : Int} (p : E) {dv : DigraphVertex V E}
    (ha : StdMap.find g.GraphMap a = some dv) (hb : b ∈ vertices g)
    (hno : (a, b) ∉ dv.edges.map (fun e => (e.fromVertex, e.toVertex))) :
    addEdge g a b p = .ok ⟨StdMap.assign g.GraphMap a ⟨dv.vinfo, dv.edges ++ [⟨a, b, p⟩]⟩⟩ := by
  obtain ⟨dvb, hdvb⟩ := (StdMap.mem_keys_iff _ _).mp hb
  unfold addEdge edgesOf
  simp only [ha, hdvb, hno, if_false]

theorem addEdge_of_present {g : Digraph V E} {a b : Int} (p : E) {dv : DigraphVertex V E}
    (ha : StdMap.find g.GraphMap a = some dv) (hb : b ∈ vertices g)
    (hyes : (a, b) ∈ dv.edges.map (fun e => (e.fromVertex, e.toVertex))) :
    addEdge g a b p =
      .error (.digraphException "the same edge is already present in the graph") := by
  obtain ⟨dvb, hdvb⟩ := (StdMap.mem_keys_iff _ _).mp hb
  unfold addEdge edgesOf
  simp only [ha, hdvb, hyes, if_true]

/-- In a list stored under `a`, the pair `(a, b)` is listed exactly when an edge leads to
`b`. -/
theorem pair_mem_iff {l : List (DigraphEdge E)} {a : Int}
    (hfrom : ∀ e ∈ l, e.fromVertex = a) (b : Int) :
    (a, b) ∈ l.map (fun e => (e.fromVertex, e.toVertex)) ↔ ∃ e ∈ l, e.toVertex = b := by
  simp only [List.mem_map, Prod.mk.injEq]
  constructor
  · rintro ⟨e, he, _, hto⟩
    exact ⟨e, he, hto⟩
  · rintro ⟨e, he, hto⟩
    exact ⟨e, he, hfrom e he, hto⟩

/-- C15: on a graph whose edges are stored under their `fromVertex`, for all ids `a`, `b` and
every payload `p`: `addEdge(a, b, p)` returns if and only if `a` and `b` are both vertices and
the outgoing list of `a` holds no edge to `b`; after it has returned, `edgeInfo(a, b) = p`,
the pair `(a, b)` occurs exactly once in `edges(a)`, and `addEdge(a, b, q)` made next throws
for every payload `q`. -/
theorem addEdge_contract (g : Digraph V E) (hs : Stored g) (a b : Int) (p : E) :
    ((∃ g', addEdge g a b p = .ok g') ↔
      (a ∈ vertices g ∧ b ∈ vertices g ∧
        ∀ dv, StdMap.find g.GraphMap a = some dv → ∀ e ∈ dv.edges, e.toVertex ≠ b)) ∧
    ∀ g', addEdge g a b p = .ok g' →
      edgeInfo g' a b = .ok p ∧
      (∃ l, edgesOf g' a = .ok l ∧ l.count (a, b) = 1) ∧
      ∀ q, ∃ f, addEdge g' a b q = .error f := by
  have hfrom : ∀ dv, StdMap.find g.GraphMap a = some dv → ∀ e ∈ dv.edges, e.fromVertex = a :=
    fun dv hdv e he => hs.2 (a, dv) (StdMap.mem_of_find hdv) e he
  constructor
  · constructor
    · rintro ⟨g', h⟩
      obtain ⟨dv, hdv, hb, hno, _⟩ := addEdge_ok h
      refine ⟨(StdMap.mem_keys_iff _ _).mpr ⟨dv, hdv⟩, hb, ?_⟩
      intro dv0 hdv0 e he hto
      rw [hdv] at hdv0
      cases hdv0
      exact hno ((pair_mem_iff (hfrom dv hdv) b).mpr ⟨e, he, hto⟩)
    · rintro ⟨ha, hb, hno⟩
      obtain ⟨dv, hdv⟩ := (StdMap.mem_keys_iff _ _).mp ha
      refine ⟨_, addEdge_of_absent p hdv hb ?_⟩
      intro hmem
      obtain ⟨e, he, hto⟩ := (pair_mem_iff (hfrom dv hdv) b).mp hmem
      exact hno dv hdv e he hto
  · intro g' h
    obtain ⟨dv, hdv, hb, hno, hg'⟩ := addEdge_ok h
    subst hg'
    have hnone : ∀ e ∈ dv.edges, e.toVertex ≠ b := fun e he hto =>
      hno ((pair_mem_iff (hfrom dv hdv) b).mpr ⟨e, he, hto⟩)
    have hfa : StdMap.find (StdMap.assign g.GraphMap a
        (⟨dv.vinfo, dv.edges ++ [⟨a, b, p⟩]⟩ : DigraphVertex V E)) a =
        some ⟨dv.vinfo, dv.edges ++ [⟨a, b, p⟩]⟩ := by
      rw [StdMap.find_assign]; simp
    refine ⟨?_, ?_, ?_⟩
    · unfold edgeInfo
      simp only [hfa]
      have hf : dv.edges.find? (fun element => decide (b = element.toVertex)) = none := by
        rw [List.find?_eq_none]
        intro e he
        simp only [decide_eq_true_eq]
        exact fun hbe => hnone e he hbe.symm
      rw [List.find?_append, hf]
      simp
    · have hl : edgesOf (⟨StdMap.assign g.GraphMap a
          ⟨dv.vinfo, dv.edges ++ [⟨a, b, p⟩]⟩⟩ : Digraph V E) a =
          .ok ((dv.edges ++ [(⟨a, b, p⟩ : DigraphEdge E)]).map
            (fun e => (e.fromVertex, e.toVertex))) := by
        unfold edgesOf
        simp only [hfa]
      refine ⟨_, hl, ?_⟩
      rw [List.map_append, List.count_append, List.count_eq_zero.mpr hno]
      simp
    · intro q
      refine ⟨_, addEdge_of_present q hfa ?_ ?_⟩
      · rw [vertices, StdMap.mem_keys_iff]
        by_cases hba : b = a
        · subst hba
          exact ⟨_, hfa⟩
        · obtain ⟨dvb, hdvb⟩ := (StdMap.mem_keys_iff _ _).mp hb
          exact ⟨dvb, by rw [StdMap.find_assign]; simp [hba, hdvb]⟩
      · simp

theorem forkGraph_stored : Stored forkGraph := by
  unfold Stored StdMap.Ordered
  decide

/-- C15 on the graph with vertices 0, 1, 2 and edges 0->1, 0->2, for the call
`addEdge(1, 2, 7)`, which is allowed. -/
theorem addEdge_contract_witness :
    Stored forkGraph ∧
    (((∃ g', addEdge forkGraph 1 2 7 = .ok g') ↔
      ((1 : Int) ∈ vertices forkGraph ∧ (2 : Int) ∈ vertices forkGraph ∧
        ∀ dv, StdMap.find forkGraph.GraphMap 1 = some dv →
          ∀ e ∈ dv.edges, e.toVertex ≠ 2)) ∧
    ∀ g', addEdge forkGraph 1 2 7 = .ok g' →
      edgeInfo g' 1 2 = .ok 7 ∧
      (∃ l, edgesOf g' 1 = .ok l ∧ l.count (1, 2) = 1) ∧
      ∀ q, ∃ f, addEdge g' 1 2 q = .error f) :=
  ⟨forkGraph_stored, addEdge_contract forkGraph forkGraph_stored 1 2 7⟩

/-! ## The invariants kept by the four mutating calls -/

theorem erase_sublist {β : Type} (m : StdMap β) (k : Int) : (StdMap.erase m k).Sublist m := by
  induction m with
  | nil => exact List.Sublist.refl _
  | cons hd tl ih =>
    obtain ⟨a, b⟩ := hd
    unfold StdMap.erase
    split
    · exact List.sublist_cons_self _ _
    · exact ih.cons₂ _

theorem ordered_erase {β : Type} {m : StdMap β} (ho : StdMap.Ordered m) (k : Int) :
    StdMap.Ordered (StdMap.erase m k) :=
  List.Pairwise.sublist ((erase_sublist m k).map Prod.fst) ho

theorem mem_keys_assign {β : Type} {m : StdMap β} {k : Int} {v : β} {k' : Int}
    (h : k' ∈ StdMap.keys (StdMap.assign m k v)) : k' = k ∨ k' ∈ StdMap.keys m := by
  obtain ⟨p, hp, hk⟩ := List.mem_map.mp h
  rcases StdMap.mem_assign hp with h1 | h1
  · left; rw [← hk, h1]
  · right; exact List.mem_map.mpr ⟨p, h1, hk⟩

theorem ordered_assign {β : Type} {m : StdMap β} (ho : StdMap.Ordered m) (k : Int) (v : β) :
    StdMap.Ordered (StdMap.assign m k v) := by
  induction m with
  | nil => simp [StdMap.assign, StdMap.Ordered, StdMap.keys]
  | cons hd tl ih =>
    obtain ⟨a, b⟩ := hd
    have ho' := ho
    simp only [StdMap.Ordered, StdMap.keys, List.map_cons, List.pairwise_cons] at ho'
    by_cases h1 : k < a
    · simp only [StdMap.assign, h1, if_true, StdMap.Ordered, StdMap.keys, List.map_cons,
        List.pairwise_cons]
      refine ⟨?_, ho'⟩
      intro x hx
      rcases List.mem_cons.mp hx with hx | hx
      · rw [hx]; exact h1
      · exact lt_trans h1 (ho'.1 x hx)
    · by_cases h2 : k = a
      · subst h2
        simp only [StdMap.assign, lt_irrefl, if_false, if_true]
        exact ho
      · simp only [StdMap.assign, h1, h2, if_false, StdMap.Ordered, StdMap.keys,
          List.map_cons, List.pairwise_cons]
        refine ⟨?_, ih ho'.2⟩
        intro x hx
        rcases mem_keys_assign hx with hx | hx
        · rw [hx]; exact lt_of_le_of_ne (not_lt.mp h1) (Ne.symm h2)
        · exact ho'.1 x hx

theorem addVertex_ok {g g' : Digraph V E} {v : Int} {p : V} (h : addVertex g v p = .ok g') :
    g' = ⟨StdMap.assign g.GraphMap v ⟨p, []⟩⟩ := by
  unfold addVertex at h
  split at h
  · cases h
  · exact (Except.ok.inj h).symm

theorem removeVertex_ok {g g' : Digraph V E} {v : Int} (h : removeVertex g v = .ok g') :
    g' = ⟨StdMap.erase g.GraphMap v⟩ := by
  unfold removeVertex at h
  split at h
  · cases h
  · exact (Except.ok.inj h).symm

/-- Every successful call keeps the edges stored under their `fromVertex`. -/
theorem stored_applyOp {g g' : Digraph V E} (hs : Stored g) (op : Op V E)
    (h : applyOp g op = .ok g') : Stored g' := by
  cases op with
  | addVertex v p =>
    rw [addVertex_ok h]
    refine ⟨ordered_assign hs.1 _ _, ?_⟩
    intro key hkey e he
    rcases StdMap.mem_assign hkey with h1 | h1
    · rw [h1] at he; simp at he
    · exact hs.2 key h1 e he
  | addEdge a b p =>
    obtain ⟨dv, hdv, _, _, hg'⟩ := addEdge_ok h
    rw [hg']
    refine ⟨ordered_assign hs.1 _ _, ?_⟩
    intro key hkey e he
    rcases StdMap.mem_assign hkey with h1 | h1
    · rw [h1] at he ⊢
      rcases List.mem_append.mp he with h2 | h2
      · exact hs.2 (a, dv) (StdMap.mem_of_find hdv) e h2
      · rw [List.mem_singleton.mp h2]
    · exact hs.2 key h1 e he
  | removeVertex v =>
    rw [removeVertex_ok h]
    exact ⟨ordered_erase hs.1 _, fun key hkey e he =>
      hs.2 key ((erase_sublist _ _).subset hkey) e he⟩
  | removeEdge a b =>
    obtain ⟨dv, hdv, _, _, hg'⟩ := removeEdge_ok h
    rw [hg']
    refine ⟨ordered_assign hs.1 _ _, ?_⟩
    intro key hkey e he
    rcases StdMap.mem_assign hkey with h1 | h1
    · rw [h1] at he ⊢
      exact hs.2 (a, dv) (StdMap.mem_of_find hdv) e
        ((removeEdgeLoop_sublist b _ 0 dv.edges).subset he)
    · exact hs.2 key h1 e he

/-- Every successful call keeps the destinations within each outgoing list distinct. -/
theorem uniqueTargets_applyOp {g g' : Digraph V E} (hs : Stored g) (hu : UniqueTargets g)
    (op : Op V E) (h : applyOp g op = .ok g') : UniqueTargets g' := by
  cases op with
  | addVertex v p =>
    rw [addVertex_ok h]
    intro key hkey
    rcases StdMap.mem_assign hkey with h1 | h1
    · rw [h1]; simp
    · exact hu key h1
  | addEdge a b p =>
    obtain ⟨dv, hdv, _, hno, hg'⟩ := addEdge_ok h
    rw [hg']
    intro key hkey
    rcases StdMap.mem_assign hkey with h1 | h1
    · rw [h1]
      have hmem := StdMap.mem_of_find hdv
      have hfrom : ∀ e ∈ dv.edges, e.fromVertex = a := fun e he => hs.2 (a, dv) hmem e he
      simp only [List.map_append, List.map_cons, List.map_nil]
      rw [List.nodup_append]
      refine ⟨hu (a, dv) hmem, List.nodup_singleton _, ?_⟩
      intro x hx hx'
      rw [List.mem_singleton.mp hx'] at hx
      obtain ⟨e, he, hto⟩ := List.mem_map.mp hx
      exact hno ((pair_mem_iff hfrom b).mpr ⟨e, he, hto⟩)
    · exact hu key h1
  | removeVertex v =>
    rw [removeVertex_ok h]
    exact fun key hkey => hu key ((erase_sublist _ _).subset hkey)
  | removeEdge a b =>
    obtain ⟨dv, hdv, _, _, hg'⟩ := removeEdge_ok h
    rw [hg']
    intro key hkey
    rcases StdMap.mem_assign hkey with h1 | h1
    · rw [h1]
      exact List.Nodup.sublist ((removeEdgeLoop_sublist b _ 0 dv.edges).map _)
        (hu (a, dv) (StdMap.mem_of_find hdv))
    · exact hu key h1

theorem invariants_runOps (ops : List (Op V E)) {g g' : Digraph V E} (hs : Stored g)
    (hu : UniqueTargets g) (h : runOps g ops = .ok g') : Stored g' ∧ UniqueTargets g' := by
  induction ops generalizing g with
  | nil =>
    simp only [runOps] at h
    cases h
    exact ⟨hs, hu⟩
  | cons op rest ih =>
    simp only [runOps] at h
    cases h1 : applyOp g op with
    | error f => rw [h1] at h; cases h
    | ok g1 =>
      rw [h1] at h
      exact ih (stored_applyOp hs op h1) (uniqueTargets_applyOp hs hu op h1) h

theorem invariants_of_built {g : Digraph V E} (h : Built g) : Stored g ∧ UniqueTargets g := by
  obtain ⟨ops, hops⟩ := h
  refine invariants_runOps ops ?_ ?_ hops
  · exact ⟨by simp [empty, StdMap.Ordered, StdMap.keys], by simp [empty]⟩
  · simp [UniqueTargets, empty]

/-- With the edges stored under their `fromVertex` and distinct destinations in each list,
`edges()` lists no pair twice. -/
theorem edges_nodup {g : Digraph V E} (hs : Stored g) (hu : UniqueTargets g) :
    (edges g).Nodup := by
  unfold edges
  rw [List.nodup_flatMap]
  constructor
  · intro key hkey
    have h := hu key hkey
    have hcomp : (key.2.edges.map fun e => (e.fromVertex, e.toVertex)).map Prod.snd =
        key.2.edges.map (·.toVertex) := by
      simp [List.map_map, Function.comp_def]
    exact List.Nodup.of_map Prod.snd (hcomp ▸ h)
  · have hpair : List.Pairwise (fun x y : Int × DigraphVertex V E => x.1 < y.1) g.GraphMap :=
      List.pairwise_map.mp hs.1
    refine List.Pairwise.imp_of_mem ?_ hpair
    intro x y hx hy hlt
    simp only [Function.onFun]
    intro pr hpx hpy
    obtain ⟨e1, he1, hp1⟩ := List.mem_map.mp hpx
    obtain ⟨e2, he2, hp2⟩ := List.mem_map.mp hpy
    have h1 := hs.2 x hx e1 he1
    have h2 := hs.2 y hy e2 he2
    have : x.1 = y.1 := by
      rw [← h1, ← h2]
      have := congrArg Prod.fst (hp1.trans hp2.symm)
      exact this
    exact absurd this (ne_of_lt hlt)

/-- C19: in every graph that a finite sequence of successful `addVertex`, `addEdge`,
`removeVertex` and `removeEdge` calls makes of the empty graph, no ordered pair `(from, to)`
occurs more than once in `edges()`. -/
theorem edges_nodup_of_built (g : Digraph V E) (h : Built g) : (edges g).Nodup :=
  edges_nodup (invariants_of_built h).1 (invariants_of_built h).2

/-- C19 on the calls `addVertex` 0, 1, 2, `addEdge` 0->1, 0->2, `removeVertex(1)` and
`addVertex(1)` again: they all succeed, and `edges()` of the graph they leave, with edges
0->1 and 0->2, lists no pair twice. -/
theorem edges_nodup_of_built_witness :
    Built forkGraph ∧ (edges forkGraph).Nodup :=
  ⟨⟨forkOps ++ [Op.removeVertex 1, Op.addVertex 1 ()], by rfl⟩,
    edges_nodup_of_built forkGraph ⟨forkOps ++ [Op.removeVertex 1, Op.addVertex 1 ()], by rfl⟩⟩

/-! ## Copies -/

theorem insert_append {β : Type} {m : StdMap β} {k : Int} (h : ∀ k' ∈ StdMap.keys m, k' < k)
    (v : β) : StdMap.insert m k v = m ++ [(k, v)] := by
  have hnone : StdMap.find m k = none := by
    rw [StdMap.find_eq_none_iff]
    intro hk
    exact lt_irrefl k (h k hk)
  unfold StdMap.insert
  rw [hnone]
  exact StdMap.assign_append h v

theorem foldl_insert_eq {β : Type} (l : StdMap β) (acc : StdMap β)
    (hl : (l.map Prod.fst).Pairwise (· < ·))
    (hacc : ∀ k' ∈ StdMap.keys acc, ∀ k ∈ l.map Prod.fst, k' < k) :
    l.foldl (fun m element => StdMap.insert m element.1 element.2) acc = acc ++ l := by
  induction l generalizing acc with
  | nil => simp
  | cons hd tl ih =>
    simp only [List.map_cons, List.pairwise_cons] at hl
    simp only [List.foldl_cons]
    rw [insert_append (fun k' hk' => hacc k' hk' hd.1 (by simp))]
    rw [ih _ hl.2]
    · simp
    · intro k' hk' k hk
      simp only [StdMap.keys, List.map_append, List.map_cons, List.map_nil, List.mem_append,
        List.mem_singleton] at hk'
      rcases hk' with hk' | hk'
      · exact hacc k' hk' k (by simp at hk ⊢; exact Or.inr hk)
      · rw [hk']; exact hl.1 k hk

/-- Inserting the entries of a map into an empty map gives that map. -/
theorem insertRange_nil {β : Type} (m : StdMap β) (ho : StdMap.Ordered m) :
    StdMap.insertRange [] m = m := by
  unfold StdMap.insertRange
  rw [foldl_insert_eq m [] ho (by simp [StdMap.keys])]
  simp

/-- The copy constructor gives a graph with the contents of its argument. -/
theorem copyConstruct_eq (d : Digraph V E) (ho : StdMap.Ordered d.GraphMap) :
    copyConstruct d = d := by
  unfold copyConstruct clear
  rw [insertRange_nil d.GraphMap ho]

/-- Copy assignment between two different objects: the target gets the contents of the
source, the source keeps them. -/
theorem copyAssign_distinct (objs : Objects V E) (a d : Nat) (hne : a ≠ d)
    (ho : StdMap.Ordered (objs d).GraphMap) :
    (copyAssign objs a d) a = objs d ∧ (copyAssign objs a d) d = objs d := by
  have hda : ¬ d = a := fun h => hne h.symm
  unfold copyAssign setObject clear
  simp only [if_true, hda, if_false]
  exact ⟨by rw [insertRange_nil _ ho], trivial⟩

/-- C21, evaluated: the copy assignment of an object to itself leaves it with no vertices,
whatever it held: `clear()` empties the map that the `insert` then reads.  For the graph with
vertices 0, 1, 2 and edges 0->1, 0->2 the assignment `a = a` leaves `vertices()` and `edges()`
empty. -/
theorem copyAssign_self_empties :
    (∀ (objs : Objects V E) (a : Nat), (copyAssign objs a a) a = empty) ∧
    vertices forkGraph = [0, 1, 2] ∧ edges forkGraph = [(0, 1), (0, 2)] ∧
    vertices ((copyAssign (fun _ => forkGraph) 0 0) 0) = [] ∧
    edges ((copyAssign (fun _ => forkGraph) 0 0) 0) = [] := by
  refine ⟨?_, rfl, rfl, rfl, rfl⟩
  intro objs a
  unfold copyAssign setObject clear
  simp only [if_true]
  rfl

/-! ## The route walk of `main` on concrete graphs -/

theorem walkLoop_start (g : Digraph V E) (route : StdMap Int) (s : Int) (fuel : Nat)
    (t : List (records V E)) : walkLoop g route s fuel s t = some (.ok t) := by
  cases fuel <;> simp [walkLoop]

theorem tripWalk_of_route {g : Digraph V E} {metric : E → Double} {garbage : Nat → Int}
    {s e : Int} {route : StdMap Int}
    (h : findShortestPaths g s metric garbage = some (.ok route)) (fuel : Nat) :
    tripWalk g metric garbage s e fuel = routeWalk g route s e fuel := by
  unfold tripWalk
  rw [h]

/-- C24, evaluated.  On the graph with edges 0->1, 0->2, 1->3 (all of weight 1) the trip from
vertex 0 to vertex 0 ends in the `DigraphException` of `edgeInfo(0, 0)`, thrown before the
loop, and the trip from 0 to 3, a vertex reachable from 0, ends in the `DigraphException` of
`edgeInfo(3, 3)`, since `route[3] = 3`; no pass of `findShortestPaths` reads an uninitialised
`smallkey` on this graph.  On the worked scenario graph, whenever `findShortestPaths` returns
(the uninitialised `smallkey` of its fifth pass holds a vertex id), the trip from 0 to 0 ends
in the same `DigraphException`, while the trip from 0 to 3 does collect the vertices 3, 2, 1,
0. -/
theorem tripWalk_raises :
    (∀ (garbage : Nat → Int) (fuel : Nat),
      tripWalk tieOrphanGraph natWeight garbage 0 0 fuel =
        some (.error (.digraphException
          "Edge does not exist or one of those vertices does not exist"))) ∧
    (Reachable tieOrphanGraph 0 3 ∧
      ∀ (garbage : Nat → Int) (fuel : Nat),
        tripWalk tieOrphanGraph natWeight garbage 0 3 fuel =
          some (.error (.digraphException
            "Edge does not exist or one of those vertices does not exist"))) ∧
    (∀ (garbage : Nat → Int) (fuel : Nat), garbage 4 ∈ vertices scenarioGraph →
      tripWalk scenarioGraph natWeight garbage 0 0 fuel =
        some (.error (.digraphException
          "Edge does not exist or one of those vertices does not exist"))) ∧
    (∀ garbage : Nat → Int, garbage 4 ∈ vertices scenarioGraph →
      ∃ t, tripWalk scenarioGraph natWeight garbage 0 3 3 = some (.ok t) ∧
        t.map (·.vertex) = [3, 2, 1, 0]) := by
  refine ⟨?_, ⟨?_, ?_⟩, ?_, ?_⟩
  · intro garbage fuel
    rw [tripWalk_of_route (tieOrphanGraph_route garbage)]
    rfl
  · have h01 : Adj tieOrphanGraph 0 1 := ⟨_, rfl, ⟨0, 1, 1⟩, by simp, rfl⟩
    have h13 : Adj tieOrphanGraph 1 3 := ⟨_, rfl, ⟨1, 3, 1⟩, by simp, rfl⟩
    exact (Relation.ReflTransGen.single h01).tail h13
  · intro garbage fuel
    rw [tripWalk_of_route (tieOrphanGraph_route garbage)]
    rfl
  · intro garbage fuel hg
    rw [tripWalk_of_route (scenarioGraph_route garbage hg)]
    rfl
  · intro garbage hg
    rw [tripWalk_of_route (scenarioGraph_route garbage hg)]
    exact ⟨_, rfl, rfl⟩

/-! ## `findShortestPaths`: passes, pushes and settled vertices -/

theorem spBody_count {g : Digraph V E} (w : E → Double) {st st' : SPState}
    {c : SPCount} (hc : CountInv g st c) {top : Double} {rest : List Double} {j : Int}
    (hq : st.distance_queue = top :: rest) (hb : spBody g w st top rest j = .ok st')
    (hinv' : SPInv g st') :
    CountInv g st' (spCountPass st (selectSmallkey st.dmap top j) st' rest c) := by
  obtain ⟨hinv, hmark, hnodup, hpush, hpass⟩ := hc
  refine ⟨hinv', ?_⟩
  have hmeas := spBody_measure hq hb
  rcases spBody_cases hb with ⟨hk, dv, r, hdv, hr, hst'⟩ | ⟨hk, hst'⟩
  · have hlen := relaxEdges_length hr
    have hpend := pending_assign_lt g.GraphMap st.kmap _ dv hdv (getD_false_ne_true hk)
    have hin : selectSmallkey st.dmap top j ∈ vertices g :=
      (StdMap.mem_keys_iff _ _).mpr ⟨dv, hdv⟩
    subst hst'
    simp only [spCountPass, hk, if_true]
    refine ⟨?_, ?_, ?_, ?_⟩
    · intro k hkmem
      rcases List.mem_cons.mp hkmem with h1 | h1
      · rw [h1, StdMap.find_assign]
        exact ⟨by simp, hin⟩
      · rw [StdMap.find_assign]
        refine ⟨?_, (hmark k h1).2⟩
        split
        · rfl
        · exact (hmark k h1).1
    · refine List.nodup_cons.mpr ⟨?_, hnodup⟩
      intro hmem
      exact getD_false_ne_true hk (hmark _ hmem).1
    · simp only [pending] at hpend hpush ⊢
      simp only at hlen
      omega
    · omega
  · subst hst'
    simp only [spCountPass, hk, if_false]
    refine ⟨hmark, hnodup, ?_, ?_⟩
    · simp only [Nat.sub_self, Nat.add_zero]
      exact hpush
    · omega

/-- The loop with the counters ends, on a graph whose edges lead to present vertices: with the
queue empty, or with the `std::out_of_range` of a pass whose uninitialised `smallkey` holds
no vertex id; either way the counters are within their bounds. -/
theorem spLoopCounted_total {g : Digraph V E} (hwf : WellFormed g) (w : E → Double)
    (garbage : Nat → Int) (fuel : Nat) (st : SPState) (c : SPCount) (hc : CountInv g st c)
    (hm : spMeasure g st < fuel) :
    ∃ r c', spLoopCounted g w garbage fuel st c = some (r, c') ∧
      c'.settled.Nodup ∧ (∀ k ∈ c'.settled, k ∈ vertices g) ∧
      c'.pushes ≤ 1 + edgeCount g ∧ c'.passes ≤ 1 + edgeCount g ∧
      ((r = .error .outOfRange ∧ ∃ i, garbage i ∉ vertices g) ∨
        ∃ st', r = .ok st' ∧ st'.distance_queue = []) := by
  induction fuel generalizing st c with
  | zero => omega
  | succ n ih =>
    unfold spLoopCounted
    split
    · rename_i hq
      obtain ⟨_, hmark, hnodup, hpush, hpass⟩ := hc
      exact ⟨.ok st, c, rfl, hnodup, fun k hk => (hmark k hk).2, by omega, by omega,
        Or.inr ⟨st, rfl, hq⟩⟩
    · rename_i top rest hq
      rcases spBody_inv hwf w hc.1 top rest (garbage c.passes) with ⟨h1, hj⟩ | ⟨st1, h1, hinv1⟩
      · obtain ⟨_, hmark, hnodup, hpush, hpass⟩ := hc
        simp only [h1]
        refine ⟨_, _, rfl, hnodup, fun k hk => (hmark k hk).2,
          (show c.pushes ≤ 1 + edgeCount g by omega), ?_, Or.inl ⟨rfl, c.passes, hj⟩⟩
        simp only [spMeasure, hq, List.length_cons] at hpass
        show c.passes + 1 ≤ 1 + edgeCount g
        omega
      · have := spBody_measure hq h1
        have hc1 := spBody_count w hc hq h1 hinv1
        simp only [h1]
        exact ih st1 _ hc1 (by omega)

/-- The counters do not change what the loop computes. -/
theorem spLoopCounted_fst (g : Digraph V E) (w : E → Double) (garbage : Nat → Int)
    (fuel : Nat) (st : SPState) (c : SPCount) :
    spLoop g w garbage fuel c.passes st =
      (spLoopCounted g w garbage fuel st c).map Prod.fst := by
  induction fuel generalizing st c with
  | zero => rfl
  | succ n ih =>
    unfold spLoop spLoopCounted
    split
    · rfl
    · rename_i top rest hq
      split
      · rfl
      · rename_i st' hb
        exact ih st' (spCountPass st (selectSmallkey st.dmap top (garbage c.passes)) st' rest c)

theorem spCountInit_inv {g : Digraph V E} (hwf : WellFormed g) {s : Int}
    (hs : s ∈ vertices g) : CountInv g (spInit g s) spCountInit := by
  have h1 := pending_le_edgeCount g (spInit g s).kmap
  have h2 := spInit_measure g s
  refine ⟨spInit_inv hwf hs, ?_, List.nodup_nil, ?_, ?_⟩
  · intro k hk
    simp [spCountInit] at hk
  · simp only [spCountInit]; omega
  · simp only [spCountInit]; omega

/-- C22: for every graph whose edges are stored under their `fromVertex` and lead to present
vertices, every start vertex of the graph and every weight function, of any sign, the loop of
`findShortestPaths` stops, whatever an uninitialised `smallkey` holds: with the queue empty,
or with the `std::out_of_range` thrown by `GraphMap.at` in a pass whose uninitialised
`smallkey` holds no vertex id.  Either way no vertex is settled twice, at most
`1 + edgeCount()` values are pushed on the priority queue, and the loop body runs at most
`1 + edgeCount()` times. -/
theorem findShortestPaths_terminates (g : Digraph V E) (startVertex : Int) (w : E → Double)
    (garbage : Nat → Int) (hwf : WellFormed g) (hs : startVertex ∈ vertices g) :
    ∃ r c, spLoopCounted g w garbage (edgeCount g + 2) (spInit g startVertex) spCountInit =
        some (r, c) ∧
      c.settled.Nodup ∧ (∀ k ∈ c.settled, k ∈ vertices g) ∧
      c.pushes ≤ 1 + edgeCount g ∧ c.passes ≤ 1 + edgeCount g ∧
      ((r = .error .outOfRange ∧ ∃ i, garbage i ∉ vertices g) ∨
        ∃ st, r = .ok st ∧ st.distance_queue = []) :=
  spLoopCounted_total hwf w garbage (edgeCount g + 2) (spInit g startVertex) spCountInit
    (spCountInit_inv hwf hs) (spInit_measure g startVertex)

/-- C22 on the worked scenario graph with start vertex 0, every weight negative, and every
uninitialised `smallkey` holding 7. -/
theorem findShortestPaths_terminates_witness :
    WellFormed scenarioGraph ∧ (0 : Int) ∈ vertices scenarioGraph ∧
    ∃ r c, spLoopCounted scenarioGraph (fun n => Double.finite (-(n : Int))) (fun _ => 7)
        (edgeCount scenarioGraph + 2) (spInit scenarioGraph 0) spCountInit = some (r, c) ∧
      c.settled.Nodup ∧ (∀ k ∈ c.settled, k ∈ vertices scenarioGraph) ∧
      c.pushes ≤ 1 + edgeCount scenarioGraph ∧ c.passes ≤ 1 + edgeCount scenarioGraph ∧
      ((r = .error .outOfRange ∧
          ∃ i : Nat, (fun _ => (7 : Int)) i ∉ vertices scenarioGraph) ∨
        ∃ st, r = .ok st ∧ st.distance_queue = []) :=
  ⟨scenarioGraph_wellFormed, by decide,
    findShortestPaths_terminates scenarioGraph 0 (fun n => Double.finite (-(n : Int)))
      (fun _ => 7) scenarioGraph_wellFormed (by decide)⟩

/-! ## `findShortestPaths`: the predecessor links form a tree -/

theorem predChain_assign {m : StdMap Int} {s v : Int} {c : List Int}
    (h : PredChain m s v c) (x u : Int) (hx : x ∉ c) :
    PredChain (StdMap.assign m x u) s v c := by
  induction h with
  | start => exact PredChain.start
  | @link v0 p c0 hv hf _ ih =>
    simp only [List.mem_cons, not_or] at hx
    refine PredChain.link hv ?_ (ih hx.2)
    rw [StdMap.find_assign]
    have hne : v0 ≠ x := fun h' => hx.1 h'.symm
    simp [hne, hf]

theorem predChain_length_pos {m : StdMap Int} {s v : Int} {c : List Int}
    (h : PredChain m s v c) : 1 ≤ c.length := by
  cases h <;> simp

theorem predChain_head {m : StdMap Int} {s v : Int} {c : List Int}
    (h : PredChain m s v c) : c = v :: c.tail := by
  cases h <;> simp

theorem predChain_start_mem {m : StdMap Int} {s v : Int} {c : List Int}
    (h : PredChain m s v c) : s ∈ c := by
  induction h with
  | start => simp
  | link _ _ _ ih => exact List.mem_cons_of_mem _ ih

theorem predChain_mem_keys {m : StdMap Int} {s v : Int} {c : List Int}
    (h : PredChain m s v c) : ∀ x ∈ c, x = s ∨ x ∈ StdMap.keys m := by
  induction h with
  | start =>
    intro x hx
    exact Or.inl (List.mem_singleton.mp hx)
  | @link v0 p c0 _ hf _ ih =>
    intro x hx
    rcases List.mem_cons.mp hx with hx | hx
    · rw [hx]
      exact Or.inr ((StdMap.mem_keys_iff _ _).mpr ⟨p, hf⟩)
    · exact ih x hx

theorem predChain_predPath {m : StdMap Int} {s v : Int} {c : List Int}
    (h : PredChain m s v c) (fuel : Nat) (hlen : c.length ≤ fuel + 1) :
    predPath m s fuel v = some c.reverse := by
  induction h generalizing fuel with
  | start => cases fuel <;> simp [predPath]
  | @link v0 p c0 hv hf hc ih =>
    have hpos := predChain_length_pos hc
    cases fuel with
    | zero => simp only [List.length_cons] at hlen; omega
    | succ n =>
      simp only [List.length_cons] at hlen
      simp only [predPath, hv, if_false, hf, ih n (by omega), Option.map_some',
        List.reverse_cons]

theorem descending_nodup {f : Int → Int} {c : List Int} (h : Descending f c) : c.Nodup :=
  List.Pairwise.imp (fun hxy => hxy.1) h

theorem descending_congr {f f' : Int → Int} {c : List Int} (hf : ∀ y ∈ c, f' y = f y)
    (h : Descending f c) : Descending f' c := by
  unfold Descending at *
  induction c with
  | nil => exact List.Pairwise.nil
  | cons x tl ih =>
    have hx := List.pairwise_cons.mp h
    refine List.pairwise_cons.mpr ⟨?_, ih (fun y hy => hf y (List.mem_cons_of_mem _ hy)) hx.2⟩
    intro y hy
    rw [hf x (List.mem_cons_self _ _), hf y (List.mem_cons_of_mem _ hy)]
    exact hx.1 y hy

/-- The chains after the predecessor of `t` has changed: a chain that went through `t` now
goes on along the new chain of `t`, which holds only vertices that were below `t`. -/
theorem predChain_reroute {m : StdMap Int} {s t u : Int} {f f' : Int → Int} {cu : List Int}
    (hf' : ∀ x, x ≠ t → f' x = f x) (hft : f' t < f t)
    (hcu : PredChain (StdMap.assign m t u) s t (t :: cu)) (hdesc : Descending f' (t :: cu))
    (hsmall : ∀ y ∈ cu, f y < f t)
    {v : Int} {c : List Int} (hc : PredChain m s v c) (hd : Descending f c) :
    ∃ c', PredChain (StdMap.assign m t u) s v c' ∧ Descending f' c' ∧
      ∀ y ∈ c', y ∈ c ∨ (t ∈ c ∧ y ∈ cu) := by
  induction hc with
  | start =>
    exact ⟨[s], PredChain.start, List.pairwise_singleton _ _, fun y hy => Or.inl hy⟩
  | @link v0 p c0 hv hf hc0 ih =>
    have hd0 := List.pairwise_cons.mp hd
    by_cases hvt : v0 = t
    · subst hvt
      refine ⟨v0 :: cu, hcu, hdesc, ?_⟩
      intro y hy
      rcases List.mem_cons.mp hy with hy | hy
      · rw [hy]; exact Or.inl (List.mem_cons_self _ _)
      · exact Or.inr ⟨List.mem_cons_self _ _, hy⟩
    · obtain ⟨c0', hp', hd', hmem'⟩ := ih hd0.2
      have hfv : f' v0 = f v0 := hf' v0 hvt
      refine ⟨v0 :: c0', PredChain.link hv ?_ hp', ?_, ?_⟩
      · rw [StdMap.find_assign]
        simp [hvt, hf]
      · refine List.pairwise_cons.mpr ⟨?_, hd'⟩
        intro y hy
        rcases hmem' y hy with hy0 | ⟨htc0, hycu⟩
        · obtain ⟨hne, hle⟩ := hd0.1 y hy0
          refine ⟨hne, ?_⟩
          by_cases hyt : y = t
          · rw [hyt] at hle ⊢
            omega
          · rw [hf' y hyt]
            omega
        · have h1 := (hd0.1 t htc0).2
          have h2 := hsmall y hycu
          have hyt : y ≠ t := by
            intro h
            rw [h] at h2
            omega
          refine ⟨?_, ?_⟩
          · intro h
            rw [← h] at h2
            omega
          · rw [hf' y hyt]
            omega
      · intro y hy
        rcases List.mem_cons.mp hy with hy | hy
        · rw [hy]; exact Or.inl (List.mem_cons_self _ _)
        · rcases hmem' y hy with h | ⟨h1, h2⟩
          · exact Or.inl (List.mem_cons_of_mem _ h)
          · exact Or.inr ⟨List.mem_cons_of_mem _ h1, h2⟩

theorem distOf_of_find {dmap : StdMap Double} {x : Int} {k : Int}
    (h : StdMap.find dmap x = some (.finite k)) : distOf dmap x = k := by
  simp only [distOf, h]

theorem distOf_assign_ne (dmap : StdMap Double) (t : Int) (d : Double) {x : Int} (h : x ≠ t) :
    distOf (StdMap.assign dmap t d) x = distOf dmap x := by
  simp only [distOf, StdMap.find_assign, h, if_false]

theorem distOf_assign_self (dmap : StdMap Double) (t : Int) (k : Int) :
    distOf (StdMap.assign dmap t (.finite k)) t = k := by
  simp only [distOf, StdMap.find_assign, if_true]

theorem relaxEdge_tree {g : Digraph V E} {s : Int} {w : E → Double}
    (hw : ∀ x, Double.le Double.zero (w x) = true)
    {k : Int} {e : DigraphEdge E} (hadj : Adj g k e.toVertex) {r r' : Relax}
    (hr : DistInv g s r.dmap r.pmap ∧ TreeInv g s r.dmap r.pmap)
    (h : relaxEdge w k r e = .ok r') :
    DistInv g s r'.dmap r'.pmap ∧ TreeInv g s r'.dmap r'.pmap := by
  refine ⟨relaxEdge_dist hw hadj hr.1 h, ?_⟩
  obtain ⟨⟨hb, _, _, _, _⟩, hT1, hT2⟩ := hr
  unfold relaxEdge at h
  split at h
  · rename_i dto dk hdto hdk
    split at h
    · rename_i hlt
      cases h
      obtain ⟨a, c, t, hka, hsum, hta, hcr, hac, hct, htM⟩ :=
        relax_arith (hw e.einfo) (hb k dk hdk) (hb _ dto hdto) hlt
      subst hka
      subst hta
      rw [hsum]
      have hkM : Double.lt (.finite a) DBL_MAX = true := (lt_DBL_MAX_iff a).mpr (by omega)
      have hcM : Double.lt (.finite c) DBL_MAX = true := (lt_DBL_MAX_iff c).mpr (by omega)
      obtain ⟨cu, hcu, hdu⟩ := hT2 k _ hdk hkM
      have hfk : distOf r.dmap k = a := distOf_of_find hdk
      have hft : distOf r.dmap e.toVertex = t := distOf_of_find hdto
      have hcueq := predChain_head hcu
      have hle : ∀ y ∈ cu, distOf r.dmap y ≤ a := by
        intro y hy
        rw [hcueq] at hy hdu
        rcases List.mem_cons.mp hy with hy | hy
        · rw [hy, hfk]
        · have := ((List.pairwise_cons.mp hdu).1 y hy).2
          omega
      have hsmall : ∀ y ∈ cu, distOf r.dmap y < distOf r.dmap e.toVertex := by
        intro y hy
        have := hle y hy
        omega
      have htcu : e.toVertex ∉ cu := by
        intro hmem
        have := hsmall _ hmem
        omega
      have hts : e.toVertex ≠ s := fun h => htcu (h ▸ predChain_start_mem hcu)
      have hsame : ∀ x, x ≠ e.toVertex →
          distOf (StdMap.assign r.dmap e.toVertex (.finite c)) x = distOf r.dmap x :=
        fun x hx => distOf_assign_ne r.dmap e.toVertex _ hx
      have hnew : distOf (StdMap.assign r.dmap e.toVertex (.finite c)) e.toVertex = c :=
        distOf_assign_self r.dmap e.toVertex c
      have hcu' : PredChain (StdMap.assign r.pmap e.toVertex k) s e.toVertex
          (e.toVertex :: cu) :=
        PredChain.link hts (by rw [StdMap.find_assign]; simp)
          (predChain_assign hcu _ _ htcu)
      have hdu' : Descending (distOf (StdMap.assign r.dmap e.toVertex (.finite c)))
          (e.toVertex :: cu) := by
        refine List.pairwise_cons.mpr ⟨?_, descending_congr
          (fun y hy => hsame y (fun h => htcu (h ▸ hy))) hdu⟩
        intro y hy
        refine ⟨fun h => htcu (h ▸ hy), ?_⟩
        rw [hnew, hsame y (fun h => htcu (h ▸ hy))]
        have := hle y hy
        omega
      refine ⟨?_, ?_⟩
      · intro v p hf hpv
        simp only [StdMap.find_assign] at hf ⊢
        split at hf
        · rename_i hv
          cases hf
          rw [hv]
          simp only [if_true]
          exact ⟨hadj, _, rfl, hcM⟩
        · rename_i hv
          simp only [hv, if_false]
          exact hT1 v p hf hpv
      · intro v dv hf hlt'
        by_cases hv : v = e.toVertex
        · rw [hv]
          exact ⟨_, hcu', hdu'⟩
        · simp only [StdMap.find_assign, hv, if_false] at hf
          obtain ⟨cv, hcv, hdv⟩ := hT2 v dv hf hlt'
          obtain ⟨c', h1, h2, _⟩ := predChain_reroute hsame (by rw [hnew, hft]; omega)
            hcu' hdu' hsmall hcv hdv
          exact ⟨c', h1, h2⟩
    · cases h
      exact ⟨hT1, hT2⟩
  · cases h

theorem spBody_tree {g : Digraph V E} {s : Int} {w : E → Double}
    (hw : ∀ x, Double.le Double.zero (w x) = true)
    {st st' : SPState} {top : Double} {rest : List Double} {j : Int}
    (hst : DistInv g s st.dmap st.pmap ∧ TreeInv g s st.dmap st.pmap)
    (h : spBody g w st top rest j = .ok st') :
    DistInv g s st'.dmap st'.pmap ∧ TreeInv g s st'.dmap st'.pmap := by
  rcases spBody_cases h with ⟨_, dv, r, hdv, hr, hst'⟩ | ⟨_, hst'⟩
  · subst hst'
    exact relaxEdges_preserves
      (fun r => DistInv g s r.dmap r.pmap ∧ TreeInv g s r.dmap r.pmap) dv.edges
      (fun e he r1 r2 h1 h2 => relaxEdge_tree hw ⟨dv, hdv, e, he, rfl⟩ h1 h2)
      (r := ⟨st.dmap, st.pmap, rest⟩) hst hr
  · subst hst'
    exact hst

theorem spInit_pmap_find (g : Digraph V E) (s : Int) {v p : Int}
    (hf : StdMap.find (spInit g s).pmap v = some p) : p = v := by
  rcases foldl_assign_mem (fun key => key.1) _ _ (StdMap.mem_of_find hf) with h | ⟨key, _, hp⟩
  · simp at h
  · have h1 := (Prod.mk.inj hp).1
    have h2 := (Prod.mk.inj hp).2
    rw [h1, h2]

theorem spInit_tree (g : Digraph V E) (s : Int) :
    TreeInv g s (spInit g s).dmap (spInit g s).pmap := by
  refine ⟨?_, ?_⟩
  · intro v p hf hpv
    exact absurd (spInit_pmap_find g s hf) hpv
  · intro v dv hf hlt
    rcases spInit_dmap_find g s hf with ⟨hv, _⟩ | h
    · rw [hv]
      exact ⟨[s], PredChain.start, List.pairwise_singleton _ _⟩
    · rw [h, lt_DBL_MAX_self] at hlt
      cases hlt

theorem chain_length_le {g : Digraph V E} {c : List Int} (hnd : c.Nodup)
    (hsub : ∀ x ∈ c, x ∈ vertices g) : c.length ≤ vertexCount g := by
  have h := (List.subperm_of_subset hnd hsub).length_le
  simpa [vertices, StdMap.keys, vertexCount] using h

/-- Under non-negative weights every map that `findShortestPaths` returns keeps the start
vertex as its own predecessor, and every other predecessor link is an edge of the graph from
which the links lead back to the start vertex through vertices of the graph, none met twice.
The call returns unless a pass reads an uninitialised `smallkey` that holds no vertex id. -/
theorem findShortestPaths_tree (g : Digraph V E) (startVertex : Int) (w : E → Double)
    (garbage : Nat → Int) (hwf : WellFormed g) (hs : startVertex ∈ vertices g)
    (hw : ∀ x, Double.le Double.zero (w x) = true) :
    (findShortestPaths g startVertex w garbage = some (.error .outOfRange) ∧
        ∃ i, garbage i ∉ vertices g) ∨
      ∃ m, findShortestPaths g startVertex w garbage = some (.ok m) ∧
        StdMap.find m startVertex = some startVertex ∧
        ∀ v p, StdMap.find m v = some p → p ≠ v →
          Adj g p v ∧
          ∃ c, PredChain m startVertex v c ∧ c.Nodup ∧ ∀ x ∈ c, x ∈ vertices g := by
  have hloop := spLoop_total hwf (w := w)
    (fun st => DistInv g startVertex st.dmap st.pmap ∧ TreeInv g startVertex st.dmap st.pmap)
    (fun _ _ _ _ _ _ hP _ hb => spBody_tree hw hP hb) garbage (edgeCount g + 2) 0
    (spInit g startVertex) (spInit_inv hwf hs)
    ⟨spInit_dist hwf hs, spInit_tree g startVertex⟩ (spInit_measure g startVertex)
  rcases findShortestPaths_of_loop
      (fun st => SPInv g st ∧
        (DistInv g startVertex st.dmap st.pmap ∧ TreeInv g startVertex st.dmap st.pmap) ∧
        st.distance_queue = [])
      hloop with h | ⟨st, h, hinv, ⟨hdist, hT1, hT2⟩, _⟩
  · exact Or.inl h
  · refine Or.inr ⟨st.pmap, h, hdist.2.2.1, ?_⟩
    intro v p hf hpv
    obtain ⟨hadj, dv, hdv, hlt⟩ := hT1 v p hf hpv
    obtain ⟨c, hc, hd⟩ := hT2 v dv hdv hlt
    refine ⟨hadj, c, hc, descending_nodup hd, ?_⟩
    intro x hx
    rcases predChain_mem_keys hc x hx with h1 | h1
    · rw [h1]; exact hs
    · rw [← hinv.2.1]; exact h1

/-- C23: for every graph whose edges are stored under their `fromVertex` and lead to present
vertices, every start vertex of the graph and every weight function without negative values,
in every map that `findShortestPaths` returns, for every vertex `v` with `pred[v] != v`, the
pair `(pred[v], v)` is an edge of the graph and following `pred` from `v` reaches the start
vertex within `vertexCount() - 1` steps without meeting a vertex twice.  The call does return
such a map, unless a pass reads an uninitialised `smallkey` that holds no vertex id: then
`GraphMap.at` throws `std::out_of_range`. -/
theorem findShortestPaths_pred_paths (g : Digraph V E) (startVertex : Int) (w : E → Double)
    (garbage : Nat → Int) (hwf : WellFormed g) (hs : startVertex ∈ vertices g)
    (hw : ∀ x, Double.le Double.zero (w x) = true) :
    (findShortestPaths g startVertex w garbage = some (.error .outOfRange) ∧
        ∃ i, garbage i ∉ vertices g) ∨
      ∃ m, findShortestPaths g startVertex w garbage = some (.ok m) ∧
        ∀ v p, StdMap.find m v = some p → p ≠ v →
          (p, v) ∈ edges g ∧
          ∃ path, predPath m startVertex (vertexCount g - 1) v = some path ∧ path.Nodup := by
  rcases findShortestPaths_tree g startVertex w garbage hwf hs hw with h | ⟨m, hm, _, hall⟩
  · exact Or.inl h
  · refine Or.inr ⟨m, hm, ?_⟩
    intro v p hf hpv
    obtain ⟨hadj, c, hc, hnd, hsub⟩ := hall v p hf hpv
    have hlen := chain_length_le hnd hsub
    have hpos := predChain_length_pos hc
    exact ⟨(adj_iff_mem_edges hwf p v).mp hadj, c.reverse,
      predChain_predPath hc _ (by omega), List.nodup_reverse.mpr hnd⟩

/-- C23 on the worked scenario graph with start vertex 0, every uninitialised `smallkey`
holding 2: the call returns. -/
theorem findShortestPaths_pred_paths_witness :
    WellFormed scenarioGraph ∧ (0 : Int) ∈ vertices scenarioGraph ∧
    (∀ x, Double.le Double.zero (natWeight x) = true) ∧
    ∃ m, findShortestPaths scenarioGraph 0 natWeight (fun _ => 2) = some (.ok m) ∧
      ∀ v p, StdMap.find m v = some p → p ≠ v →
        (p, v) ∈ edges scenarioGraph ∧
        ∃ path, predPath m 0 (vertexCount scenarioGraph - 1) v = some path ∧ path.Nodup :=
  ⟨scenarioGraph_wellFormed, by decide, le_zero_natWeight,
    (findShortestPaths_pred_paths scenarioGraph 0 natWeight (fun _ => 2)
      scenarioGraph_wellFormed (by decide) le_zero_natWeight).resolve_left
      (fun h => h.2.elim fun _ hi => hi (by decide))⟩

/-! ## The route walk of `main` -/

theorem vertexInfo_of_adj {g : Digraph V E} {p v : Int} (h : Adj g p v) :
    ∃ location, vertexInfo g p = .ok location := by
  obtain ⟨dv, hdv, _⟩ := h
  exact ⟨dv.vinfo, by simp only [vertexInfo, hdv]⟩

theorem edgeInfo_of_adj {g : Digraph V E} {p v : Int} (h : Adj g p v) :
    ∃ info, edgeInfo g p v = .ok info := by
  obtain ⟨dv, hdv, e, he, hev⟩ := h
  have hsome : (dv.edges.find? (fun element => decide (v = element.toVertex))).isSome := by
    rw [List.find?_isSome]
    exact ⟨e, he, by simp [hev]⟩
  obtain ⟨e', he'⟩ := Option.isSome_iff_exists.mp hsome
  exact ⟨e'.einfo, by simp only [edgeInfo, hdv, he']⟩

/-- Along predecessor links that are edges and lead back to the start vertex, the loop of
`main` runs without an exception and records the vertices of the chain. -/
theorem walkLoop_of_chain {g : Digraph V E} {m : StdMap Int} {s v : Int} {c : List Int}
    (hc : PredChain m s v c) (hnd : c.Nodup)
    (hedge : ∀ x p, StdMap.find m x = some p → p ≠ x → Adj g p x)
    (fuel : Nat) (hlen : c.length ≤ fuel + 1) (t : List (records V E)) :
    ∃ t', walkLoop g m s fuel v t = some (.ok t') ∧
      t'.map (·.vertex) = t.map (·.vertex) ++ c.tail := by
  induction hc generalizing fuel t with
  | start => exact ⟨t, walkLoop_start g m s fuel t, by simp⟩
  | @link v0 p c0 hv hf hc0 ih =>
    have hpos := predChain_length_pos hc0
    have hpc : p ∈ c0 := by
      cases hc0 <;> simp
    have hnd' := List.nodup_cons.mp hnd
    have hpv : p ≠ v0 := fun h => hnd'.1 (h ▸ hpc)
    have hadj := hedge v0 p hf hpv
    obtain ⟨location, hloc⟩ := vertexInfo_of_adj hadj
    obtain ⟨info, hinfo⟩ := edgeInfo_of_adj hadj
    have hroute : routeAt m v0 = p := by simp [routeAt, hf]
    cases fuel with
    | zero => simp only [List.length_cons] at hlen; omega
    | succ n =>
      simp only [List.length_cons] at hlen
      obtain ⟨t', ht', hmap⟩ := ih hnd'.2 n (by omega) (t ++ [⟨p, location, info⟩])
      refine ⟨t', ?_, ?_⟩
      · have hsv : s ≠ v0 := fun h => hv h.symm
        simp only [walkLoop, hsv, ne_eq, not_false_eq_true, if_true, hroute, hloc, hinfo]
        exact ht'
      · rw [hmap]
        have hc0eq : c0 = p :: c0.tail := by
          cases hc0 <;> simp
        simp only [List.map_append, List.map_cons, List.map_nil, List.tail_cons,
          List.append_assoc, List.singleton_append]
        rw [← hc0eq]

/-- For a trip whose end vertex has a predecessor other than itself in the map that
`findShortestPaths` returns, the walk of `main` runs without an exception and collects, from
the end vertex back to the start vertex, vertices of the graph none of which is met twice. -/
theorem tripWalk_of_reached (g : Digraph V E) (startVertex endVertex : Int) (w : E → Double)
    (garbage : Nat → Int) (hwf : WellFormed g) (hs : startVertex ∈ vertices g)
    (hw : ∀ x, Double.le Double.zero (w x) = true) {m : StdMap Int}
    (hm : findShortestPaths g startVertex w garbage = some (.ok m)) {p : Int}
    (hf : StdMap.find m endVertex = some p) (hpe : p ≠ endVertex) :
    ∃ t, tripWalk g w garbage startVertex endVertex (vertexCount g) = some (.ok t) ∧
      PredChain m startVertex endVertex (t.map (·.vertex)) ∧
      (t.map (·.vertex)).Nodup := by
  rcases findShortestPaths_tree g startVertex w garbage hwf hs hw with h | ⟨m', hm', _, hall⟩
  · rw [h.1] at hm
    cases hm
  · rw [hm'] at hm
    cases hm
    obtain ⟨hadj, c, hc, hnd, hsub⟩ := hall endVertex p hf hpe
    have hlen := chain_length_le hnd hsub
    have hein : endVertex ∈ vertices g := hsub _ (by cases hc <;> simp)
    obtain ⟨dv, hdv⟩ := (StdMap.mem_keys_iff _ _).mp hein
    obtain ⟨info, hinfo⟩ := edgeInfo_of_adj hadj
    have hroute : routeAt m endVertex = p := by simp [routeAt, hf]
    obtain ⟨t, ht, hmap⟩ := walkLoop_of_chain hc hnd (fun x q hx hq => (hall x q hx hq).1)
      (vertexCount g) (by omega) [(⟨endVertex, dv.vinfo, info⟩ : records V E)]
    have hceq : c = endVertex :: c.tail := by
      cases hc <;> simp
    have hmap' : t.map (·.vertex) = c := by
      rw [hmap, hceq]; simp
    refine ⟨t, ?_, hmap' ▸ hc, hmap' ▸ hnd⟩
    rw [tripWalk_of_route hm']
    unfold routeWalk
    simp only [vertexInfo, hdv, hroute, hinfo]
    exact ht

end Digraph

end Traffic
